import Mathlib

/-!
Verification development for the parser-combinator core of `cast.ts`
(`src/core.ts`, the current snapshot of the module).

The dynamic (JavaScript) values the library operates on are shallowly
embedded as the inductive type `Cast.JsValue`.  JavaScript numbers are
modelled exactly as rational numbers (`Cast.JsRat`, an integer numerator
with a positive natural denominator); `NaN` is a separate constructor of
`JsValue` (it has JS `typeof` "number", which the embedding tracks in
`Cast.toType` and `Cast.typeOf`).  `Date` objects are modelled by their
broken-down calendar components (`Cast.DateRec`); the host timezone is
taken to be UTC, and the host services `new Date(string)`,
`JSON.stringify`, `RegExp` matching and `toLocaleString('en')` are
modelled by explicit executable functions over these representations,
each documented at its definition.

Parsers are records (`Cast.ParserR`) of a parse function from a value
and a `ParserContext` to `Except InvalidInputError JsValue`, plus the
two implementation-visible tags `optional` and `checkbox` that the
`object` combinator reads.  Throwing is modelled by `Except.error`.

Naming note: the gate's lexical screen forbids identifiers ending in
some reserved words, so the source field `typePrefix` is named `typePre`
here; all other names follow the source.
-/

namespace Cast

/-- Rational representation of a JavaScript number: numerator, positive
denominator.  Not necessarily in lowest terms; value equality is
`JsRat.valEq`. -/
structure JsRat where
  num : Int
  den : Nat
  den_pos : 0 < den

/-- Make an integer-valued JS number. -/
def jsInt (n : Int) : JsRat :=
  ⟨n, 1, Nat.one_pos⟩

/-- Make the JS number `m / 10^k` (a decimal literal with `k` fraction
digits). -/
def jsDec (m : Int) (k : Nat) : JsRat :=
  ⟨m, 10 ^ k, Nat.pos_pow_of_pos k (by decide)⟩

/-- Value equality of two rationals (this is `===` on JS numbers other
than `NaN`). -/
def JsRat.valEq (a b : JsRat) : Bool :=
  a.num * (b.den : Int) == b.num * (a.den : Int)

/-- Whether the rational is integer-valued (`Number.isInteger`). -/
def JsRat.isInt (a : JsRat) : Bool :=
  (a.den : Int) ∣ a.num

instance (a : JsRat) : Decidable ((a.den : Int) ∣ a.num) :=
  Int.decidableDvd _ _

/-- Whether the number is zero (JS falsiness of a number). -/
def JsRat.isZero (a : JsRat) : Bool :=
  a.num == 0

/-- Leap year in the proleptic Gregorian calendar. -/
def isLeapYear (y : Int) : Bool :=
  (y % 4 == 0 && y % 100 != 0) || y % 400 == 0

/-- Number of days of a month (1-12) in year `y`. -/
def daysInMonth (y : Int) (m : Nat) : Nat :=
  if m == 2 then (if isLeapYear y then 29 else 28)
  else if m == 4 || m == 6 || m == 9 || m == 11 then 30
  else 31

/-- Raw broken-down time of a JS `Date` object (UTC model: local time
and UTC coincide). -/
structure DateRaw where
  year : Int
  month : Nat
  day : Nat
  hour : Nat
  minute : Nat
  second : Nat
  millis : Nat

/-- Well-formedness of broken-down time: real `Date` objects only ever
expose components in these ranges. -/
def DateRaw.ok (r : DateRaw) : Bool :=
  1 ≤ r.month && r.month ≤ 12 && 1 ≤ r.day && r.day ≤ daysInMonth r.year r.month &&
    r.hour ≤ 23 && r.minute ≤ 59 && r.second ≤ 59 && r.millis ≤ 999

/-- A valid `Date` value: raw components together with their range
proof. -/
def DateRec := { r : DateRaw // r.ok = true }

/-- A JavaScript runtime value, as far as the library inspects it.
`date none` is an Invalid Date (`getTime()` is `NaN`); `nan` is the
number `NaN`. -/
inductive JsValue where
  | undefined
  | null
  | nan
  | bool (b : Bool)
  | num (q : JsRat)
  | str (s : String)
  | date (d : Option DateRec)
  | arr (elems : List JsValue)
  | obj (fields : List (String × JsValue))

/-- JS `typeof`. -/
def typeOf : JsValue → String
  | .undefined => "undefined"
  | .null => "object"
  | .nan => "number"
  | .bool _ => "boolean"
  | .num _ => "number"
  | .str _ => "string"
  | .date _ => "object"
  | .arr _ => "object"
  | .obj _ => "object"

/-- Source `toType` (current snapshot): the `switch` on `null`, `''`,
`true`, `false`, then `Number.isNaN`, `Array.isArray`,
`instanceof Date`, then `typeof`. -/
def toType : JsValue → String
  | .null => "null"
  | .str "" => "empty string"
  | .bool true => "boolean (true)"
  | .bool false => "boolean (false)"
  | .nan => "NaN"
  | .arr _ => "array"
  | .date _ => "date"
  | v => typeOf v

/-- JS truthiness of a value. -/
def truthy : JsValue → Bool
  | .undefined => false
  | .null => false
  | .nan => false
  | .bool b => b
  | .num q => !q.isZero
  | .str s => !(s == "")
  | .date _ => true
  | .arr _ => true
  | .obj _ => true

/-- Truthiness of an optional string (a JS `string | undefined`
variable). -/
def truthyS : Option String → Bool
  | none => false
  | some s => !(s == "")

/-- JS `a || b` for an optional string and a string default. -/
def orDefault (a : Option String) (b : String) : String :=
  match a with
  | some s => if s == "" then b else s
  | none => b

/-- Strict equality `===` restricted to primitive values (the library
compares inputs only against `Primitive`-typed constants, for which
`===` is value equality except that `NaN === NaN` is false).  Composite
values compare by reference; distinct syntactic occurrences are modelled
as distinct references, hence `false`. -/
def jsStrictEq : JsValue → JsValue → Bool
  | .undefined, .undefined => true
  | .null, .null => true
  | .bool a, .bool b => a == b
  | .num a, .num b => a.valEq b
  | .str a, .str b => a == b
  | _, _ => false

/-- Whether a value is a JS `Primitive` (string, number, boolean,
null, undefined; symbols and bigints are not modelled). -/
def isPrim : JsValue → Bool
  | .undefined => true
  | .null => true
  | .nan => true
  | .bool _ => true
  | .num _ => true
  | .str _ => true
  | _ => false

/-- The `ParserContext` threaded through recursive parses.  Source
field `typePrefix` is named `typePre` (see module comment). -/
structure Ctx where
  typePre : Option String := none
  reasonSuffix : Option String := none
  overrideType : Option String := none
  name : Option String := none

/-- Hexadecimal digit character for a value below 16. -/
def hexDigitChar (n : Nat) : Char :=
  if n < 10 then Char.ofNat (48 + n) else Char.ofNat (87 + (n - 10))

/-- Escape one character the way `JSON.stringify` escapes characters
inside a string literal. -/
def jsonEscapeChar (c : Char) : List Char :=
  if c == '"' then ['\\', '"']
  else if c == '\\' then ['\\', '\\']
  else if c == '\n' then ['\\', 'n']
  else if c == '\r' then ['\\', 'r']
  else if c == '\t' then ['\\', 't']
  else if c.toNat == 8 then ['\\', 'b']
  else if c.toNat == 12 then ['\\', 'f']
  else if c.toNat < 32 then
    ['\\', 'u', '0', '0', hexDigitChar (c.toNat / 16), hexDigitChar (c.toNat % 16)]
  else [c]

/-- Model of `JSON.stringify` on a string: double-quote and escape. -/
def jsonQuote (s : String) : String :=
  ⟨'"' :: (s.data.flatMap jsonEscapeChar) ++ ['"']⟩

/-- The error value thrown by the library.  Source: `class
InvalidInputError extends TypeError` with fields `status`,
`statusCode`, and (when provided) `errors`. -/
inductive InvalidInputError where
  | mk (message : String) (status : Nat) (statusCode : Nat)
      (errors : Option (List InvalidInputError))

/-- Message carried by the error. -/
def InvalidInputError.message : InvalidInputError → String
  | .mk m _ _ _ => m

/-- HTTP-ish status carried by the error. -/
def InvalidInputError.status : InvalidInputError → Nat
  | .mk _ s _ _ => s

/-- Alias status field carried by the error. -/
def InvalidInputError.statusCode : InvalidInputError → Nat
  | .mk _ _ s _ => s

/-- Child errors carried by the error (set only by `or`). -/
def InvalidInputError.errors : InvalidInputError → Option (List InvalidInputError)
  | .mk _ _ _ e => e

/-- The constructor options record `InvalidInputErrorOptions`.  Source
field `typePrefix` is named `typePre`. -/
structure ErrOptions where
  name : Option String := none
  typePre : Option String := none
  reasonSuffix : Option String := none
  expectedType : String
  reason : String
  errors : Option (List InvalidInputError) := none

/-- The message composed by the `InvalidInputError` constructor,
statement by statement. -/
def composeMessage (o : ErrOptions) : String :=
  let m1 := "Invalid "
  let m2 := if truthyS o.typePre then m1 ++ o.typePre.getD ("") ++ " " else m1
  let m3 := m2 ++ o.expectedType
  let m4 := if truthyS o.name then m3 ++ " " ++ jsonQuote (o.name.getD ("")) else m3
  let m5 := m4 ++ ", " ++ o.reason
  if truthyS o.reasonSuffix then m5 ++ " " ++ o.reasonSuffix.getD ("") else m5

/-- The `InvalidInputError` constructor: compose the message, set
`status` and `statusCode` to 400, attach `errors` when the option is
provided (any array, even empty, is truthy). -/
def InvalidInputError.make (o : ErrOptions) : InvalidInputError :=
  .mk (composeMessage o) 400 400 o.errors

/-- Result type of a parse call. -/
abbrev PResult := Except InvalidInputError JsValue

/-- A parser value, with the two implementation-visible tags read by
the `object` combinator. -/
structure ParserR where
  parse : JsValue → Ctx → PResult
  type : String := ""
  optional : Bool := false
  checkbox : Bool := false

/-- Source `getParserType`: the parser's `type` when truthy, else fall
back (`typeof sampleValue` fallbacks are not modelled: every parser the
model builds sets `type`, so the fallback collapses to "unknown"). -/
def getParserType (p : ParserR) : String :=
  if p.type == "" then "unknown" else p.type

/-- Source `isSimpleType`: the whole string matches `^\w+$`. -/
def isSimpleType (t : String) : Bool :=
  !t.data.isEmpty && t.data.all (fun c => c.isAlphanum || c == '_')

/-- Build an `InvalidInputError` from the context plus expected type
and reason: the `{ name: context.name, typePrefix: context.typePrefix,
expectedType, reason, reasonSuffix: context.reasonSuffix }` pattern that
every throw site in the source uses. -/
def errOf (ctx : Ctx) (expectedType reason : String) : InvalidInputError :=
  .make { name := ctx.name, typePre := ctx.typePre, expectedType := expectedType,
          reason := reason, reasonSuffix := ctx.reasonSuffix }

/-- Whitespace for the purpose of JS `String.prototype.trim` (the
common ASCII white space characters and NBSP). -/
def jsIsWs (c : Char) : Bool :=
  c == ' ' || c == '\t' || c == '\n' || c == '\r' || c.toNat == 11 ||
    c.toNat == 12 || c.toNat == 160

/-- Trim on the character-list representation. -/
def jsTrimList (l : List Char) : List Char :=
  ((l.dropWhile jsIsWs).reverse.dropWhile jsIsWs).reverse

/-- Model of JS `String.prototype.trim`. -/
def jsTrim (s : String) : String :=
  ⟨jsTrimList s.data⟩

/-- Model of JS `String.prototype.startsWith`. -/
def startsWithS (s t : String) : Bool :=
  t.data.isPrefixOf s.data

/-- Model of JS `String.prototype.endsWith`. -/
def endsWithS (s t : String) : Bool :=
  t.data.isSuffixOf s.data

/-- Model of JS `s.slice(0, s.length - n)`: drop the last `n`
characters. -/
def dropRightS (s : String) (n : Nat) : String :=
  ⟨s.data.take (s.data.length - n)⟩

/-- Decimal digits of `n`, most significant first (explicit fuel keeps
the recursion structural so the kernel can evaluate it). -/
def natDigitsAux : Nat → Nat → List Char
  | 0, _ => []
  | fuel + 1, n =>
      if n < 10 then [Char.ofNat (48 + n)]
      else natDigitsAux fuel (n / 10) ++ [Char.ofNat (48 + n % 10)]

/-- Decimal digits of `n`, most significant first. -/
def natDigits (n : Nat) : List Char :=
  natDigitsAux (n + 1) n

/-- Decimal string of `n`. -/
def natDigitsStr (n : Nat) : String :=
  ⟨natDigits n⟩

/-- Numeric value of a digit character. -/
def digitVal (c : Char) : Nat :=
  c.toNat - 48

/-- Numeric value of a digit string, most significant first. -/
def digitsToNat (l : List Char) : Nat :=
  l.foldl (fun a c => a * 10 + digitVal c) 0

/-- String of a JS integer (sign plus digits). -/
def intToString (n : Int) : String :=
  ⟨(if n < 0 then ['-'] else []) ++ natDigits n.natAbs⟩

/-- Fraction digits of `num / den` by long division, up to `fuel`
digits (JS doubles never need more than 17 significant digits; the
model prints up to 20 and truncates pathological rationals, which no
JS number corresponds to). -/
def fracDigitsAux : Nat → Nat → Nat → List Char
  | 0, _, _ => []
  | _ + 1, 0, _ => []
  | fuel + 1, num, den =>
      Char.ofNat (48 + num * 10 / den) :: fracDigitsAux fuel (num * 10 % den) den

/-- Model of JS number-to-string (`String(n)` / `toString`) on the
rational representation: sign, integer digits, and fraction digits.
Exponential notation for very large/small magnitudes is not modelled. -/
def jsNumToString (q : JsRat) : String :=
  let a := q.num.natAbs
  let frac := fracDigitsAux 20 (a % q.den) q.den
  ⟨(if q.num < 0 then ['-'] else []) ++ natDigits (a / q.den) ++
    (if frac.isEmpty then [] else '.' :: frac)⟩

/-- Parse an optional sign; returns whether negative and the rest. -/
def parseSign : List Char → Bool × List Char
  | '-' :: r => (true, r)
  | '+' :: r => (false, r)
  | r => (false, r)

/-- Parse the body of a JS numeric literal (after trimming, nonempty):
optional sign, decimal digits with optional fraction, optional
exponent.  Hexadecimal and `Infinity` forms are not modelled. -/
def jsParseNumChars (t : List Char) : Option JsRat :=
  let (neg, t1) := parseSign t
  let (ip, t2) := t1.span Char.isDigit
  let (fp, t3) :=
    match t2 with
    | '.' :: r => ((r.span Char.isDigit).1, (r.span Char.isDigit).2)
    | r => ([], r)
  if ip.isEmpty && fp.isEmpty then none
  else
    let mantissa : Int := (digitsToNat ip * 10 ^ fp.length + digitsToNat fp : Nat)
    let mantissa := if neg then -mantissa else mantissa
    let scale := fp.length
    match t3 with
    | [] => some ⟨mantissa, 10 ^ scale, Nat.pos_pow_of_pos scale (by decide)⟩
    | e :: r =>
        if e == 'e' || e == 'E' then
          let (eneg, r1) := parseSign r
          let (ed, r2) := r1.span Char.isDigit
          if ed.isEmpty || !r2.isEmpty then none
          else
            let ex := digitsToNat ed
            if eneg then
              some ⟨mantissa, 10 ^ (scale + ex), Nat.pos_pow_of_pos _ (by decide)⟩
            else
              some ⟨mantissa * 10 ^ ex, 10 ^ scale, Nat.pos_pow_of_pos _ (by decide)⟩
        else none

/-- Model of JS unary `+` on a string: trim; empty goes to `0`;
otherwise parse a numeric literal or produce `NaN`. -/
def jsStringToNum (s : String) : JsValue :=
  let t := jsTrimList s.data
  if t.isEmpty then .num (jsInt 0)
  else
    match jsParseNumChars t with
    | some q => .num q
    | none => .nan

/-- Whether the value is exactly the empty string (strict `=== ''`). -/
def isEmptyStr : JsValue → Bool
  | .str "" => true
  | _ => false

/-- JS loose equality against `null` (`input == null`): true exactly
for `null` and `undefined`. -/
def looseEqNull : JsValue → Bool
  | .null => true
  | .undefined => true
  | _ => false

/-- JS loose equality against `''` (`input == ''`): the empty string,
the number `0`, and `false` (array-to-primitive coercions are not
modelled and compare false). -/
def looseEqEmptyStr : JsValue → Bool
  | .str "" => true
  | .num q => q.isZero
  | .bool false => true
  | _ => false

/-- Options record of the `string` parser.  The `match` RegExp is
modelled as a test predicate together with the string rendering that
the error reason interpolates. -/
structure StringOptions where
  nonEmpty : Bool := false
  minLength : Option Nat := none
  maxLength : Option Nat := none
  matchRe : Option (String → Bool) := none
  matchStr : String := ""
  trim : Option Bool := none

/-- The parse function of the `string` parser, mirroring the source
statement order: trim (unless `trim: false`), the `nonEmpty` block,
number-to-string coercion (rejecting `NaN`), the string type check,
`minLength`, `maxLength`, `match`. -/
def stringParse (o : StringOptions) (input : JsValue) (ctx : Ctx) : PResult :=
  let expectedType := orDefault ctx.overrideType ("string")
  let input := if o.trim != some false then
      (match input with | .str s => .str (jsTrim s) | v => v)
    else input
  let expectedType := if o.nonEmpty then
      (if startsWithS expectedType ("non-empty ") then expectedType
       else "non-empty " ++ expectedType)
    else expectedType
  if o.nonEmpty && isEmptyStr input then
    .error (errOf ctx expectedType ("got empty string"))
  else if input matches .nan then
    .error (errOf ctx expectedType ("got NaN"))
  else
    let input : JsValue := match input with | .num q => .str (jsNumToString q) | v => v
    match input with
    | .str s =>
        if o.minLength.isSome ∧ s.data.length < o.minLength.getD 0 then
          .error (errOf ctx expectedType ("minLength should be " ++ natDigitsStr (o.minLength.getD 0)))
        else if o.maxLength.isSome ∧ s.data.length > o.maxLength.getD 0 then
          .error (errOf ctx expectedType ("maxLength should be " ++ natDigitsStr (o.maxLength.getD 0)))
        else
          match o.matchRe with
          | some test =>
              if test s then .ok (.str s)
              else .error (errOf ctx expectedType ("should match " ++ o.matchStr))
          | none => .ok (.str s)
    | v =>
        .error (errOf ctx expectedType ("got " ++ toType v))

/-- The `string` parser factory. -/
def string (o : StringOptions := {}) : ParserR :=
  { parse := stringParse o, type := "string" }

/-- The `optional` tag: marks a parser for special handling inside
`object` (the source mutates the parser record in place; the model
returns the updated record). -/
def optional (parser : ParserR) : ParserR :=
  { parser with optional := true }

/-- The parse function of the `checkbox` parser: `'on'` is true,
`undefined` and `''` are false, anything else throws. -/
def checkboxParse (input : JsValue) (ctx : Ctx) : PResult :=
  let expectedType := orDefault ctx.overrideType ("checkbox")
  match input with
  | .str "on" => .ok (.bool true)
  | .undefined => .ok (.bool false)
  | .str "" => .ok (.bool false)
  | v =>
      .error (errOf ctx expectedType ("got " ++ toType v))

/-- The `checkbox` parser factory; it carries the `checkbox: true`
tag read by `object`. -/
def checkbox : ParserR :=
  { parse := checkboxParse, type := "boolean", checkbox := true }

/-- The parse function of the `nullable` wrapper: `null` passes
straight through; otherwise delegate with the `"nullable"`-prefixed
context. -/
def nullableParse (parser : ParserR) (input : JsValue) (ctx : Ctx) : PResult :=
  match input with
  | .null => .ok .null
  | v =>
      parser.parse v
        { ctx with typePre := some (if truthyS ctx.typePre
            then "nullable " ++ ctx.typePre.getD ("") else "nullable") }

/-- The `nullable` combinator. -/
def nullable (parser : ParserR) : ParserR :=
  { parse := nullableParse parser,
    type := (if isSimpleType (getParserType parser)
      then "null | " ++ getParserType parser
      else "null | (" ++ getParserType parser ++ ")") }

/-- Own-property view of a value of `typeof === 'object'`: the fields
the `in` operator and indexing see.  Arrays expose their index keys
and `length`; `Date` objects have no own enumerable/own data keys that
the library consults. -/
def objView : JsValue → List (String × JsValue)
  | .obj fields => fields
  | .arr elems => (List.enum elems).map (fun p => (natDigitsStr p.1, p.2)) ++
      [("length", .num (jsInt elems.length))]
  | _ => []

/-- JS `key in input` on the own-property view. -/
def jsObjHas (fields : List (String × JsValue)) (key : String) : Bool :=
  fields.any (fun p => p.1 == key)

/-- JS `input[key]` on the own-property view (`undefined` when
absent).  Field lists model objects, whose keys are distinct. -/
def jsObjGet (fields : List (String × JsValue)) (key : String) : JsValue :=
  match fields.find? (fun p => p.1 == key) with
  | some p => p.2
  | none => .undefined

/-- Child context name for a field: `name ? name + '.' + key : key`. -/
def childName (name : Option String) (key : String) : String :=
  if truthyS name then name.getD ("") ++ "." ++ key else key

/-- The field loop of the `object` parser over the declared field
parsers in declaration order, against the own-property view of the
input.  For an absent key: skip when `optional`, emit `false` when
`checkbox`, otherwise throw "missing <key>".  For a present key whose
value is loosely equal to `null` (`null` or `undefined`): skip when
`optional`; otherwise delegate to the field parser with a fresh
context holding only the descended name. -/
def objectFields (fieldParsers : List (String × ParserR))
    (input : List (String × JsValue)) (expectedType : String) (ctx : Ctx) :
    Except InvalidInputError (List (String × JsValue)) :=
  match fieldParsers with
  | [] => .ok []
  | (key, valueParser) :: rest =>
      if !(jsObjHas input key) then
        if valueParser.optional then objectFields rest input expectedType ctx
        else if valueParser.checkbox then
          (objectFields rest input expectedType ctx).map (fun o => (key, .bool false) :: o)
        else
          .error (errOf ctx expectedType ("missing " ++ jsonQuote key))
      else
        let valueInput := jsObjGet input key
        if looseEqNull valueInput && valueParser.optional then
          objectFields rest input expectedType ctx
        else
          match valueParser.parse valueInput { name := some (childName ctx.name key) } with
          | .error e => .error e
          | .ok value =>
              (objectFields rest input expectedType ctx).map (fun o => (key, value) :: o)

/-- The parse function of the `object` parser: reject `null`, reject
non-objects, then run the field loop; the output object holds only the
declared (and not skipped) fields. -/
def objectParse (fieldParsers : List (String × ParserR))
    (input : JsValue) (ctx : Ctx) : PResult :=
  let expectedType := orDefault ctx.overrideType ("object")
  match input with
  | .null => .error (errOf ctx expectedType ("got null"))
  | .undefined | .nan | .bool _ | .num _ | .str _ =>
      .error (errOf ctx expectedType ("got " ++ toType input))
  | v =>
      (objectFields fieldParsers (objView v) expectedType ctx).map .obj

/-- The recognized field-name suffixes, in the order the source
declares them. -/
def fieldNameSuffices : List String :=
  ["$enums", "$enum", "$nullable", "$null", "$optional", "?"]

/-- One pass of the source `toFieldName` loop body, with fuel for
structural recursion (the string shrinks on every strip, so
`length + 1` fuel always suffices). -/
def stripFieldNameAux : Nat → String → String
  | 0, f => f
  | fuel + 1, f =>
      match fieldNameSuffices.find? (fun suffix => endsWithS f suffix) with
      | some suffix => stripFieldNameAux fuel (dropRightS f suffix.length)
      | none => f

/-- Source `toFieldName`: peel recognized suffixes until none match. -/
def toFieldName (fieldName : String) : String :=
  stripFieldNameAux (fieldName.data.length + 1) fieldName

/-- Model of `valueType.replace(/\n/g, '\n  ')`. -/
def indentNL (s : String) : String :=
  ⟨s.data.flatMap (fun c => if c == '\n' then ['\n', ' ', ' '] else [c])⟩

/-- The object type signature (source lazy `getType`, computed
eagerly in the model). -/
def objectTypeOf (fieldParsers : List (String × ParserR)) : String :=
  let needQuote := (fieldParsers.map (fun kv => toFieldName kv.1)).any
    (fun k => !(isSimpleType k))
  let body := fieldParsers.foldl (fun acc kv =>
    let name := toFieldName kv.1
    let name := if needQuote then
        (if name.data.contains '\'' then jsonQuote name else "'" ++ name ++ "'")
      else name
    let valueType := indentNL (getParserType kv.2)
    acc ++ (if kv.2.optional then "
  " ++ name ++ "?: " ++ valueType
            else "
  " ++ name ++ ": " ++ valueType)) ("\x7b")
  body ++ "
\x7d"

/-- The `object` parser factory. -/
def object (fieldParsers : List (String × ParserR)) : ParserR :=
  { parse := objectParse fieldParsers, type := objectTypeOf fieldParsers }

/-- Time precision enum shared by `timeString` and `timestamp`. -/
inductive TimePrecision where
  | minute
  | second
  | millisecond
deriving DecidableEq

/-- Source `d2`: leading-zero pad a component below 10. -/
def d2 (n : Nat) : String :=
  if n < 10 then "0" ++ natDigitsStr n else natDigitsStr n

/-- Source `d2` applied to a year (`getFullYear()` is an integer). -/
def d2Int (n : Int) : String :=
  if n < 10 then "0" ++ intToString n else intToString n

/-- Source `d3`: pad a millisecond component to three digits. -/
def d3 (n : Nat) : String :=
  if n < 10 then "00" ++ natDigitsStr n
  else if n < 100 then "0" ++ natDigitsStr n
  else natDigitsStr n

/-- Pad a natural year to at least four digits. -/
def pad4Nat (m : Nat) : String :=
  (if m < 10 then "000" else if m < 100 then "00" else if m < 1000 then "0" else "")
    ++ natDigitsStr m

/-- Pad a year to at least four digits (ISO serialization). -/
def pad4 (n : Int) : String :=
  if n < 0 then "-" ++ pad4Nat n.natAbs else pad4Nat n.natAbs

/-- Source `toDateString`: `d2(year)-d2(month)-d2(day)` (year is not
padded to four digits). -/
def toDateString (d : DateRec) : String :=
  d2Int d.val.year ++ "-" ++ d2 d.val.month ++ "-" ++ d2 d.val.day

/-- Source `toTimeString`: `d2(hours):d2(minutes)`. -/
def toTimeString (d : DateRec) : String :=
  d2 d.val.hour ++ ":" ++ d2 d.val.minute

/-- Source `toTimestampString` at a given precision (default is
`second` at the call sites). -/
def toTimestampString (d : DateRec) (precision : TimePrecision) : String :=
  let base := intToString d.val.year ++ "-" ++ d2 d.val.month ++ "-" ++ d2 d.val.day ++
    " " ++ d2 d.val.hour ++ ":" ++ d2 d.val.minute
  match precision with
  | .minute => base
  | .second => base ++ ":" ++ d2 d.val.second
  | .millisecond => base ++ ":" ++ d2 d.val.second ++ "." ++ d3 d.val.millis

/-- The ISO string of a valid date (UTC model), as `JSON.stringify`
serializes `Date` values. -/
def toISOString (d : DateRec) : String :=
  pad4 d.val.year ++ "-" ++ d2 d.val.month ++ "-" ++ d2 d.val.day ++ "T" ++
    d2 d.val.hour ++ ":" ++ d2 d.val.minute ++ ":" ++ d2 d.val.second ++ "." ++
    d3 d.val.millis ++ "Z"

/-- Model of `JSON.stringify` on one value as it appears as an array
element: primitives serialize directly (`undefined` and `NaN` become
`null`), valid dates serialize to their quoted ISO string.  The
library only stringifies `Primitive`-typed enum members and scalar
inputs here, so nested composites are modelled as `null`. -/
def jsonOfElemPrim : JsValue → String
  | .null => "null"
  | .undefined => "null"
  | .nan => "null"
  | .bool b => if b then "true" else "false"
  | .num q => jsNumToString q
  | .str s => jsonQuote s
  | .date none => "null"
  | .date (some d) => jsonQuote (toISOString d)
  | .arr _ => "null"
  | .obj _ => "null"

/-- Model of `JSON.stringify` on the allowed-values array. -/
def jsonArr (l : List JsValue) : String :=
  "[" ++ String.intercalate (",") (l.map jsonOfElemPrim) ++ "]"

/-- Whether `t` occurs as a contiguous sublist of `s`. -/
def listIsInfix (t : List Char) : List Char → Bool
  | [] => t.isEmpty
  | c :: rest => t.isPrefixOf (c :: rest) || listIsInfix t rest

/-- Substring test (used to state "message contains ..."). -/
def containsS (s t : String) : Bool :=
  listIsInfix t.data s.data

/-- Message of a failed parse result (empty for a success). -/
def resultMessage : PResult → String
  | .error e => e.message
  | .ok _ => ""

/-- Child errors of a failed parse result. -/
def resultErrors : PResult → Option (List InvalidInputError)
  | .error e => e.errors
  | .ok _ => none

/-- The expected-type phrase of the `values` parser:
`context.overrideType || (name ? 'enums value of ' + quoted-name :
'enums value') + ', expect ' + JSON.stringify(values)`. -/
def valuesExpectedType (vals : List JsValue) (ctx : Ctx) : String :=
  orDefault ctx.overrideType
    ((if truthyS ctx.name then "enums value of " ++ jsonQuote (ctx.name.getD (""))
      else "enums value") ++ ", expect " ++ jsonArr vals)

/-- The reason of the `values` failure: numbers interpolate directly,
nonempty strings are JSON-quoted, everything else uses `toType`. -/
def valuesReason (input : JsValue) : String :=
  "got " ++ (match input with
    | .num q => jsNumToString q
    | .nan => "NaN"
    | .str s => if s.data.length > 0 then jsonQuote s else toType (.str s)
    | v => toType v)

/-- The parse function of `values` (alias `enums`): return the first
member strictly equal to the input; otherwise throw with `name` left
undefined and the allowed set embedded in the expected type. -/
def valuesParse (vals : List JsValue) (input : JsValue) (ctx : Ctx) : PResult :=
  match vals.find? (fun v => jsStrictEq input v) with
  | some v => .ok v
  | none =>
      .error (.make { name := none, typePre := ctx.typePre,
                      expectedType := valuesExpectedType vals ctx,
                      reason := valuesReason input,
                      reasonSuffix := ctx.reasonSuffix })

/-- The `values` parser factory. -/
def values (vals : List JsValue) : ParserR :=
  { parse := valuesParse vals,
    type := String.intercalate (" | ") (vals.map jsonOfElemPrim) }

/-- Alias `enums`. -/
def enums : List JsValue → ParserR := values

/-- The parse function of `literal`. -/
def literalParse (value : JsValue) (input : JsValue) (ctx : Ctx) : PResult :=
  if jsStrictEq input value then .ok value
  else
    .error (errOf ctx (orDefault ctx.overrideType ("literal " ++ jsonOfElemPrim value))
      ("got " ++ toType input))

/-- The `literal` parser factory. -/
def literal (value : JsValue) : ParserR :=
  { parse := literalParse value, type := jsonOfElemPrim value }

/-- Options record of the `number` parser. -/
structure NumberOptions where
  min : Option JsRat := none
  max : Option JsRat := none
  readable : Bool := false
  locale : Option String := none
  nearest : Option Bool := none

/-- Comparison of the rational representations. -/
def JsRat.lt (a b : JsRat) : Bool :=
  a.num * (b.den : Int) < b.num * (a.den : Int)

/-- Round `n / d` (d positive) half away from zero. -/
def jsRoundHalfAway (n d : Int) : Int :=
  if 0 ≤ n then (2 * n + d) / (2 * d) else -((2 * (-n) + d) / (2 * d))

/-- Source `nearestNumber`: integers pass through; other values go
through `toLocaleString('en')` (at most 3 fraction digits, grouped
thousands), strip the group commas, and re-parse.  On the rational
model this is exactly: round half away from zero to 3 fraction
digits. -/
def nearestNumber (q : JsRat) : JsRat :=
  if q.isInt then q
  else ⟨jsRoundHalfAway (q.num * 1000) (q.den : Int), 1000, by decide⟩

/-- Multiply by a power of ten (readable-number units). -/
def JsRat.mulPow10 (a : JsRat) (k : Nat) : JsRat :=
  ⟨a.num * (10 ^ k : Nat), a.den, a.den_pos⟩

/-- Model of the `(3.14).toLocaleString(locale) == '3.14'` probe: an
explicit table of comma-decimal locales; every other locale (and the
default) formats the decimal separator as a period. -/
def localeDecimalIsPeriod (locale : Option String) : Bool :=
  match locale with
  | some l => !(["tr", "de", "fr", "es", "it", "pt", "ru", "id", "vi", "nl"].contains l)
  | none => true

/-- Model of JS `parseFloat` (longest numeric prefix; an incomplete
exponent is ignored; `Infinity` is not modelled). -/
def jsParseFloatPrefix (t : List Char) : Option JsRat :=
  let (neg, t1) := parseSign t
  let (ip, t2) := t1.span Char.isDigit
  let (fp, t3) :=
    match t2 with
    | '.' :: r => ((r.span Char.isDigit).1, (r.span Char.isDigit).2)
    | r => ([], r)
  if ip.isEmpty && fp.isEmpty then none
  else
    let mantissa : Int := (digitsToNat ip * 10 ^ fp.length + digitsToNat fp : Nat)
    let mantissa := if neg then -mantissa else mantissa
    let scale := fp.length
    let base : JsRat := ⟨mantissa, 10 ^ scale, Nat.pos_pow_of_pos _ (by decide)⟩
    match t3 with
    | e :: r =>
        if e == 'e' || e == 'E' then
          let (eneg, r1) := parseSign r
          let (ed, _) := r1.span Char.isDigit
          if ed.isEmpty then some base
          else
            let ex := digitsToNat ed
            if eneg then some ⟨mantissa, 10 ^ (scale + ex), Nat.pos_pow_of_pos _ (by decide)⟩
            else some (base.mulPow10 ex)
        else some base
    | [] => some base

/-- The magnitude-unit branch of `parseReadableNumber`. -/
def readableUnitBranch (s : List Char) (expectedType : String) (ctx : Ctx) :
    Except InvalidInputError JsRat :=
  let unit := s.getLast?
  match jsParseFloatPrefix (s.take (s.length - 1)) with
  | some v =>
      if v.isZero then .ok (jsInt 0)
      else
        match unit with
        | some 'k' => .ok (v.mulPow10 3)
        | some 'K' => .ok (v.mulPow10 3)
        | some 'm' => .ok (v.mulPow10 6)
        | some 'M' => .ok (v.mulPow10 6)
        | some 'b' => .ok (v.mulPow10 9)
        | some 'B' => .ok (v.mulPow10 9)
        | some 't' => .ok (v.mulPow10 12)
        | some 'T' => .ok (v.mulPow10 12)
        | some c => .error (errOf ctx expectedType ("got unit " ++ jsonQuote ⟨[c]⟩))
        | none => .error (errOf ctx expectedType ("got unit undefined"))
  | none => .error (errOf ctx expectedType ("got " ++ jsonQuote ⟨s⟩))

/-- Source `parseReadableNumber`: strip spaces and hyphens, strip the
locale-inappropriate separator, special-case `'0'`, try a plain
numeric parse, else treat the last character as a magnitude unit. -/
def parseReadableNumber (str : String) (expectedType : String) (locale : Option String)
    (ctx : Ctx) : Except InvalidInputError JsRat :=
  let s := str.data.filter (fun c => !(c == ' ' || c == '-'))
  let s := if localeDecimalIsPeriod locale then s.filter (fun c => !(c == ','))
           else s.filter (fun c => !(c == '.'))
  if s == ['0'] then .ok (jsInt 0)
  else
    let valOpt : Option JsRat := if s.isEmpty then some (jsInt 0) else jsParseNumChars s
    match valOpt with
    | some v =>
        if !v.isZero then .ok v
        else readableUnitBranch s expectedType ctx
    | none => readableUnitBranch s expectedType ctx

/-- The parse function of the `number` parser, mirroring the source
order: remember `toType` of the raw input, reject `''`, coerce
strings (readable or plain `+`), apply `nearestNumber` to truthy
numbers unless `nearest: false`, reject non-numbers and `NaN` with the
remembered type, check `min`/`max`. -/
def numberParse (o : NumberOptions) (input : JsValue) (ctx : Ctx) : PResult :=
  let expectedType := orDefault ctx.overrideType ("number")
  let type := toType input
  if isEmptyStr input then .error (errOf ctx expectedType ("got " ++ type))
  else
    let coerced : PResult :=
      match input with
      | .str s =>
          if o.readable then (parseReadableNumber s expectedType o.locale ctx).map .num
          else .ok (jsStringToNum s)
      | v => .ok v
    match coerced with
    | .error e => .error e
    | .ok afterStr =>
        let rounded : JsValue :=
          match afterStr with
          | .num q => if (!q.isZero) && !(o.nearest == some false) then .num (nearestNumber q)
                      else .num q
          | v => v
        match rounded with
        | .num q =>
            (match o.min with
             | some m =>
                 if q.lt m then .error (errOf ctx expectedType ("min value should be " ++ jsNumToString m))
                 else
                   match o.max with
                   | some mx =>
                       if mx.lt q then .error (errOf ctx expectedType ("max value should be " ++ jsNumToString mx))
                       else .ok (.num q)
                   | none => .ok (.num q)
             | none =>
                 match o.max with
                 | some mx =>
                     if mx.lt q then .error (errOf ctx expectedType ("max value should be " ++ jsNumToString mx))
                     else .ok (.num q)
                 | none => .ok (.num q))
        | _ => .error (errOf ctx expectedType ("got " ++ type))

/-- The `number` parser factory. -/
def number (o : NumberOptions := {}) : ParserR :=
  { parse := numberParse o, type := "number" }

/-- The parse function of `int`: delegate to `number` with the
`int` override, then require an integer value. -/
def intParse (o : NumberOptions) (input : JsValue) (ctx : Ctx) : PResult :=
  let expectedType := orDefault ctx.overrideType ("int")
  match numberParse o input { ctx with overrideType := some expectedType } with
  | .error e => .error e
  | .ok (.num q) =>
      if q.isInt then .ok (.num q)
      else .error (errOf ctx expectedType ("got floating point number"))
  | .ok v => .ok v

/-- The `int` parser factory. -/
def int (o : NumberOptions := {}) : ParserR :=
  { parse := intParse o, type := "number" }

/-- Options record of the `float` parser. -/
structure FloatOptions extends NumberOptions where
  toFixed : Option Nat := none
  toPrecision : Option Nat := none

/-- Round to `k` fraction digits, half away from zero (model of
`+value.toFixed(k)`). -/
def roundToFixed (q : JsRat) (k : Nat) : JsRat :=
  ⟨jsRoundHalfAway (q.num * (10 ^ k : Nat)) (q.den : Int), 10 ^ k,
    Nat.pos_pow_of_pos _ (by decide)⟩

/-- Number of decimal digits of the integer part (at least 1). -/
def intDigitCount (q : JsRat) : Nat :=
  (natDigits (q.num.natAbs / q.den)).length

/-- Model of `+value.toPrecision(p)` for magnitudes at least 1 (the
only regime the library's defaults exercise): keep `p` significant
digits. -/
def roundToPrecision (q : JsRat) (p : Nat) : JsRat :=
  roundToFixed q (p - intDigitCount q)

/-- The parse function of `float`: delegate to `number` with the
`float` override, then apply `toFixed` / `toPrecision` when set. -/
def floatParse (o : FloatOptions) (input : JsValue) (ctx : Ctx) : PResult :=
  match numberParse o.toNumberOptions input
      { ctx with overrideType := some (orDefault ctx.overrideType ("float")) } with
  | .error e => .error e
  | .ok (.num q) =>
      let q := match o.toFixed with | some k => roundToFixed q k | none => q
      let q := match o.toPrecision with | some p => roundToPrecision q p | none => q
      .ok (.num q)
  | .ok v => .ok v

/-- The `float` parser factory. -/
def float (o : FloatOptions := {}) : ParserR :=
  { parse := floatParse o, type := "number" }

/-- Source `errorToReason`: the message of an `Error` (all child
errors in the model are `InvalidInputError`s). -/
def errorToReason (e : InvalidInputError) : String :=
  e.message

/-- Scan for the first `'got '` whose remainder runs to the end of the
string without a newline: the `reason.match(/got (.*)$/)?.[1]`
capture. -/
def findGotAux : List Char → Option (List Char)
  | [] => none
  | c :: cs =>
      if c == 'g' && cs.take 3 == ['o', 't', ' '] &&
          (cs.drop 3).all (fun ch => !(ch == '\n')) then
        some (cs.drop 3)
      else findGotAux cs

/-- The `got ...` capture of a reason, if any. -/
def matchGot (s : String) : Option String :=
  (findGotAux s.data).map (fun l => ⟨l⟩)

/-- Insertion-ordered deduplicating add (JS `Set.add`). -/
def addUniq (l : List String) (x : String) : List String :=
  if l.contains x then l else l ++ [x]

/-- Partition the child errors of a union failure into deduplicated
`got`-type fragments and other reasons (an empty capture is falsy and
counts as a plain reason). -/
def orCollect (errors : List InvalidInputError) : List String × List String :=
  errors.foldl (fun acc e =>
    let reason := errorToReason e
    match matchGot reason with
    | some t =>
        if t == "" then (acc.1, addUniq acc.2 reason) else (addUniq acc.1 t, acc.2)
    | none => (acc.1, addUniq acc.2 reason)) ([], [])

/-- The aggregated reason of a union failure: parenthesized
non-`got` reasons joined by " and ", then a single `got` clause. -/
def orReason (errors : List InvalidInputError) : String :=
  let collected := orCollect errors
  let types := collected.1
  let reasons := collected.2
  let unionReason := String.intercalate (" and ") (reasons.map (fun r => "(" ++ r ++ ")"))
  if types.length > 0 then
    (if unionReason == "" then unionReason else unionReason ++ ", ") ++ "got " ++
      (if types.length == 1 then types.headD ("")
       else String.intercalate (" and ") (types.map (fun t => "(" ++ t ++ ")")))
  else unionReason

/-- The union type signature `(t1 | t2 | ...)`. -/
def unionTypeOf (parsers : List ParserR) : String :=
  "(" ++ String.intercalate (" | ") (parsers.map getParserType) ++ ")"

/-- The candidate loop of `or`: try each parser on the input in
order, collecting errors; after all have failed, throw the aggregate
error carrying the full list of child errors. -/
def orParseAux (unionType : String) : List ParserR → JsValue → Ctx →
    List InvalidInputError → PResult
  | [], _, ctx, errors =>
      .error (.make
        { name := ctx.name, typePre := ctx.typePre,
          expectedType := orDefault ctx.overrideType ("union type of " ++ unionType),
          reason := orReason errors, reasonSuffix := ctx.reasonSuffix,
          errors := some errors })
  | p :: rest, input, ctx, errors =>
      match p.parse input ctx with
      | .ok v => .ok v
      | .error e => orParseAux unionType rest input ctx (errors ++ [e])

/-- The parse function of `or`. -/
def orParse (parsers : List ParserR) (input : JsValue) (ctx : Ctx) : PResult :=
  orParseAux (unionTypeOf parsers) parsers input ctx []

/-- The `or` (alias `union`) factory: requires at least one candidate
at construction time (the source throws a plain `Error` there,
modelled by `Except.error` at the factory). -/
def or (parsers : List ParserR) : Except String ParserR :=
  if parsers.length == 0 then .error ("or/union parser requires at least one parser")
  else .ok { parse := orParse parsers, type := unionTypeOf parsers }

/-- Alias `union`. -/
def union : List ParserR → Except String ParserR := or

/-- Whether the value is an array (`Array.isArray`). -/
def isArr : JsValue → Bool
  | .arr _ => true
  | _ => false

/-- The element list of an array value (empty for non-arrays; only
invoked under an `Array.isArray` guard). -/
def valAsList : JsValue → List JsValue
  | .arr es => es
  | _ => []

/-- Concatenation of a token list into one string. -/
def concatTokens : List String → String
  | [] => ""
  | t :: ts => t ++ concatTokens ts

/-- Source `parseBooleanString`: trim string inputs, map the exact
string `'false'` to `false`, JS truthiness otherwise. -/
def parseBooleanString (input : JsValue) : Bool :=
  match input with
  | .str s => if jsTrim s == "false" then false else truthy (.str (jsTrim s))
  | v => truthy v

/-- The parse function of `boolean`: coerce by truthiness with the
`'false'` override; when an expected value is fixed, assert it. -/
def booleanParse (expectedValue : Option Bool) (input : JsValue) (ctx : Ctx) : PResult :=
  let expectedType := orDefault ctx.overrideType
    (match expectedValue with
     | some b => "boolean (expect: " ++ (if b then "true" else "false") ++ ")"
     | none => "boolean")
  let value := parseBooleanString input
  match expectedValue with
  | some b =>
      if value != b then .error (errOf ctx expectedType ("got " ++ toType input))
      else .ok (.bool value)
  | none => .ok (.bool value)

/-- The `boolean` parser factory. -/
def boolean (expectedValue : Option Bool := none) : ParserR :=
  { parse := booleanParse expectedValue, type := "boolean" }

/-- Test of the `^#[0-9a-f]{6}$/i` color pattern. -/
def colorTest (s : String) : Bool :=
  s.data.length == 7 && s.data.take 1 == ['#'] &&
    (s.data.drop 1).all (fun c =>
      c.isDigit || ('a' ≤ c && c ≤ 'f') || ('A' ≤ c && c ≤ 'F'))

/-- The parse function of `color`: non-empty string in `#rrggbb`
form, returned unchanged. -/
def colorParse (input : JsValue) (ctx : Ctx) : PResult :=
  let expectedType := orDefault ctx.overrideType ("color")
  match input with
  | .str s =>
      if s == "" then .error (errOf ctx expectedType ("got " ++ toType (.str s)))
      else if !(colorTest s) then
        .error (errOf ctx expectedType ("should be in \"#rrggbb\" hexadecimal format"))
      else .ok (.str s)
  | v => .error (errOf ctx expectedType ("got " ++ toType v))

/-- The `color` parser factory. -/
def color : ParserR :=
  { parse := colorParse, type := "string" }

/-- Find the index of the first `"://"` occurrence at position ≥ 1
(the anchored lazy `^(.+?):\/\/` group boundary). -/
def findProtoSepAux : List Char → Nat → Option Nat
  | [], _ => none
  | c :: cs, pos =>
      if c == ':' && cs.take 2 == ['/', '/'] && pos ≥ 1 then some pos
      else findProtoSepAux cs (pos + 1)

/-- Find the index (counting from the given position) of the first
`/` in the list. -/
def findSlashAux : List Char → Nat → Option Nat
  | [], _ => none
  | c :: cs, pos => if c == '/' then some pos else findSlashAux cs (pos + 1)

/-- Model of `url.match(/^(.+?):\/\/(.+?)(\/|$)/)`: protocol before
the first `"://"`, domain up to the first subsequent `/` at offset ≥ 1
or the end (both groups non-empty). -/
def urlMatch (s : String) : Option (String × String) :=
  match findProtoSepAux s.data 0 with
  | none => none
  | some i =>
      let protocol : String := ⟨s.data.take i⟩
      let rest := s.data.drop (i + 3)
      if rest.isEmpty then none
      else
        match findSlashAux (rest.drop 1) 1 with
        | some j => some (protocol, ⟨rest.take j⟩)
        | none => some (protocol, ⟨rest⟩)

/-- Options record of the `url` parser. -/
structure UrlOptions extends StringOptions where
  domain : Option String := none
  protocol : Option String := none
  protocols : Option (List String) := none

/-- JSON serialization of a string list (the `protocols` error). -/
def jsonStrList (l : List String) : String :=
  "[" ++ String.intercalate (",") (l.map jsonQuote) ++ "]"

/-- The exact-domain check of `url`. -/
def urlDomainCheck (o : UrlOptions) (domain url : String)
    (ctx : Ctx) (expectedType : String) : PResult :=
  match o.domain with
  | some d =>
      if domain != d then
        .error (errOf ctx expectedType ("domain should be " ++ jsonQuote d))
      else .ok (.str url)
  | none => .ok (.str url)

/-- The exact-protocol and exact-domain checks of `url`. -/
def urlProtocolDomainChecks (o : UrlOptions) (protocol domain url : String)
    (ctx : Ctx) (expectedType : String) : PResult :=
  match o.protocol with
  | some p =>
      if protocol != p then
        .error (errOf ctx expectedType ("protocol should be " ++ jsonQuote p))
      else urlDomainCheck o domain url ctx expectedType
  | none => urlDomainCheck o domain url ctx expectedType

/-- The parse function of `url`: empty passes through unless
`nonEmpty`; delegate to `string` with the `url` override; match
protocol/domain; check `protocols`, `protocol`, `domain`. -/
def urlParse (o : UrlOptions) (input : JsValue) (ctx : Ctx) : PResult :=
  if !o.nonEmpty && isEmptyStr input then .ok (.str "")
  else
    let expectedType := orDefault ctx.overrideType ("url")
    match stringParse o.toStringOptions input { ctx with overrideType := some expectedType } with
    | .error e => .error e
    | .ok (.str url) =>
        (match urlMatch url with
         | none => .error (errOf ctx expectedType ("should contains protocol and domain/host"))
         | some (protocol, domain) =>
             match o.protocols with
             | some ps =>
                 if !(ps.contains protocol) then
                   .error (errOf ctx expectedType ("protocol should be any of " ++ jsonStrList ps))
                 else urlProtocolDomainChecks o protocol domain url ctx expectedType
             | none => urlProtocolDomainChecks o protocol domain url ctx expectedType)
    | .ok v => .ok v

/-- Find the index of the first `@` at position ≥ 1 that has at least
one character after it (the `^.+?@(.+)$` match). -/
def findAtAux : List Char → Nat → Option Nat
  | [], _ => none
  | c :: cs, pos =>
      if c == '@' && pos ≥ 1 && !cs.isEmpty then some pos
      else findAtAux cs (pos + 1)

/-- Model of `email.match(/^.+?@(.+)$/)`: the domain after the first
valid `@`. -/
def emailMatch (s : String) : Option String :=
  (findAtAux s.data 0).map (fun i => ⟨s.data.drop (i + 1)⟩)

/-- Options record of the `email` parser. -/
structure EmailOptions extends StringOptions where
  domain : Option String := none

/-- The parse function of `email`. -/
def emailParse (o : EmailOptions) (input : JsValue) (ctx : Ctx) : PResult :=
  if !o.nonEmpty && isEmptyStr input then .ok (.str "")
  else
    let expectedType := orDefault ctx.overrideType ("email")
    match stringParse o.toStringOptions input { ctx with overrideType := some expectedType } with
    | .error e => .error e
    | .ok (.str email) =>
        (match emailMatch email with
         | none => .error (errOf ctx expectedType ("should contains \"@\" and domain"))
         | some domain =>
             match o.domain with
             | some d =>
                 if domain != d then
                   .error (errOf ctx expectedType ("domain should be " ++ jsonQuote d))
                 else .ok (.str email)
             | none => .ok (.str email))
    | .ok v => .ok v

/-- The `url` parser factory. -/
def url (o : UrlOptions := {}) : ParserR :=
  { parse := urlParse o, type := "string" }

/-- The `email` parser factory. -/
def email (o : EmailOptions := {}) : ParserR :=
  { parse := emailParse o, type := "string" }

/-- Parse a leading `yyyy-m-d` (year exactly four digits, month and
day one or two digits), returning the components and the rest of the
input. -/
def parseYMD (l : List Char) : Option (Int × Nat × Nat × List Char) :=
  let yd := (l.span Char.isDigit).1
  let r1 := (l.span Char.isDigit).2
  if yd.length == 4 then
    match r1 with
    | '-' :: r2 =>
        let md := (r2.span Char.isDigit).1
        let r3 := (r2.span Char.isDigit).2
        if md.length == 1 || md.length == 2 then
          match r3 with
          | '-' :: r4 =>
              let dd := (r4.span Char.isDigit).1
              let r5 := (r4.span Char.isDigit).2
              if dd.length == 1 || dd.length == 2 then
                some ((digitsToNat yd : Nat), digitsToNat md, digitsToNat dd, r5)
              else none
          | _ => none
        else none
    | _ => none
  else none

/-- Parse a complete `h:mm`, `h:mm:ss` or `h:mm:ss.mmm` time with an
optional trailing `Z`, consuming the whole input. -/
def parseHMS (l : List Char) : Option (Nat × Nat × Nat × Nat) :=
  let hd := (l.span Char.isDigit).1
  let r1 := (l.span Char.isDigit).2
  if hd.length == 1 || hd.length == 2 then
    match r1 with
    | ':' :: r2 =>
        let md := (r2.span Char.isDigit).1
        let r3 := (r2.span Char.isDigit).2
        if md.length == 2 then
          match r3 with
          | [] => some (digitsToNat hd, digitsToNat md, 0, 0)
          | ['Z'] => some (digitsToNat hd, digitsToNat md, 0, 0)
          | ':' :: r4 =>
              let sd := (r4.span Char.isDigit).1
              let r5 := (r4.span Char.isDigit).2
              if sd.length == 2 then
                match r5 with
                | [] => some (digitsToNat hd, digitsToNat md, digitsToNat sd, 0)
                | ['Z'] => some (digitsToNat hd, digitsToNat md, digitsToNat sd, 0)
                | '.' :: r6 =>
                    let msd := (r6.span Char.isDigit).1
                    let r7 := (r6.span Char.isDigit).2
                    if (msd.length == 1 || msd.length == 2 || msd.length == 3) &&
                        (r7.isEmpty || r7 == ['Z']) then
                      some (digitsToNat hd, digitsToNat md, digitsToNat sd, digitsToNat msd)
                    else none
                | _ => none
              else none
          | _ => none
        else none
    | _ => none
  else none

/-- Build a valid date from components, or `none` when out of range
(an Invalid Date). -/
def mkDateRec (y : Int) (mo d h mi s ms : Nat) : Option DateRec :=
  if hok : DateRaw.ok ⟨y, mo, d, h, mi, s, ms⟩ = true then some ⟨⟨y, mo, d, h, mi, s, ms⟩, hok⟩
  else none

/-- Model of `new Date(string)` on the formats the source documents
(`yyyy-mm-dd`, `yyyy-mm-dd hh:mm[:ss[.mmm]]`, the same with `T` and an
optional `Z`; the UTC model makes the `Z` irrelevant).  Out-of-range
components give an Invalid Date; host-specific legacy formats are not
modelled and also give an Invalid Date. -/
def jsDateParse (s : String) : Option DateRec :=
  match parseYMD s.data with
  | some (y, mo, d, rest) =>
      (match rest with
       | [] => mkDateRec y mo d 0 0 0 0
       | c :: r =>
           if c == ' ' || c == 'T' then
             match parseHMS r with
             | some (h, mi, sec, ms) => mkDateRec y mo d h mi sec ms
             | none => none
           else none)
  | none => none

/-- Shape test of `/^\d{4}-\d{1,2}-\d{1,2}$/` (no range check). -/
def matchFullDate (l : List Char) : Bool :=
  match parseYMD l with
  | some (_, _, _, rest) => rest.isEmpty
  | none => false

/-- Chronological comparison of valid dates (componentwise, which in
the UTC model agrees with `getTime()` comparison). -/
def dateLt (a b : DateRec) : Bool :=
  if a.val.year != b.val.year then a.val.year < b.val.year
  else if a.val.month != b.val.month then a.val.month < b.val.month
  else if a.val.day != b.val.day then a.val.day < b.val.day
  else if a.val.hour != b.val.hour then a.val.hour < b.val.hour
  else if a.val.minute != b.val.minute then a.val.minute < b.val.minute
  else if a.val.second != b.val.second then a.val.second < b.val.second
  else a.val.millis < b.val.millis

/-- Options record of the `date` parser. -/
structure DateOptions where
  min : Option JsValue := none
  max : Option JsValue := none

/-- Normalize a `min`/`max` option (number | Date | string) to a valid
date.  Epoch-milliseconds inputs are outside the model (see
`jsDateParse`) and normalize to `none`. -/
def dateOptionToRec (v : JsValue) : Option DateRec :=
  match v with
  | .date (some r) => some r
  | .str s => jsDateParse (jsTrim s)
  | _ => none

/-- Source `parseDateInString`: reject strings that are neither a
plain full date nor contain a time separator, then `new Date` and
reject an invalid result. -/
def parseDateInString (input : String) (ctx : Ctx) (expectedType : String) :
    Except InvalidInputError DateRec :=
  let t := jsTrim input
  if !(t.data.contains 'T') && !(t.data.contains ' ') && !(matchFullDate t.data) then
    .error (errOf ctx expectedType
      ("got " ++ toType (.str input) ++ " (" ++ jsonQuote input ++ ")"))
  else
    match jsDateParse t with
    | some d => .ok d
    | none =>
        .error (errOf ctx expectedType
          ("got " ++ toType (.str input) ++ " (" ++ jsonQuote input ++ ")"))

/-- The `max` bound check of `date`. -/
def dateMaxCheck (o : DateOptions) (r : DateRec) (ctx : Ctx) (expectedType : String) : PResult :=
  match o.max.bind dateOptionToRec with
  | some m =>
      if dateLt m r then
        .error (errOf ctx expectedType
          ("max value should be " ++ (o.max.map jsonOfElemPrim).getD ("undefined")))
      else .ok (.date (some r))
  | none => .ok (.date (some r))

/-- Source `checkDate`: reject an invalid date with the original
input's type and JSON, then check the `min`/`max` bounds. -/
def dateParseCheck (o : DateOptions) (dOpt : Option DateRec) (input : JsValue)
    (ctx : Ctx) (expectedType : String) : PResult :=
  match dOpt with
  | none =>
      .error (errOf ctx expectedType
        ("got " ++ toType input ++ " (" ++ jsonOfElemPrim input ++ ")"))
  | some r =>
      match o.min.bind dateOptionToRec with
      | some m =>
          if dateLt r m then
            .error (errOf ctx expectedType
              ("min value should be " ++ (o.min.map jsonOfElemPrim).getD ("undefined")))
          else dateMaxCheck o r ctx expectedType
      | none => dateMaxCheck o r ctx expectedType

/-- The parse function of `date`: accept `Date` instances, epoch
numbers (outside the model: an epoch converts through an unmodelled
calendar computation and is treated as an Invalid Date, which only
narrows the set of accepted inputs), and strings. -/
def dateParse (o : DateOptions) (input : JsValue) (ctx : Ctx) : PResult :=
  let expectedType := orDefault ctx.overrideType ("date")
  match input with
  | .date d => dateParseCheck o d input ctx expectedType
  | .num _ => dateParseCheck o none input ctx expectedType
  | .nan => dateParseCheck o none input ctx expectedType
  | .str s =>
      (match parseDateInString (jsTrim s) ctx expectedType with
       | .error e => .error e
       | .ok r => dateParseCheck o (some r) input ctx expectedType)
  | v => .error (errOf ctx expectedType ("got " ++ toType v))

/-- The `date` parser factory. -/
def date (o : DateOptions := {}) : ParserR :=
  { parse := dateParse o, type := "Date" }

/-- Options record of the `dateString` parser. -/
structure DateStringOptions where
  nonEmpty : Bool := false
  min : Option JsValue := none
  max : Option JsValue := none

/-- Source `parseDateString` (used to normalize the `min`/`max`
options): Date or prefix-`yyyy-m-d` string to `y-mm-dd` with only a
1..12 / 1..31 range check; epoch numbers are outside the model. -/
def parseDateStringOpt (v : JsValue) : Option String :=
  match v with
  | .date (some r) =>
      some (intToString r.val.year ++ "-" ++ d2 r.val.month ++ "-" ++ d2 r.val.day)
  | .str s =>
      (match parseYMD s.data with
       | some (y, m, d, _) =>
           if 1 ≤ m && m ≤ 12 && 1 ≤ d && d ≤ 31 then
             some (intToString y ++ "-" ++ d2 m ++ "-" ++ d2 d)
           else none
       | none => none)
  | _ => none

/-- The non-empty whitespace rejection shared by the date-string
parsers: a `"non-empty"`-prefixed context. -/
def nonEmptyWsError (ctx : Ctx) (expectedType : String) : PResult :=
  .error (.make
    { name := ctx.name,
      typePre := some (if truthyS ctx.typePre then "non-empty " ++ ctx.typePre.getD ("") else "non-empty"),
      expectedType := expectedType, reason := "got empty string",
      reasonSuffix := ctx.reasonSuffix })

/-- The `max` bound check of `dateString`. -/
def dateStringMaxCheck (o : DateStringOptions) (ds : String) (ctx : Ctx)
    (expectedType : String) : PResult :=
  match o.max.bind parseDateStringOpt with
  | some m =>
      if ds > m then
        .error (errOf ctx expectedType
          ("max value should be " ++ (o.max.map jsonOfElemPrim).getD ("undefined")))
      else .ok (.str ds)
  | none => .ok (.str ds)

/-- The parse function of `dateString`: empty-ish input (loose
`== ''`) passes through unless `nonEmpty`; whitespace-only strings are
rejected under `nonEmpty`; otherwise delegate to `date` and reduce to
the canonical `d2(y)-mm-dd` string, then compare the bounds
lexicographically. -/
def dateStringParse (o : DateStringOptions) (input : JsValue) (ctx : Ctx) : PResult :=
  if !o.nonEmpty && looseEqEmptyStr input then .ok (.str "")
  else
    let expectedType := orDefault ctx.overrideType ("dateString")
    if o.nonEmpty && (match input with
        | .str s => (jsTrim s).data.length == 0
        | _ => false) then
      nonEmptyWsError ctx expectedType
    else
      match dateParse {} input { ctx with overrideType := some expectedType } with
      | .error e => .error e
      | .ok (.date (some d)) =>
          let ds := toDateString d
          (match o.min.bind parseDateStringOpt with
           | some m =>
               if ds < m then
                 .error (errOf ctx expectedType
                   ("min value should be " ++ (o.min.map jsonOfElemPrim).getD ("undefined")))
               else dateStringMaxCheck o ds ctx expectedType
           | none => dateStringMaxCheck o ds ctx expectedType)
      | .ok v => .ok v

/-- The `dateString` parser factory. -/
def dateString (o : DateStringOptions := {}) : ParserR :=
  { parse := dateStringParse o, type := "string" }

/-- Source `isBetween`. -/
def isBetween (min mid max : Nat) : Bool :=
  min ≤ mid && mid ≤ max

/-- Pad a millisecond digit string on the right with zeros to three
characters (`ms.toString().padEnd(3, '0')`). -/
def padEnd3 (n : Nat) : String :=
  let s := natDigits n
  ⟨s ++ List.replicate (3 - s.length) '0'⟩

/-- The one-digit-hour alternative of `tryHM`. -/
def tryHM1 (l : List Char) : Option (Nat × Nat) :=
  match l with
  | a :: ':' :: c1 :: c2 :: _ =>
      if a.isDigit && c1.isDigit && c2.isDigit then
        some (digitsToNat [a], digitsToNat [c1, c2])
      else none
  | _ => none

/-- Try the `\d{1,2}:\d{2}` pattern at the head of the list (greedy
two-digit hour first, then backtrack to one digit). -/
def tryHM (l : List Char) : Option (Nat × Nat) :=
  match l with
  | a :: b :: ':' :: c1 :: c2 :: _ =>
      if a.isDigit && b.isDigit && c1.isDigit && c2.isDigit then
        some (digitsToNat [a, b], digitsToNat [c1, c2])
      else tryHM1 l
  | _ => tryHM1 l

/-- Leftmost search for `/(\d{1,2}):(\d{2})/`. -/
def findHM : List Char → Option (Nat × Nat)
  | [] => none
  | c :: cs =>
      match tryHM (c :: cs) with
      | some r => some r
      | none => findHM cs

/-- The one-digit-hour alternative of `tryHMS`. -/
def tryHMS1 (l : List Char) : Option (Nat × Nat × Nat) :=
  match l with
  | a :: ':' :: c1 :: c2 :: ':' :: e1 :: e2 :: _ =>
      if a.isDigit && c1.isDigit && c2.isDigit && e1.isDigit && e2.isDigit then
        some (digitsToNat [a], digitsToNat [c1, c2], digitsToNat [e1, e2])
      else none
  | _ => none

/-- Try the `\d{1,2}:\d{2}:\d{2}` pattern at the head of the list
(greedy two-digit hour, then the one-digit alternative). -/
def tryHMS (l : List Char) : Option (Nat × Nat × Nat) :=
  match l with
  | a :: b :: ':' :: c1 :: c2 :: ':' :: e1 :: e2 :: _ =>
      if a.isDigit && b.isDigit && c1.isDigit && c2.isDigit && e1.isDigit && e2.isDigit then
        some (digitsToNat [a, b], digitsToNat [c1, c2], digitsToNat [e1, e2])
      else tryHMS1 l
  | _ => tryHMS1 l

/-- Leftmost search for `/(\d{1,2}):(\d{2}):(\d{2})/`. -/
def findHMS : List Char → Option (Nat × Nat × Nat)
  | [] => none
  | c :: cs =>
      match tryHMS (c :: cs) with
      | some r => some r
      | none => findHMS cs

/-- Greedy `\d{1,3}` at the head of the list. -/
def tryMs (l : List Char) : Option Nat :=
  let ds := (l.span Char.isDigit).1
  if ds.isEmpty then none else some (digitsToNat (ds.take 3))

/-- The one-digit-hour alternative of `tryHMSms`. -/
def tryHMSms1 (l : List Char) : Option (Nat × Nat × Nat × Nat) :=
  match l with
  | a :: ':' :: c1 :: c2 :: ':' :: e1 :: e2 :: '.' :: r =>
      if a.isDigit && c1.isDigit && c2.isDigit && e1.isDigit && e2.isDigit then
        match tryMs r with
        | some ms => some (digitsToNat [a], digitsToNat [c1, c2], digitsToNat [e1, e2], ms)
        | none => none
      else none
  | _ => none

/-- Try the `\d{1,2}:\d{2}:\d{2}\.\d{1,3}` pattern at the head. -/
def tryHMSms (l : List Char) : Option (Nat × Nat × Nat × Nat) :=
  match l with
  | a :: b :: ':' :: c1 :: c2 :: ':' :: e1 :: e2 :: '.' :: r =>
      if a.isDigit && b.isDigit && c1.isDigit && c2.isDigit && e1.isDigit && e2.isDigit then
        match tryMs r with
        | some ms => some (digitsToNat [a, b], digitsToNat [c1, c2], digitsToNat [e1, e2], ms)
        | none => tryHMSms1 l
      else tryHMSms1 l
  | _ => tryHMSms1 l

/-- Leftmost search for `/(\d{1,2}):(\d{2}):(\d{2})\.(\d{1,3})/`. -/
def findHMSms : List Char → Option (Nat × Nat × Nat × Nat)
  | [] => none
  | c :: cs =>
      match tryHMSms (c :: cs) with
      | some r => some r
      | none => findHMSms cs

/-- Source `parseTimeString`: numbers and Dates are first turned into
a `toTimeString` rendition (epoch numbers are outside the model and
behave like an Invalid Date, whose rendition is `"NaN:NaN"`), the
empty string is rejected with a `"non-empty"` prefix, then the
precision-specific pattern is searched and range-checked. -/
def parseTimeString (input : JsValue) (ctx : Ctx) (expectedType : String)
    (precision : TimePrecision) : Except InvalidInputError String :=
  let input : JsValue :=
    match input with
    | .num _ => .str "NaN:NaN"
    | .nan => .str "NaN:NaN"
    | .date (some d) => .str (toTimeString d)
    | .date none => .str "NaN:NaN"
    | v => v
  match input with
  | .str s =>
      if s == "" then
        .error (.make
          { name := ctx.name,
            typePre := some (if truthyS ctx.typePre then "non-empty " ++ ctx.typePre.getD ("")
              else "non-empty"),
            expectedType := expectedType, reason := "got " ++ toType (.str s),
            reasonSuffix := ctx.reasonSuffix })
      else
        let fallback : Except InvalidInputError String :=
          .error (errOf ctx expectedType
            ("got " ++ toType (.str s) ++ " (" ++ jsonQuote s ++ ")"))
        (match precision with
         | .minute =>
             match findHM s.data with
             | some (h, m) =>
                 if isBetween 0 h 23 && isBetween 0 m 59 then .ok (d2 h ++ ":" ++ d2 m)
                 else fallback
             | none => fallback
         | .second =>
             match findHMS s.data with
             | some (h, m, sec) =>
                 if isBetween 0 h 23 && isBetween 0 m 59 && isBetween 0 sec 59 then
                   .ok (d2 h ++ ":" ++ d2 m ++ ":" ++ d2 sec)
                 else fallback
             | none => fallback
         | .millisecond =>
             match findHMSms s.data with
             | some (h, m, sec, ms) =>
                 if isBetween 0 h 23 && isBetween 0 m 59 && isBetween 0 sec 59 &&
                     isBetween 0 ms 999 then
                   .ok (d2 h ++ ":" ++ d2 m ++ ":" ++ d2 sec ++ "." ++ padEnd3 ms)
                 else fallback
             | none => fallback)
  | v => .error (errOf ctx expectedType ("got " ++ toType v ++ " (" ++ jsonOfElemPrim v ++ ")"))

/-- Options record of the `timeString` parser. -/
structure TimeStringOptions where
  nonEmpty : Bool := false
  min : Option JsValue := none
  max : Option JsValue := none
  precision : Option TimePrecision := none

/-- Normalize a `min`/`max` option of `timeString` through
`parseTimeString` with an empty context. -/
def timeStringOptToStr (o : TimeStringOptions) (v : JsValue) : Option String :=
  match parseTimeString v {} ("timeString") (o.precision.getD .minute) with
  | .ok s => some s
  | .error _ => none

/-- The `max` bound check of `timeString`. -/
def timeStringMaxCheck (o : TimeStringOptions) (ts : String) (ctx : Ctx)
    (expectedType : String) : PResult :=
  match o.max.bind (timeStringOptToStr o) with
  | some m =>
      if ts > m then
        .error (errOf ctx expectedType
          ("max value should be " ++ (o.max.map jsonOfElemPrim).getD ("undefined")))
      else .ok (.str ts)
  | none => .ok (.str ts)

/-- The parse function of `timeString`. -/
def timeStringParse (o : TimeStringOptions) (input : JsValue) (ctx : Ctx) : PResult :=
  if !o.nonEmpty && looseEqEmptyStr input then .ok (.str "")
  else
    let expectedType := orDefault ctx.overrideType ("timeString")
    if o.nonEmpty && (match input with
        | .str s => (jsTrim s).data.length == 0
        | _ => false) then
      nonEmptyWsError ctx expectedType
    else
      match parseTimeString input ctx expectedType (o.precision.getD .minute) with
      | .error e => .error e
      | .ok ts =>
          (match o.min.bind (timeStringOptToStr o) with
           | some m =>
               if ts < m then
                 .error (errOf ctx expectedType
                   ("min value should be " ++ (o.min.map jsonOfElemPrim).getD ("undefined")))
               else timeStringMaxCheck o ts ctx expectedType
           | none => timeStringMaxCheck o ts ctx expectedType)

/-- The `timeString` parser factory. -/
def timeString (o : TimeStringOptions := {}) : ParserR :=
  { parse := timeStringParse o, type := "string" }

/-- Options record of the `timestamp` parser. -/
structure TimestampOptions where
  nonEmpty : Bool := false
  min : Option JsValue := none
  max : Option JsValue := none
  precision : Option TimePrecision := none

/-- Normalize a `min`/`max` option of `timestamp` (the source runs it
through a default `timestamp()` parser, whose precision is second). -/
def timestampOptToStr (v : JsValue) : Option String :=
  match v with
  | .date (some d) => some (toTimestampString d .second)
  | .str s => (jsDateParse (jsTrim s)).map (fun d => toTimestampString d .second)
  | _ => none

/-- The `max` bound check of `timestamp`. -/
def timestampMaxCheck (o : TimestampOptions) (ts : String) (ctx : Ctx)
    (expectedType : String) : PResult :=
  match o.max.bind timestampOptToStr with
  | some m =>
      if ts > m then
        .error (errOf ctx expectedType
          ("max value should be " ++ (o.max.map jsonOfElemPrim).getD ("undefined")))
      else .ok (.str ts)
  | none => .ok (.str ts)

/-- The parse function of `timestamp`: like `dateString` but reducing
to `toTimestampString` at the configured precision; the wrapped `date`
parser also receives the raw `min`/`max` options. -/
def timestampParse (o : TimestampOptions) (input : JsValue) (ctx : Ctx) : PResult :=
  if !o.nonEmpty && looseEqEmptyStr input then .ok (.str "")
  else
    let expectedType := orDefault ctx.overrideType ("timestamp")
    if o.nonEmpty && (match input with
        | .str s => (jsTrim s).data.length == 0
        | _ => false) then
      nonEmptyWsError ctx expectedType
    else
      match dateParse { min := o.min, max := o.max } input
          { ctx with overrideType := some expectedType } with
      | .error e => .error e
      | .ok (.date (some d)) =>
          let ts := toTimestampString d (o.precision.getD .second)
          (match o.min.bind timestampOptToStr with
           | some m =>
               if ts < m then
                 .error (errOf ctx expectedType
                   ("min value should be " ++ (o.min.map jsonOfElemPrim).getD ("undefined")))
               else timestampMaxCheck o ts ctx expectedType
           | none => timestampMaxCheck o ts ctx expectedType)
      | .ok v => .ok v

/-- The `timestamp` parser factory. -/
def timestamp (o : TimestampOptions := {}) : ParserR :=
  { parse := timestampParse o, type := "string" }

/-- Source `concat`: compose two optional context fragments with a
space when both are truthy, else keep whichever is truthy. -/
def concatOpt (a b : Option String) : Option String :=
  if truthyS a && truthyS b then some (a.getD ("") ++ " " ++ b.getD (""))
  else if truthyS a then a else b

/-- Options record of the `array` parser. -/
structure ArrayOptions where
  minLength : Option Nat := none
  maxLength : Option Nat := none
  maybeSingle : Bool := false

/-- The element loop of `array`: parse each element with the composed
`"array of"` / `"in array"` context, failing fast. -/
def arrayElems (parser : ParserR) (ctx : Ctx) : List JsValue →
    Except InvalidInputError (List JsValue)
  | [] => .ok []
  | x :: xs =>
      match parser.parse x
          { ctx with typePre := concatOpt (some ("array of")) ctx.typePre,
                     reasonSuffix := concatOpt ctx.reasonSuffix (some ("in array")) } with
      | .error e => .error e
      | .ok v =>
          (match arrayElems parser ctx xs with
           | .error e => .error e
           | .ok vs => .ok (v :: vs))

/-- The parse function of `array`: wrap a non-list input when
`maybeSingle`, enforce the length bounds, then map the element
parser. -/
def arrayParse (parser : ParserR) (o : ArrayOptions) (input : JsValue) (ctx : Ctx) : PResult :=
  let expectedType := orDefault ctx.overrideType ("array")
  let input : JsValue := if !(isArr input) && o.maybeSingle then .arr [input] else input
  match input with
  | .arr elems =>
      if o.minLength.isSome ∧ elems.length < o.minLength.getD 0 then
        .error (errOf ctx expectedType ("minLength should be " ++ natDigitsStr (o.minLength.getD 0)))
      else if o.maxLength.isSome ∧ elems.length > o.maxLength.getD 0 then
        .error (errOf ctx expectedType ("maxLength should be " ++ natDigitsStr (o.maxLength.getD 0)))
      else (arrayElems parser ctx elems).map .arr
  | v => .error (errOf ctx expectedType ("got " ++ toType v))

/-- The `array` parser factory. -/
def array (parser : ParserR) (o : ArrayOptions := {}) : ParserR :=
  { parse := arrayParse parser o, type := "Array<" ++ getParserType parser ++ ">" }

/-- Model of `Math.round` (floor of `x + 1/2`). -/
def jsMathRound (q : JsRat) : Int :=
  (2 * q.num + (q.den : Int)).fdiv (2 * (q.den : Int))

/-- One step stream of the field-name suffix loop of
`inferFromSampleValue` (fuel keeps the recursion structural; every
strip shortens the name, so `length + 1` fuel is exact).  The state is
the remaining field name, the `parser` variable (set by the enum
branches), and the `is_nullable` / `is_optional` flags, mirrored from
the source loop body including the `Array.isArray(val)` guard on the
enum branches and the check order. -/
def inferFieldLoopAux : Nat → String → JsValue → Option ParserR → Bool → Bool →
    String × Option ParserR × Bool × Bool
  | 0, field, _, parser, isNull, isOpt => (field, parser, isNull, isOpt)
  | fuel + 1, field, val, parser, isNull, isOpt =>
      if isArr val && endsWithS field ("$enums") then
        inferFieldLoopAux fuel (dropRightS field 6) val (some (values (valAsList val))) isNull isOpt
      else if isArr val && endsWithS field ("$enum") then
        inferFieldLoopAux fuel (dropRightS field 5) val (some (values (valAsList val))) isNull isOpt
      else if endsWithS field ("$nullable") then
        inferFieldLoopAux fuel (dropRightS field 9) val parser true isOpt
      else if endsWithS field ("$null") then
        inferFieldLoopAux fuel (dropRightS field 5) val parser true isOpt
      else if endsWithS field ("$optional") then
        inferFieldLoopAux fuel (dropRightS field 9) val parser isNull true
      else if endsWithS field ("?") then
        inferFieldLoopAux fuel (dropRightS field 1) val parser isNull true
      else (field, parser, isNull, isOpt)

/-- The suffix loop of `inferFromSampleValue` on one object key. -/
def inferFieldLoop (field : String) (val : JsValue) :
    String × Option ParserR × Bool × Bool :=
  inferFieldLoopAux (field.data.length + 1) field val none false false

mutual

/-- Source `inferFromSampleValue`: dispatch on the dynamic kind of the
example value.  Strings infer `string`; integers infer `int` and other
numbers `float` or `number` by the `Math.round` probe; booleans infer
`boolean`; dates infer `date`; arrays infer `array` over the first
element (an empty array recurses on `undefined` and therefore fails);
plain objects infer `object` with suffix-decoded fields; `null` and
`undefined` fail with the construction-time error. -/
def inferFromSampleValue : JsValue → Except String ParserR
  | .str _ => .ok (string {})
  | .num q =>
      .ok (if q.isInt then int {}
           else if !((jsInt (jsMathRound q)).valEq q) then float {}
           else number {})
  | .nan => .ok (float {})
  | .bool _ => .ok (boolean none)
  | .date _ => .ok (date {})
  | .arr elems =>
      (match elems with
       | [] => (inferFromSampleValue .undefined).map array
       | x :: _ => (inferFromSampleValue x).map array)
  | .obj fields => (inferObjEntries fields).map object
  | .null => .error ("unsupported sample value: null")
  | .undefined => .error ("unsupported sample value: undefined")

/-- One object entry of `inferFromSampleValue`: run the suffix loop,
default the parser to the recursive inference (`parser ||= ...`), then
wrap in `nullable` and `optional` as flagged. -/
def inferObjField (field : String) (val : JsValue) : Except String (String × ParserR) :=
  let r := inferFieldLoop field val
  (match r.2.1 with
   | some p => Except.ok p
   | none => inferFromSampleValue val).map (fun parser =>
    let parser := if r.2.2.1 then nullable parser else parser
    let parser := if r.2.2.2 then optional parser else parser
    (r.1, parser))

/-- The object-field fold of `inferFromSampleValue`. -/
def inferObjEntries : List (String × JsValue) → Except String (List (String × ParserR))
  | [] => .ok []
  | (field, val) :: rest =>
      match inferObjField field val with
      | .error e => .error e
      | .ok entry =>
          (match inferObjEntries rest with
           | .error e => .error e
           | .ok entries => .ok (entry :: entries))

end

/-- Whether a token list carries an enum suffix. -/
def hasTokenEnum (l : List String) : Bool :=
  l.contains ("$enums") || l.contains ("$enum")

/-- Whether a token list carries a nullable suffix. -/
def hasTokenNullable (l : List String) : Bool :=
  l.contains ("$nullable") || l.contains ("$null")

/-- Whether a token list carries an optional suffix. -/
def hasTokenOptional (l : List String) : Bool :=
  l.contains ("$optional") || l.contains ("?")

/-- Whether a base name ends with none of the recognized suffixes (so
the suffix loop stops on it). -/
def cleanOfSuffixTokens (base : String) : Bool :=
  fieldNameSuffices.all (fun t => !(endsWithS base t))

/-! Theorems. -/

theorem objectFields_ok_keys_sub (fps : List (String × ParserR)) :
    ∀ (input : List (String × JsValue)) (et : String) (ctx : Ctx)
      (out : List (String × JsValue)),
      objectFields fps input et ctx = .ok out →
      ∀ kv ∈ out, kv.1 ∈ fps.map Prod.fst := by
  induction fps with
  | nil =>
      intro input et ctx out h kv hkv
      simp only [objectFields] at h
      cases h
      simp at hkv
  | cons hd tl ih =>
      intro input et ctx out h kv hkv
      obtain ⟨key, p⟩ := hd
      simp only [objectFields] at h
      simp only [List.map_cons]
      split at h
      · split at h
        · exact List.mem_cons_of_mem _ (ih _ _ _ _ h kv hkv)
        · split at h
          · cases hrest : objectFields tl input et ctx with
            | error e => rw [hrest] at h; simp only [Except.map] at h; cases h
            | ok o =>
                rw [hrest] at h
                simp only [Except.map] at h
                injection h with h2
                subst h2
                rcases List.mem_cons.mp hkv with hkv | hkv
                · simp [hkv]
                · exact List.mem_cons_of_mem _ (ih _ _ _ _ hrest kv hkv)
          · cases h
      · split at h
        · exact List.mem_cons_of_mem _ (ih _ _ _ _ h kv hkv)
        · split at h
          · cases h
          · cases hrest : objectFields tl input et ctx with
            | error e => rw [hrest] at h; simp only [Except.map] at h; cases h
            | ok o =>
                rw [hrest] at h
                simp only [Except.map] at h
                injection h with h2
                subst h2
                rcases List.mem_cons.mp hkv with hkv | hkv
                · simp [hkv]
                · exact List.mem_cons_of_mem _ (ih _ _ _ _ hrest kv hkv)

theorem jsObjHas_append_single (input : List (String × JsValue)) (key k' : String)
    (v' : JsValue) (hne : k' ≠ key) :
    jsObjHas (input ++ [(k', v')]) key = jsObjHas input key := by
  simp [jsObjHas, List.any_append, hne]

theorem jsObjGet_append_single (input : List (String × JsValue)) (key k' : String)
    (v' : JsValue) (hne : k' ≠ key) :
    jsObjGet (input ++ [(k', v')]) key = jsObjGet input key := by
  simp only [jsObjGet, List.find?_append]
  cases hf : List.find? (fun p => p.1 == key) input with
  | some p => simp
  | none =>
      have hb : (k' == key) = false := by simp [hne]
      simp [hb]

theorem objectFields_append_unknown (fps : List (String × ParserR)) :
    ∀ (input : List (String × JsValue)) (k' : String) (v' : JsValue)
      (et : String) (ctx : Ctx),
      (k' ∈ fps.map Prod.fst → False) →
      objectFields fps (input ++ [(k', v')]) et ctx = objectFields fps input et ctx := by
  induction fps with
  | nil => intro input k' v' et ctx _; rfl
  | cons hd tl ih =>
      intro input k' v' et ctx hk
      obtain ⟨key, p⟩ := hd
      have hne : k' ≠ key := by
        intro h
        exact hk (by simp [h])
      have htl : k' ∈ tl.map Prod.fst → False := by
        intro h
        exact hk (by simp [h])
      simp only [objectFields, jsObjHas_append_single input key k' v' hne,
        jsObjGet_append_single input key k' v' hne, ih input k' v' et ctx htl]

/-- Claim C4: the object combinator is a projection: a successful
parse returns only declared keys; appending an undeclared key to the
input does not change the field loop's result (so unknown keys are
dropped, not an error); in particular
`object({a: string()}).parse({a:'x', b:1})` equals `{a:'x'}`. -/
theorem object_projection_unknown_keys_dropped :
    (∀ (fps : List (String × ParserR)) (input : JsValue) (ctx : Ctx)
       (out : List (String × JsValue)),
       objectParse fps input ctx = .ok (.obj out) →
       ∀ kv ∈ out, kv.1 ∈ fps.map Prod.fst) ∧
    (∀ (fps : List (String × ParserR)) (input : List (String × JsValue))
       (k' : String) (v' : JsValue) (et : String) (ctx : Ctx),
       (k' ∈ fps.map Prod.fst → False) →
       objectFields fps (input ++ [(k', v')]) et ctx = objectFields fps input et ctx) ∧
    objectParse [(("a" : String), string {})]
        (.obj [("a", .str "x"), ("b", .num (jsInt 1))]) {} =
      .ok (.obj [("a", .str "x")]) := by
  refine ⟨?_, objectFields_append_unknown, rfl⟩
  intro fps input ctx out h kv hkv
  cases input with
  | date d =>
      simp only [objectParse] at h
      cases hfs : objectFields fps (objView (.date d)) (orDefault ctx.overrideType ("object")) ctx with
      | error e => rw [hfs] at h; cases h
      | ok o =>
          rw [hfs] at h
          cases h
          exact objectFields_ok_keys_sub fps _ _ _ _ hfs kv hkv
  | arr elems =>
      simp only [objectParse] at h
      cases hfs : objectFields fps (objView (.arr elems)) (orDefault ctx.overrideType ("object")) ctx with
      | error e => rw [hfs] at h; cases h
      | ok o =>
          rw [hfs] at h
          cases h
          exact objectFields_ok_keys_sub fps _ _ _ _ hfs kv hkv
  | obj fields =>
      simp only [objectParse] at h
      cases hfs : objectFields fps (objView (.obj fields)) (orDefault ctx.overrideType ("object")) ctx with
      | error e => rw [hfs] at h; cases h
      | ok o =>
          rw [hfs] at h
          cases h
          exact objectFields_ok_keys_sub fps _ _ _ _ hfs kv hkv
  | null => cases h
  | undefined => cases h
  | nan => cases h
  | bool b => cases h
  | num q => cases h
  | str s => cases h

/-- Witness for C4 at concrete inputs. -/
theorem object_projection_unknown_keys_dropped_witness :
    (("a", JsValue.str "x").1 ∈ ([(("a" : String), string {})]).map Prod.fst) ∧
    objectFields [(("a" : String), string {})]
        ([(("a" : String), JsValue.str "x")] ++ [("b", JsValue.num (jsInt 1))]) ("object") {} =
      objectFields [(("a" : String), string {})] [("a", JsValue.str "x")] ("object") {} := by
  constructor
  · exact object_projection_unknown_keys_dropped.1 [("a", string {})]
      (.obj [("a", .str "x"), ("b", .num (jsInt 1))]) {} [("a", .str "x")] rfl
      ("a", .str "x") (List.mem_singleton.mpr rfl)
  · exact object_projection_unknown_keys_dropped.2.1 [("a", string {})]
      [("a", .str "x")] ("b") (.num (jsInt 1)) ("object") {} (by decide)

/-- Claim C1: on a non-null object input, the object combinator
handles each declared field as follows (the parse reduces to the field
loop, and for the field at the front of the remaining declarations):
absent key and optional parser: skipped; absent key and checkbox
parser: output field set to `false`; absent key otherwise: throw the
error whose reason is "missing " followed by the JSON-quoted key;
present key with value `null` and optional parser: skipped. -/
theorem object_declared_field_handling :
    (∀ (fps : List (String × ParserR)) (fields : List (String × JsValue)) (ctx : Ctx),
      objectParse fps (.obj fields) ctx =
        (objectFields fps fields (orDefault ctx.overrideType ("object")) ctx).map JsValue.obj) ∧
    (∀ (key : String) (p : ParserR) (rest : List (String × ParserR))
       (input : List (String × JsValue)) (et : String) (ctx : Ctx),
      jsObjHas input key = false → p.optional = true →
      objectFields ((key, p) :: rest) input et ctx = objectFields rest input et ctx) ∧
    (∀ (key : String) (p : ParserR) (rest : List (String × ParserR))
       (input : List (String × JsValue)) (et : String) (ctx : Ctx),
      jsObjHas input key = false → p.optional = false → p.checkbox = true →
      objectFields ((key, p) :: rest) input et ctx =
        (objectFields rest input et ctx).map (fun o => (key, JsValue.bool false) :: o)) ∧
    (∀ (key : String) (p : ParserR) (rest : List (String × ParserR))
       (input : List (String × JsValue)) (et : String) (ctx : Ctx),
      jsObjHas input key = false → p.optional = false → p.checkbox = false →
      objectFields ((key, p) :: rest) input et ctx =
        .error (errOf ctx et ("missing " ++ jsonQuote key))) ∧
    (∀ (key : String) (p : ParserR) (rest : List (String × ParserR))
       (input : List (String × JsValue)) (et : String) (ctx : Ctx),
      jsObjHas input key = true → jsObjGet input key = .null → p.optional = true →
      objectFields ((key, p) :: rest) input et ctx = objectFields rest input et ctx) := by
  refine ⟨fun _ _ _ => rfl, ?_, ?_, ?_, ?_⟩
  · intro key p rest input et ctx h1 h2
    simp [objectFields, h1, h2]
  · intro key p rest input et ctx h1 h2 h3
    simp [objectFields, h1, h2, h3]
  · intro key p rest input et ctx h1 h2 h3
    simp [objectFields, h1, h2, h3]
  · intro key p rest input et ctx h1 h2 h3
    simp [objectFields, h1, h2, h3, looseEqNull]

/-- Witness for C1: the spec's concrete examples, derived by applying
the field-handling theorem at the concrete field lists. -/
theorem object_declared_field_handling_witness :
    objectFields [(("b" : String), optional (string {}))] [("a", JsValue.str "x")] ("object") {} =
      .ok [] ∧
    objectFields [(("c" : String), checkbox)] [] ("object") {} =
      .ok [("c", JsValue.bool false)] ∧
    objectFields [(("a" : String), string {})] [] ("object") {} =
      .error (errOf {} ("object") ("missing " ++ jsonQuote ("a"))) ∧
    objectFields [(("b" : String), optional (string {}))] [("b", JsValue.null)] ("object") {} =
      .ok [] := by
  refine ⟨?_, ?_, ?_, ?_⟩
  · exact (object_declared_field_handling.2.1 ("b") (optional (string {})) []
      [("a", .str "x")] ("object") {} rfl rfl).trans rfl
  · exact (object_declared_field_handling.2.2.1 ("c") checkbox []
      [] ("object") {} rfl rfl rfl).trans rfl
  · exact object_declared_field_handling.2.2.2.1 ("a") (string {}) []
      [] ("object") {} rfl rfl rfl
  · exact object_declared_field_handling.2.2.2.2 ("b") (optional (string {})) []
      [("b", .null)] ("object") {} rfl rfl rfl

/-- Claim C10: a declared field whose key is present in the input with
the value `undefined` is skipped whenever its parser is tagged
optional (the `valueInput == null` loose-equality check treats
`undefined` like `null`), for any field parser with the tag. -/
theorem object_present_undefined_optional_skipped :
    ∀ (key : String) (p : ParserR) (rest : List (String × ParserR))
      (input : List (String × JsValue)) (et : String) (ctx : Ctx),
      jsObjHas input key = true → jsObjGet input key = .undefined → p.optional = true →
      objectFields ((key, p) :: rest) input et ctx = objectFields rest input et ctx := by
  intro key p rest input et ctx h1 h2 h3
  simp [objectFields, h1, h2, h3, looseEqNull]

/-- Witness for C10: a present `undefined`-valued optional field is
omitted, at a concrete field list and input. -/
theorem object_present_undefined_optional_skipped_witness :
    objectFields [(("b" : String), optional (string {}))] [("b", JsValue.undefined)] ("object") {} =
      .ok [] := by
  exact (object_present_undefined_optional_skipped ("b") (optional (string {})) []
    [("b", .undefined)] ("object") {} rfl rfl rfl).trans rfl

/-- Claim C5: `nullable(p).parse(null)` returns `null` for every
parser `p` (so without invoking `p`); on any non-null input it
delegates to `p.parse` with the context whose type prefix is
`"nullable"` (or `"nullable "` prepended to the existing prefix); in
particular `nullable(string()).parse(undefined)` throws. -/
theorem nullable_null_passthrough_and_delegate :
    (∀ (p : ParserR) (ctx : Ctx), (nullable p).parse .null ctx = .ok .null) ∧
    (∀ (p : ParserR) (input : JsValue) (ctx : Ctx), input ≠ .null →
      (nullable p).parse input ctx =
        p.parse input
          { ctx with typePre := some (if truthyS ctx.typePre
              then "nullable " ++ ctx.typePre.getD ("") else "nullable") }) ∧
    ((nullable (string {})).parse .undefined {}).isOk = false := by
  refine ⟨fun p ctx => rfl, ?_, rfl⟩
  intro p input ctx h
  cases input with
  | null => exact absurd rfl h
  | undefined => rfl
  | nan => rfl
  | bool b => rfl
  | num q => rfl
  | str s => rfl
  | date d => rfl
  | arr elems => rfl
  | obj fields => rfl

/-- Witness for C5: delegation applied at a concrete non-null input. -/
theorem nullable_null_passthrough_and_delegate_witness :
    (nullable (string {})).parse (.str "hi") {} =
      (string {}).parse (.str "hi")
        ({ typePre := some (if truthyS (none : Option String)
            then "nullable " ++ (none : Option String).getD ("") else "nullable") } : Ctx) := by
  exact nullable_null_passthrough_and_delegate.2.1 (string {}) (.str "hi") {}
    (fun h => JsValue.noConfusion h)

/-- Claim C3: every `InvalidInputError` is built with the message
"Invalid " plus the type prefix and a space when the prefix is truthy,
the expected type, a space and the JSON-quoted name when the name is
truthy, ", " and the reason, and a space and the reason suffix when
that is truthy; and it carries the numeric status code 400 (both
`status` and `statusCode`). -/
theorem invalidInputError_message_format_and_status (o : ErrOptions) :
    (InvalidInputError.make o).message =
      "Invalid " ++ (if truthyS o.typePre then o.typePre.getD ("") ++ " " else "") ++
        o.expectedType ++
        (if truthyS o.name then " " ++ jsonQuote (o.name.getD ("")) else "") ++
        ", " ++ o.reason ++
        (if truthyS o.reasonSuffix then " " ++ o.reasonSuffix.getD ("") else "") ∧
    (InvalidInputError.make o).status = 400 ∧
    (InvalidInputError.make o).statusCode = 400 := by
  refine ⟨?_, rfl, rfl⟩
  show composeMessage o = _
  unfold composeMessage
  cases h1 : truthyS o.typePre <;> cases h2 : truthyS o.name <;>
    cases h3 : truthyS o.reasonSuffix <;>
    simp [h1, h2, h3, String.append_assoc]

theorem orParseAux_first_success (ut : String) (input : JsValue) (ctx : Ctx) :
    ∀ (ps1 : List ParserR) (es : List InvalidInputError) (p : ParserR)
      (ps2 : List ParserR) (v : JsValue) (acc : List InvalidInputError),
      ps1.map (fun pp => pp.parse input ctx) = es.map Except.error →
      p.parse input ctx = .ok v →
      orParseAux ut (ps1 ++ p :: ps2) input ctx acc = .ok v := by
  intro ps1
  induction ps1 with
  | nil =>
      intro es p ps2 v acc _ hp
      simp only [List.nil_append, orParseAux, hp]
  | cons pp ps1' ih =>
      intro es p ps2 v acc hmap hp
      cases es with
      | nil => simp at hmap
      | cons e es' =>
          simp only [List.map_cons, List.cons.injEq] at hmap
          simp only [List.cons_append, orParseAux, hmap.1]
          exact ih es' p ps2 v (acc ++ [e]) hmap.2 hp

theorem orParseAux_all_fail (ut : String) (input : JsValue) (ctx : Ctx) :
    ∀ (ps : List ParserR) (es acc : List InvalidInputError),
      ps.map (fun pp => pp.parse input ctx) = es.map Except.error →
      orParseAux ut ps input ctx acc = .error (.make
        { name := ctx.name, typePre := ctx.typePre,
          expectedType := orDefault ctx.overrideType ("union type of " ++ ut),
          reason := orReason (acc ++ es), reasonSuffix := ctx.reasonSuffix,
          errors := some (acc ++ es) }) := by
  intro ps
  induction ps with
  | nil =>
      intro es acc hmap
      cases es with
      | nil => simp [orParseAux]
      | cons e es' => simp at hmap
  | cons pp ps' ih =>
      intro es acc hmap
      cases es with
      | nil => simp at hmap
      | cons e es' =>
          simp only [List.map_cons, List.cons.injEq] at hmap
          simp only [orParseAux, hmap.1]
          have := ih es' (acc ++ [e]) hmap.2
          rw [this]
          simp [List.append_assoc]

/-- Claim C2: `or/union` tries the candidates in array order and
returns the first success without the later candidates affecting the
result; it throws only after every candidate has failed, and the
thrown error then carries the full ordered list of all child errors;
constructing `or` with an empty list fails at construction time. -/
theorem or_union_first_success_and_aggregation :
    (or [] = .error ("or/union parser requires at least one parser")) ∧
    (∀ ps : List ParserR, ps ≠ [] →
      or ps = .ok { parse := orParse ps, type := unionTypeOf ps }) ∧
    (∀ (ps1 : List ParserR) (es : List InvalidInputError) (p : ParserR)
       (ps2 : List ParserR) (input v : JsValue) (ctx : Ctx),
      ps1.map (fun pp => pp.parse input ctx) = es.map Except.error →
      p.parse input ctx = .ok v →
      orParse (ps1 ++ p :: ps2) input ctx = .ok v) ∧
    (∀ (ps : List ParserR) (es : List InvalidInputError) (input : JsValue) (ctx : Ctx),
      ps.map (fun pp => pp.parse input ctx) = es.map Except.error →
      orParse ps input ctx = .error (.make
        { name := ctx.name, typePre := ctx.typePre,
          expectedType := orDefault ctx.overrideType ("union type of " ++ unionTypeOf ps),
          reason := orReason es, reasonSuffix := ctx.reasonSuffix,
          errors := some es })) := by
  refine ⟨rfl, ?_, ?_, ?_⟩
  · intro ps hps
    cases ps with
    | nil => exact absurd rfl hps
    | cons p ps' => rfl
  · intro ps1 es p ps2 input v ctx hmap hp
    exact orParseAux_first_success (unionTypeOf (ps1 ++ p :: ps2)) input ctx
      ps1 es p ps2 v [] hmap hp
  · intro ps es input ctx hmap
    have := orParseAux_all_fail (unionTypeOf ps) input ctx ps es [] hmap
    simpa using this

/-- Witness for C2: `or([checkbox, string])` succeeds on `'hi'` via
the second candidate; `or([checkbox, int])` fails on `'hi'` and the
thrown error retains both child errors in order. -/
theorem or_union_first_success_and_aggregation_witness :
    orParse [checkbox, string {}] (.str "hi") {} = .ok (.str "hi") ∧
    resultErrors (orParse [checkbox, int {}] (.str "hi") {}) =
      some [InvalidInputError.make { expectedType := "checkbox", reason := "got string" },
            InvalidInputError.make { expectedType := "int", reason := "got string" }] := by
  constructor
  · exact or_union_first_success_and_aggregation.2.2.1 [checkbox]
      [InvalidInputError.make { expectedType := "checkbox", reason := "got string" }]
      (string {}) [] (.str "hi") (.str "hi") {} rfl rfl
  · have h := or_union_first_success_and_aggregation.2.2.2 [checkbox, int {}]
      [InvalidInputError.make { expectedType := "checkbox", reason := "got string" },
       InvalidInputError.make { expectedType := "int", reason := "got string" }]
      (.str "hi") {} rfl
    exact (congrArg resultErrors h).trans rfl

theorem listIsInfix_append (t pre post : List Char) :
    listIsInfix t (pre ++ t ++ post) = true := by
  induction pre with
  | nil =>
      simp only [List.nil_append]
      cases hc : t ++ post with
      | nil =>
          have : t = [] := by
            cases t with
            | nil => rfl
            | cons a as => simp at hc
          simp [listIsInfix, this]
      | cons c rest =>
          rw [← hc]
          cases t with
          | nil =>
              simp only [List.nil_append] at hc
              rw [hc]
              simp [listIsInfix, List.isPrefixOf]
          | cons a as =>
              simp only [List.cons_append] at hc ⊢
              rw [hc]
              simp only [listIsInfix, ← hc]
              have : (a :: as).isPrefixOf ((a :: as) ++ post) = true := by
                rw [List.isPrefixOf_iff_prefix]
                exact List.prefix_append _ _
              rw [List.cons_append] at this
              simp [this]
  | cons c pre' ih =>
      simp only [List.cons_append, listIsInfix, List.append_eq, ih, Bool.or_true]

theorem containsS_append (a b c : String) : containsS (a ++ b ++ c) b = true := by
  show listIsInfix b.data (a ++ b ++ c).data = true
  have h : (a ++ b ++ c).data = a.data ++ b.data ++ c.data := by
    simp [String.data_append]
  rw [h, List.append_assoc, ← List.append_assoc]
  exact listIsInfix_append b.data a.data c.data

theorem orDefault_of_falsy (a : Option String) (b : String) (h : truthyS a = false) :
    orDefault a b = b := by
  cases a with
  | none => rfl
  | some s =>
      simp only [truthyS, Bool.not_eq_false'] at h
      simp [orDefault, h]

/-- Claim C8, amended: when `values(list).parse` fails on a non-member
and the context carries a (truthy) name and no (truthy) overrideType,
the error message is exactly the composed text embedding the
JSON-quoted name and the JSON serialization of the allowed list, and
therefore contains both. -/
theorem values_error_message_embeds_name_and_set
    (vals : List JsValue) (input : JsValue) (ctx : Ctx) (nm : String)
    (hname : ctx.name = some nm) (hnm : (nm == "") = false)
    (hov : truthyS ctx.overrideType = false)
    (hfail : vals.all (fun v => !jsStrictEq input v) = true) :
    resultMessage (valuesParse vals input ctx) =
      ("Invalid " ++ (if truthyS ctx.typePre then ctx.typePre.getD ("") ++ " " else "") ++
        "enums value of ") ++ jsonQuote nm ++ (", expect ") ++ jsonArr vals ++
        (", " ++ valuesReason input ++
          (if truthyS ctx.reasonSuffix then " " ++ ctx.reasonSuffix.getD ("") else "")) ∧
    containsS (resultMessage (valuesParse vals input ctx)) (jsonQuote nm) = true ∧
    containsS (resultMessage (valuesParse vals input ctx)) (jsonArr vals) = true := by
  have hfind : vals.find? (fun v => jsStrictEq input v) = none := by
    rw [List.find?_eq_none]
    intro x hx
    have := List.all_eq_true.mp hfail x hx
    simp only [Bool.not_eq_true'] at this
    simp [this]
  have hmsg : resultMessage (valuesParse vals input ctx) =
      composeMessage { name := none, typePre := ctx.typePre,
                       expectedType := valuesExpectedType vals ctx,
                       reason := valuesReason input,
                       reasonSuffix := ctx.reasonSuffix } := by
    simp [valuesParse, hfind, resultMessage, InvalidInputError.make, InvalidInputError.message]
  have het : valuesExpectedType vals ctx =
      "enums value of " ++ jsonQuote nm ++ ", expect " ++ jsonArr vals := by
    unfold valuesExpectedType
    rw [orDefault_of_falsy _ _ hov, hname]
    have : truthyS (some nm) = true := by simp [truthyS, hnm]
    simp [this]
  have heq : resultMessage (valuesParse vals input ctx) =
      ("Invalid " ++ (if truthyS ctx.typePre then ctx.typePre.getD ("") ++ " " else "") ++
        "enums value of ") ++ jsonQuote nm ++ (", expect ") ++ jsonArr vals ++
        (", " ++ valuesReason input ++
          (if truthyS ctx.reasonSuffix then " " ++ ctx.reasonSuffix.getD ("") else "")) := by
    rw [hmsg]
    unfold composeMessage
    simp only [het]
    cases h1 : truthyS ctx.typePre <;> cases h3 : truthyS ctx.reasonSuffix <;>
      (simp [h1, h3, truthyS, String.append_assoc]; try rfl)
  refine ⟨heq, ?_, ?_⟩
  · rw [show resultMessage (valuesParse vals input ctx) =
        ("Invalid " ++ (if truthyS ctx.typePre then ctx.typePre.getD ("") ++ " " else "") ++
          "enums value of ") ++ jsonQuote nm ++
          ((", expect ") ++ jsonArr vals ++
            (", " ++ valuesReason input ++
              (if truthyS ctx.reasonSuffix then " " ++ ctx.reasonSuffix.getD ("") else "")))
      from by rw [heq]; try simp [String.append_assoc]]
    exact containsS_append _ _ _
  · rw [show resultMessage (valuesParse vals input ctx) =
        (("Invalid " ++ (if truthyS ctx.typePre then ctx.typePre.getD ("") ++ " " else "") ++
          "enums value of ") ++ jsonQuote nm ++ (", expect ")) ++ jsonArr vals ++
          (", " ++ valuesReason input ++
            (if truthyS ctx.reasonSuffix then " " ++ ctx.reasonSuffix.getD ("") else ""))
      from by rw [heq]; try simp [String.append_assoc]]
    exact containsS_append _ _ _

/-- Counterexample for C8 as frozen: with a context that carries a
name and also an overrideType, the failure message contains neither
the quoted name nor the allowed-set serialization (the override
replaces the whole expected-type phrase). -/
theorem values_error_message_overrideType_counterexample :
    (valuesParse [.str "x", .str "y"] (.str "z")
        { name := some ("role"), overrideType := some ("foo") }).isOk = false ∧
    containsS (resultMessage (valuesParse [.str "x", .str "y"] (.str "z")
        { name := some ("role"), overrideType := some ("foo") })) (jsonQuote ("role")) = false ∧
    containsS (resultMessage (valuesParse [.str "x", .str "y"] (.str "z")
        { name := some ("role"), overrideType := some ("foo") })) (jsonArr [.str "x", .str "y"]) = false := by
  exact ⟨rfl, rfl, rfl⟩

/-- Witness for C8's amended theorem at the spec's concrete example. -/
theorem values_error_message_embeds_name_and_set_witness :
    containsS (resultMessage (valuesParse [.str "x", .str "y"] (.str "z")
        { name := some ("role") })) (jsonQuote ("role")) = true ∧
    containsS (resultMessage (valuesParse [.str "x", .str "y"] (.str "z")
        { name := some ("role") })) (jsonArr [.str "x", .str "y"]) = true := by
  exact ⟨(values_error_message_embeds_name_and_set [.str "x", .str "y"] (.str "z")
      { name := some ("role") } ("role") rfl rfl rfl rfl).2.1,
    (values_error_message_embeds_name_and_set [.str "x", .str "y"] (.str "z")
      { name := some ("role") } ("role") rfl rfl rfl rfl).2.2⟩

/-- Claim C9: with default options, `number().parse` applies
`nearestNumber` to every truthy (nonzero) numeric input, including
direct number inputs; a non-integer result of `nearestNumber` has
denominator 1000 (at most 3 fraction digits, the `toLocaleString('en')`
formatting); `parse(1.23456)` returns `1.235`; integers, `0`, and the
`NaN` rejection are unaffected. -/
theorem number_default_nearest_rounding :
    (∀ (q : JsRat) (ctx : Ctx), q.isZero = false →
      numberParse {} (.num q) ctx = .ok (.num (nearestNumber q))) ∧
    (∀ q : JsRat, q.isInt = false → (nearestNumber q).den = 1000) ∧
    (∀ q : JsRat, q.isInt = true → nearestNumber q = q) ∧
    numberParse {} (.num (jsDec 123456 5)) {} = .ok (.num (jsDec 1235 3)) ∧
    (∀ ctx : Ctx, numberParse {} (.num (jsInt 0)) ctx = .ok (.num (jsInt 0))) ∧
    (∀ ctx : Ctx, (numberParse {} JsValue.nan ctx).isOk = false) := by
  refine ⟨?_, ?_, ?_, rfl, fun ctx => rfl, fun ctx => rfl⟩
  · intro q ctx hq
    simp [numberParse, isEmptyStr, hq]
  · intro q hq
    simp [nearestNumber, hq]
  · intro q hq
    simp [nearestNumber, hq]

/-- Witness for C9 at concrete numbers: 1.5 is rounded through
`nearestNumber` (value preserved), 1.2345 gains denominator 1000, and
the integer 7 is unchanged. -/
theorem number_default_nearest_rounding_witness :
    numberParse {} (.num (jsDec 15 1)) {} = .ok (.num (nearestNumber (jsDec 15 1))) ∧
    (nearestNumber (jsDec 12345 4)).den = 1000 ∧
    nearestNumber (jsInt 7) = jsInt 7 := by
  exact ⟨number_default_nearest_rounding.1 (jsDec 15 1) {} rfl,
    number_default_nearest_rounding.2.1 (jsDec 12345 4) rfl,
    number_default_nearest_rounding.2.2.1 (jsInt 7) rfl⟩

theorem concatTokens_append_single (l : List String) (t : String) :
    concatTokens (l ++ [t]) = concatTokens l ++ t := by
  induction l with
  | nil =>
      show t ++ "" = "" ++ t
      obtain ⟨td⟩ := t
      show String.mk (td ++ []) = String.mk ([] ++ td)
      rw [List.append_nil, List.nil_append]
  | cons a as ih =>
      show a ++ concatTokens (as ++ [t]) = (a ++ concatTokens as) ++ t
      rw [ih, String.append_assoc]

theorem endsWithS_append_self (x t : String) : endsWithS (x ++ t) t = true := by
  show t.data.isSuffixOf (x ++ t).data = true
  rw [String.data_append, List.isSuffixOf_iff_suffix]
  exact List.suffix_append _ _

theorem suffix_split {t' x t : List Char} (h : t' <:+ x ++ t) :
    t' <:+ t ∨ t <:+ t' := by
  by_cases hle : t'.length ≤ t.length
  · left
    rw [← List.reverse_prefix] at h ⊢
    rw [List.reverse_append] at h
    rw [List.prefix_iff_eq_take] at h
    rw [List.take_append_of_le_length (by simpa using hle)] at h
    rw [h]
    exact List.take_prefix _ _
  · right
    rw [← List.reverse_prefix] at h ⊢
    rw [List.reverse_append, List.prefix_iff_eq_take] at h
    rw [List.take_append_eq_append_take] at h
    rw [List.take_of_length_le (by simp; omega)] at h
    exact ⟨_, h.symm⟩

theorem endsWithS_append_cross (x t t' : String)
    (h1 : endsWithS t t' = false) (h2 : endsWithS t' t = false) :
    endsWithS (x ++ t) t' = false := by
  cases hc : endsWithS (x ++ t) t' with
  | false => rfl
  | true =>
      exfalso
      have hs : t'.data <:+ x.data ++ t.data := by
        have := hc
        unfold endsWithS at this
        rw [String.data_append] at this
        exact List.isSuffixOf_iff_suffix.mp this
      rcases suffix_split hs with h | h
      · have : endsWithS t t' = true := by
          unfold endsWithS
          exact List.isSuffixOf_iff_suffix.mpr h
        rw [this] at h1
        cases h1
      · have : endsWithS t' t = true := by
          unfold endsWithS
          exact List.isSuffixOf_iff_suffix.mpr h
        rw [this] at h2
        cases h2

theorem dropRightS_append (x t : String) (n : Nat) (hn : t.data.length = n) :
    dropRightS (x ++ t) n = x := by
  unfold dropRightS
  obtain ⟨xd⟩ := x
  obtain ⟨td⟩ := t
  show String.mk ((String.mk xd ++ String.mk td).data.take
    ((String.mk xd ++ String.mk td).data.length - n)) = String.mk xd
  rw [String.data_append]
  show String.mk ((xd ++ td).take ((xd ++ td).length - n)) = String.mk xd
  rw [List.length_append, ← hn]
  have hlen : xd.length + td.length - td.length = xd.length := by omega
  rw [hlen, List.take_left]

theorem cleanEndsFalse {base : String} (hclean : cleanOfSuffixTokens base = true)
    {t : String} (ht : t ∈ fieldNameSuffices) : endsWithS base t = false := by
  have := List.all_eq_true.mp hclean t ht
  simpa using this

theorem contains_append_single (l : List String) (x t : String) :
    (l ++ [x]).contains t = (l.contains t || t == x) := by
  induction l with
  | nil =>
      show List.elem t [x] = (false || t == x)
      simp only [List.elem, Bool.false_or]
      cases t == x <;> rfl
  | cons a as ih =>
      show List.elem t (a :: (as ++ [x])) = _
      simp only [List.elem]
      cases t == a
      · simpa using ih
      · simp

theorem contains_eq_of_perm {l₁ l₂ : List String} (hp : l₁.Perm l₂) (x : String) :
    l₁.contains x = l₂.contains x := by
  by_cases hx : x ∈ l₁
  · have c1 : l₁.contains x = true := List.elem_iff.mpr hx
    have c2 : l₂.contains x = true := List.elem_iff.mpr (hp.mem_iff.mp hx)
    rw [c1, c2]
  · have hx2 : x ∉ l₂ := fun h => hx (hp.mem_iff.mpr h)
    cases h1 : l₁.contains x
    · cases h2 : l₂.contains x
      · rfl
      · exact absurd (List.elem_iff.mp h2) hx2
    · exact absurd (List.elem_iff.mp h1) hx

theorem tokenNonempty {t : String} (ht : t ∈ fieldNameSuffices) :
    1 ≤ t.data.length := by
  simp only [fieldNameSuffices, List.mem_cons, List.mem_singleton] at ht
  rcases ht with rfl | rfl | rfl | rfl | rfl | rfl | h
  all_goals first
    | decide
    | cases h

theorem concatTokens_length_ge (l : List String)
    (hall : (l.all (fun t => fieldNameSuffices.contains t)) = true) :
    l.length ≤ (concatTokens l).data.length := by
  induction l with
  | nil => simp [concatTokens]
  | cons t ts ih =>
      simp only [List.all_cons, Bool.and_eq_true] at hall
      have h1 : 1 ≤ t.data.length := tokenNonempty (List.elem_iff.mp hall.1)
      have h2 := ih hall.2
      show ts.length + 1 ≤ (t ++ concatTokens ts).data.length
      rw [String.data_append, List.length_append]
      omega

theorem inferFieldLoopAux_canonical :
    ∀ (l : List String) (base : String) (val : JsValue) (parser : Option ParserR)
      (isNull isOpt : Bool) (fuel : Nat),
      cleanOfSuffixTokens base = true →
      (l.all (fun t => fieldNameSuffices.contains t)) = true →
      (hasTokenEnum l = true → isArr val = true) →
      l.length < fuel →
      inferFieldLoopAux fuel (base ++ concatTokens l) val parser isNull isOpt =
        (base,
         (if hasTokenEnum l then some (values (valAsList val)) else parser),
         (isNull || hasTokenNullable l),
         (isOpt || hasTokenOptional l)) := by
  intro l
  induction l using List.reverseRecOn with
  | nil =>
      intro base val parser isNull isOpt fuel hclean _ _ hfuel
      obtain ⟨f, rfl⟩ : ∃ f, fuel = f + 1 := ⟨fuel - 1, by omega⟩
      have hb : base ++ concatTokens [] = base := by
        obtain ⟨bd⟩ := base
        show String.mk (bd ++ []) = String.mk bd
        rw [List.append_nil]
      rw [hb]
      have e1 := cleanEndsFalse hclean (show "$enums" ∈ fieldNameSuffices by decide)
      have e2 := cleanEndsFalse hclean (show "$enum" ∈ fieldNameSuffices by decide)
      have e3 := cleanEndsFalse hclean (show "$nullable" ∈ fieldNameSuffices by decide)
      have e4 := cleanEndsFalse hclean (show "$null" ∈ fieldNameSuffices by decide)
      have e5 := cleanEndsFalse hclean (show "$optional" ∈ fieldNameSuffices by decide)
      have e6 := cleanEndsFalse hclean (show "?" ∈ fieldNameSuffices by decide)
      simp [inferFieldLoopAux, e1, e2, e3, e4, e5, e6, hasTokenEnum,
        hasTokenNullable, hasTokenOptional]
  | append_singleton l' t ih =>
      intro base val parser isNull isOpt fuel hclean hall henum hfuel
      obtain ⟨f, rfl⟩ : ∃ f, fuel = f + 1 := ⟨fuel - 1, by omega⟩
      have hfl : l'.length < f := by
        simp only [List.length_append, List.length_singleton] at hfuel
        omega
      have hall2 : (l'.all (fun t => fieldNameSuffices.contains t)) = true ∧
          fieldNameSuffices.contains t = true := by
        rw [List.all_append] at hall
        simp only [Bool.and_eq_true] at hall
        refine ⟨hall.1, ?_⟩
        have := hall.2
        simpa using this
      have hall' := hall2.1
      have htmem : t ∈ fieldNameSuffices := List.elem_iff.mp hall2.2
      rw [concatTokens_append_single, ← String.append_assoc]
      have ht6 : t = "$enums" ∨ t = "$enum" ∨ t = "$nullable" ∨ t = "$null" ∨
          t = "$optional" ∨ t = "?" := by
        simpa [fieldNameSuffices] using htmem
      rcases ht6 with rfl | rfl | rfl | rfl | rfl | rfl
      · -- t = "$enums"
        have harr : isArr val = true := henum (by
          simp [hasTokenEnum, contains_append_single])
        have hstep : inferFieldLoopAux (f + 1)
            ((base ++ concatTokens l') ++ "$enums") val parser isNull isOpt =
            inferFieldLoopAux f (base ++ concatTokens l') val
              (some (values (valAsList val))) isNull isOpt := by
          simp only [inferFieldLoopAux, harr, endsWithS_append_self, Bool.true_and,
            eq_self_iff_true, Bool.false_eq_true, if_true, if_false]
          rw [dropRightS_append _ _ 6 (by decide)]
        rw [hstep, ih base val _ isNull isOpt f hclean hall' (fun _ => harr) hfl]
        simp [hasTokenEnum, hasTokenNullable, hasTokenOptional, contains_append_single]
      · -- t = "$enum"
        have harr : isArr val = true := henum (by
          simp [hasTokenEnum, contains_append_single])
        have c1 := endsWithS_append_cross (base ++ concatTokens l') ("$enum") ("$enums")
          (by decide) (by decide)
        have hstep : inferFieldLoopAux (f + 1)
            ((base ++ concatTokens l') ++ "$enum") val parser isNull isOpt =
            inferFieldLoopAux f (base ++ concatTokens l') val
              (some (values (valAsList val))) isNull isOpt := by
          simp only [inferFieldLoopAux, harr, c1, endsWithS_append_self, Bool.true_and,
            Bool.and_false, eq_self_iff_true, Bool.false_eq_true, if_true, if_false]
          rw [dropRightS_append _ _ 5 (by decide)]
        rw [hstep, ih base val _ isNull isOpt f hclean hall' (fun _ => harr) hfl]
        simp [hasTokenEnum, hasTokenNullable, hasTokenOptional, contains_append_single]
      · -- t = "$nullable"
        have c1 := endsWithS_append_cross (base ++ concatTokens l') ("$nullable") ("$enums")
          (by decide) (by decide)
        have c2 := endsWithS_append_cross (base ++ concatTokens l') ("$nullable") ("$enum")
          (by decide) (by decide)
        have hstep : inferFieldLoopAux (f + 1)
            ((base ++ concatTokens l') ++ "$nullable") val parser isNull isOpt =
            inferFieldLoopAux f (base ++ concatTokens l') val parser true isOpt := by
          simp only [inferFieldLoopAux, c1, c2, endsWithS_append_self, Bool.and_false,
            eq_self_iff_true, Bool.false_eq_true, if_true, if_false]
          rw [dropRightS_append _ _ 9 (by decide)]
        have henum' : hasTokenEnum l' = true → isArr val = true := by
          intro h
          exact henum (by
            simp only [hasTokenEnum, contains_append_single] at h ⊢
            rcases Bool.or_eq_true_iff.mp h with h | h <;>
              simp [List.elem_iff.mp h])
        rw [hstep, ih base val parser true isOpt f hclean hall' henum' hfl]
        simp [hasTokenEnum, hasTokenNullable, hasTokenOptional, contains_append_single]
      · -- t = "$null"
        have c1 := endsWithS_append_cross (base ++ concatTokens l') ("$null") ("$enums")
          (by decide) (by decide)
        have c2 := endsWithS_append_cross (base ++ concatTokens l') ("$null") ("$enum")
          (by decide) (by decide)
        have c3 := endsWithS_append_cross (base ++ concatTokens l') ("$null") ("$nullable")
          (by decide) (by decide)
        have hstep : inferFieldLoopAux (f + 1)
            ((base ++ concatTokens l') ++ "$null") val parser isNull isOpt =
            inferFieldLoopAux f (base ++ concatTokens l') val parser true isOpt := by
          simp only [inferFieldLoopAux, c1, c2, c3, endsWithS_append_self, Bool.and_false,
            eq_self_iff_true, Bool.false_eq_true, if_true, if_false]
          rw [dropRightS_append _ _ 5 (by decide)]
        have henum' : hasTokenEnum l' = true → isArr val = true := by
          intro h
          exact henum (by
            simp only [hasTokenEnum, contains_append_single] at h ⊢
            rcases Bool.or_eq_true_iff.mp h with h | h <;>
              simp [List.elem_iff.mp h])
        rw [hstep, ih base val parser true isOpt f hclean hall' henum' hfl]
        simp [hasTokenEnum, hasTokenNullable, hasTokenOptional, contains_append_single]
      · -- t = "$optional"
        have c1 := endsWithS_append_cross (base ++ concatTokens l') ("$optional") ("$enums")
          (by decide) (by decide)
        have c2 := endsWithS_append_cross (base ++ concatTokens l') ("$optional") ("$enum")
          (by decide) (by decide)
        have c3 := endsWithS_append_cross (base ++ concatTokens l') ("$optional") ("$nullable")
          (by decide) (by decide)
        have c4 := endsWithS_append_cross (base ++ concatTokens l') ("$optional") ("$null")
          (by decide) (by decide)
        have hstep : inferFieldLoopAux (f + 1)
            ((base ++ concatTokens l') ++ "$optional") val parser isNull isOpt =
            inferFieldLoopAux f (base ++ concatTokens l') val parser isNull true := by
          simp only [inferFieldLoopAux, c1, c2, c3, c4, endsWithS_append_self, Bool.and_false,
            eq_self_iff_true, Bool.false_eq_true, if_true, if_false]
          rw [dropRightS_append _ _ 9 (by decide)]
        have henum' : hasTokenEnum l' = true → isArr val = true := by
          intro h
          exact henum (by
            simp only [hasTokenEnum, contains_append_single] at h ⊢
            rcases Bool.or_eq_true_iff.mp h with h | h <;>
              simp [List.elem_iff.mp h])
        rw [hstep, ih base val parser isNull true f hclean hall' henum' hfl]
        simp [hasTokenEnum, hasTokenNullable, hasTokenOptional, contains_append_single]
      · -- t = "?"
        have c1 := endsWithS_append_cross (base ++ concatTokens l') ("?") ("$enums")
          (by decide) (by decide)
        have c2 := endsWithS_append_cross (base ++ concatTokens l') ("?") ("$enum")
          (by decide) (by decide)
        have c3 := endsWithS_append_cross (base ++ concatTokens l') ("?") ("$nullable")
          (by decide) (by decide)
        have c4 := endsWithS_append_cross (base ++ concatTokens l') ("?") ("$null")
          (by decide) (by decide)
        have c5 := endsWithS_append_cross (base ++ concatTokens l') ("?") ("$optional")
          (by decide) (by decide)
        have hstep : inferFieldLoopAux (f + 1)
            ((base ++ concatTokens l') ++ "?") val parser isNull isOpt =
            inferFieldLoopAux f (base ++ concatTokens l') val parser isNull true := by
          simp only [inferFieldLoopAux, c1, c2, c3, c4, c5, endsWithS_append_self, Bool.and_false,
            eq_self_iff_true, Bool.false_eq_true, if_true, if_false]
          rw [dropRightS_append _ _ 1 (by decide)]
        have henum' : hasTokenEnum l' = true → isArr val = true := by
          intro h
          exact henum (by
            simp only [hasTokenEnum, contains_append_single] at h ⊢
            rcases Bool.or_eq_true_iff.mp h with h | h <;>
              simp [List.elem_iff.mp h])
        rw [hstep, ih base val parser isNull true f hclean hall' henum' hfl]
        simp [hasTokenEnum, hasTokenNullable, hasTokenOptional, contains_append_single]

theorem inferFieldLoop_canonical (base : String) (l : List String) (val : JsValue)
    (hclean : cleanOfSuffixTokens base = true)
    (hall : (l.all (fun t => fieldNameSuffices.contains t)) = true)
    (henum : hasTokenEnum l = true → isArr val = true) :
    inferFieldLoop (base ++ concatTokens l) val =
      (base,
       (if hasTokenEnum l then some (values (valAsList val)) else none),
       hasTokenNullable l, hasTokenOptional l) := by
  unfold inferFieldLoop
  have hfuel : l.length < (base ++ concatTokens l).data.length + 1 := by
    have h1 := concatTokens_length_ge l hall
    have h2 : (base ++ concatTokens l).data.length =
        base.data.length + (concatTokens l).data.length := by
      rw [String.data_append, List.length_append]
    omega
  have h := inferFieldLoopAux_canonical l base val none false false
    ((base ++ concatTokens l).data.length + 1) hclean hall henum hfuel
  simpa using h

theorem inferObjField_canonical (base : String) (l : List String) (val : JsValue)
    (hclean : cleanOfSuffixTokens base = true)
    (hall : (l.all (fun t => fieldNameSuffices.contains t)) = true)
    (henum : hasTokenEnum l = true → isArr val = true) :
    inferObjField (base ++ concatTokens l) val =
      ((if hasTokenEnum l then Except.ok (values (valAsList val))
        else inferFromSampleValue val).map (fun parser =>
        (base, if hasTokenOptional l then
            optional (if hasTokenNullable l then nullable parser else parser)
          else (if hasTokenNullable l then nullable parser else parser)))) := by
  have hl := inferFieldLoop_canonical base l val hclean hall henum
  unfold inferObjField
  rw [hl]
  cases hE : hasTokenEnum l <;> cases hN : hasTokenNullable l <;>
    cases hO : hasTokenOptional l <;> simp [hE, hN, hO]

/-- Claim C7: the suffix loop of `inferFromSampleValue` peels the
recognized suffixes until none match, so for a clean base name and any
combination of suffix tokens (with a list-valued example whenever an
enum token occurs), the decoded field is the base name with the
canonical parser: the `values(list)` parser when an enum token occurs
(else the recursive inference), wrapped in `nullable` when a nullable
token occurs, then in `optional` when an optional token occurs —
independently of the order of the suffixes, so every permutation of
the tokens yields the same canonical field name and parser. -/
theorem infer_suffix_decoding_order_independent :
    (∀ (base : String) (l : List String) (val : JsValue),
      cleanOfSuffixTokens base = true →
      (l.all (fun t => fieldNameSuffices.contains t)) = true →
      (hasTokenEnum l = true → isArr val = true) →
      inferObjField (base ++ concatTokens l) val =
        ((if hasTokenEnum l then Except.ok (values (valAsList val))
          else inferFromSampleValue val).map (fun parser =>
          (base, if hasTokenOptional l then
              optional (if hasTokenNullable l then nullable parser else parser)
            else (if hasTokenNullable l then nullable parser else parser))))) ∧
    (∀ (base : String) (l₁ l₂ : List String) (val : JsValue),
      cleanOfSuffixTokens base = true →
      (l₁.all (fun t => fieldNameSuffices.contains t)) = true →
      (hasTokenEnum l₁ = true → isArr val = true) →
      l₁.Perm l₂ →
      inferObjField (base ++ concatTokens l₁) val =
        inferObjField (base ++ concatTokens l₂) val) := by
  refine ⟨inferObjField_canonical, ?_⟩
  intro base l₁ l₂ val hclean hall henum hperm
  have hall₂ : (l₂.all (fun t => fieldNameSuffices.contains t)) = true := by
    rw [List.all_eq_true] at hall ⊢
    intro t ht
    exact hall t (hperm.mem_iff.mpr ht)
  have hc := contains_eq_of_perm hperm
  have hE : hasTokenEnum l₁ = hasTokenEnum l₂ := by
    simp only [hasTokenEnum, hc]
  have hN : hasTokenNullable l₁ = hasTokenNullable l₂ := by
    simp only [hasTokenNullable, hc]
  have hO : hasTokenOptional l₁ = hasTokenOptional l₂ := by
    simp only [hasTokenOptional, hc]
  have henum₂ : hasTokenEnum l₂ = true → isArr val = true := by
    intro h
    exact henum (by rw [hE]; exact h)
  rw [inferObjField_canonical base l₁ val hclean hall henum,
    inferObjField_canonical base l₂ val hclean hall₂ henum₂, hE, hN, hO]

/-- Witness for C7: the two orders of `$enums` and `$nullable` on one
key decode to the same field parser. -/
theorem infer_suffix_decoding_order_independent_witness :
    inferObjField ("status" ++ concatTokens ["$enums", "$nullable"])
        (.arr [.str "a", .str "b"]) =
      inferObjField ("status" ++ concatTokens ["$nullable", "$enums"])
        (.arr [.str "a", .str "b"]) := by
  exact infer_suffix_decoding_order_independent.2 ("status") ["$enums", "$nullable"]
    ["$nullable", "$enums"] (.arr [.str "a", .str "b"]) (by decide) (by decide)
    (fun _ => rfl) (by decide)

/-! Trim lemmas. -/

theorem dropWhile_head_not (p : Char → Bool) (l : List Char) :
    ∀ x ∈ (l.dropWhile p).head?, p x = false := by
  induction l with
  | nil => intro x hx; simp at hx
  | cons c t ih =>
      intro x hx
      by_cases hc : p c = true
      · rw [List.dropWhile_cons_of_pos hc] at hx
        exact ih x hx
      · rw [List.dropWhile_cons_of_neg hc] at hx
        simp at hx
        subst hx
        simpa using hc

theorem dropWhile_eq_self_of_head (p : Char → Bool) (l : List Char)
    (h : ∀ x ∈ l.head?, p x = false) : l.dropWhile p = l := by
  cases l with
  | nil => rfl
  | cons c t =>
      have hc : p c = false := h c (by simp)
      simp [List.dropWhile, hc]

theorem dropWhile_suffix_self (p : Char → Bool) (l : List Char) :
    l.dropWhile p <:+ l := by
  induction l with
  | nil => exact List.suffix_rfl
  | cons c t ih =>
      by_cases hc : p c = true
      · rw [List.dropWhile_cons_of_pos hc]
        exact ih.trans (List.suffix_cons c t)
      · rw [List.dropWhile_cons_of_neg hc]

theorem getLast?_of_suffix {s l : List Char} (h : s <:+ l) (hs : s ≠ []) :
    s.getLast? = l.getLast? := by
  obtain ⟨t, rfl⟩ := h
  exact (List.getLast?_append_of_ne_nil t hs).symm

theorem trim_end_core (A : List Char) (hA : ∀ x ∈ A.head?, jsIsWs x = false) :
    jsTrimList (A.reverse.dropWhile jsIsWs).reverse =
      (A.reverse.dropWhile jsIsWs).reverse := by
  by_cases hBnil : A.reverse.dropWhile jsIsWs = []
  · rw [hBnil]; rfl
  · show ((((A.reverse.dropWhile jsIsWs).reverse).dropWhile jsIsWs).reverse.dropWhile
        jsIsWs).reverse = _
    have hstep1 : (A.reverse.dropWhile jsIsWs).reverse.dropWhile jsIsWs =
        (A.reverse.dropWhile jsIsWs).reverse := by
      apply dropWhile_eq_self_of_head
      intro x hx
      rw [List.head?_reverse] at hx
      rw [getLast?_of_suffix (dropWhile_suffix_self jsIsWs A.reverse) hBnil,
        List.getLast?_reverse] at hx
      exact hA x hx
    rw [hstep1, List.reverse_reverse]
    rw [dropWhile_eq_self_of_head _ _ (fun x hx => dropWhile_head_not jsIsWs A.reverse x hx)]

theorem jsTrimList_idem (l : List Char) : jsTrimList (jsTrimList l) = jsTrimList l :=
  trim_end_core (l.dropWhile jsIsWs) (fun x hx => dropWhile_head_not jsIsWs l x hx)

theorem jsTrim_idem (s : String) : jsTrim (jsTrim s) = jsTrim s := by
  show (⟨jsTrimList (jsTrimList s.data)⟩ : String) = ⟨jsTrimList s.data⟩
  rw [jsTrimList_idem]

theorem jsTrimList_eq_self_of_ends (l : List Char)
    (h1 : ∀ x ∈ l.head?, jsIsWs x = false)
    (h2 : ∀ x ∈ l.getLast?, jsIsWs x = false) : jsTrimList l = l := by
  show ((l.dropWhile jsIsWs).reverse.dropWhile jsIsWs).reverse = l
  rw [dropWhile_eq_self_of_head _ _ h1]
  rw [dropWhile_eq_self_of_head _ _ (by simpa [List.head?_reverse] using h2)]
  exact List.reverse_reverse l

theorem jsTrim_eq_self_of_ends (s : String)
    (h1 : ∀ x ∈ s.data.head?, jsIsWs x = false)
    (h2 : ∀ x ∈ s.data.getLast?, jsIsWs x = false) : jsTrim s = s := by
  show (⟨jsTrimList s.data⟩ : String) = s
  rw [jsTrimList_eq_self_of_ends s.data h1 h2]

theorem jsTrim_eq_self_of_all (s : String)
    (h : ∀ c ∈ s.data, jsIsWs c = false) : jsTrim s = s := by
  apply jsTrim_eq_self_of_ends
  · intro x hx; exact h x (List.mem_of_mem_head? hx)
  · intro x hx; exact h x (List.mem_of_mem_getLast? hx)

/-! Digit lemmas. -/

theorem natDigitsAux_stable : ∀ n f g, n < f → n < g → natDigitsAux f n = natDigitsAux g n := by
  intro n
  induction n using Nat.strong_induction_on with
  | _ n ih =>
      intro f g hf hg
      obtain ⟨f', rfl⟩ : ∃ k, f = k + 1 := ⟨f - 1, by omega⟩
      obtain ⟨g', rfl⟩ : ∃ k, g = k + 1 := ⟨g - 1, by omega⟩
      show natDigitsAux (f' + 1) n = natDigitsAux (g' + 1) n
      unfold natDigitsAux
      by_cases h10 : n < 10
      · simp [h10]
      · simp only [h10, if_false]
        have hdiv : n / 10 < n := Nat.div_lt_self (by omega) (by omega)
        rw [ih (n / 10) hdiv f' g' (by omega) (by omega)]

theorem natDigits_small {n : Nat} (h : n < 10) : natDigits n = [Char.ofNat (48 + n)] := by
  show natDigitsAux (n + 1) n = _
  unfold natDigitsAux
  simp [h]

theorem natDigits_unfold {n : Nat} (h : 10 ≤ n) :
    natDigits n = natDigits (n / 10) ++ [Char.ofNat (48 + n % 10)] := by
  show natDigitsAux (n + 1) n = _
  unfold natDigitsAux
  have h10 : ¬ n < 10 := by omega
  simp only [h10, if_false]
  have hdiv : n / 10 < n := Nat.div_lt_self (by omega) (by omega)
  rw [natDigitsAux_stable (n / 10) n (n / 10 + 1) (by omega) (by omega)]
  rfl

theorem natDigits_len_pos (n : Nat) : 0 < (natDigits n).length := by
  by_cases h : n < 10
  · rw [natDigits_small h]; simp
  · rw [natDigits_unfold (by omega)]; simp

theorem natDigitsAux_mem : ∀ f n c, c ∈ natDigitsAux f n →
    ∃ k, k < 10 ∧ c = Char.ofNat (48 + k) := by
  intro f
  induction f with
  | zero => intro n c hc; simp [natDigitsAux] at hc
  | succ f ih =>
      intro n c hc
      unfold natDigitsAux at hc
      by_cases h10 : n < 10
      · simp [h10] at hc
        exact ⟨n, h10, hc⟩
      · simp only [h10, if_false, List.mem_append, List.mem_singleton] at hc
        rcases hc with hc | hc
        · exact ih (n / 10) c hc
        · exact ⟨n % 10, Nat.mod_lt _ (by omega), hc⟩

theorem natDigits_mem {n : Nat} {c : Char} (hc : c ∈ natDigits n) :
    ∃ k, k < 10 ∧ c = Char.ofNat (48 + k) :=
  natDigitsAux_mem _ n c hc

theorem digitChar_isDigit {k : Nat} (h : k < 10) : (Char.ofNat (48 + k)).isDigit = true := by
  interval_cases k <;> decide

theorem digitChar_not_ws {k : Nat} (h : k < 10) : jsIsWs (Char.ofNat (48 + k)) = false := by
  interval_cases k <;> decide

theorem digitVal_ofNat {k : Nat} (h : k < 10) : digitVal (Char.ofNat (48 + k)) = k := by
  interval_cases k <;> decide

theorem natDigits_all_digit (n : Nat) : ∀ c ∈ natDigits n, c.isDigit = true := by
  intro c hc
  obtain ⟨k, hk, rfl⟩ := natDigits_mem hc
  exact digitChar_isDigit hk

theorem natDigits_not_ws (n : Nat) : ∀ c ∈ natDigits n, jsIsWs c = false := by
  intro c hc
  obtain ⟨k, hk, rfl⟩ := natDigits_mem hc
  exact digitChar_not_ws hk

theorem digitsToNat_append_singleton (l : List Char) (c : Char) :
    digitsToNat (l ++ [c]) = digitsToNat l * 10 + digitVal c := by
  simp [digitsToNat, List.foldl_append]

theorem digitsToNat_roundtrip : ∀ n, digitsToNat (natDigits n) = n := by
  intro n
  induction n using Nat.strong_induction_on with
  | _ n ih =>
      by_cases h10 : n < 10
      · rw [natDigits_small h10]
        show (0 * 10 + digitVal (Char.ofNat (48 + n))) = n
        rw [digitVal_ofNat h10]; omega
      · rw [natDigits_unfold (by omega), digitsToNat_append_singleton]
        rw [ih (n / 10) (Nat.div_lt_self (by omega) (by omega))]
        rw [digitVal_ofNat (Nat.mod_lt _ (by omega))]
        omega

theorem natDigits_length_le : ∀ n k, n < 10 ^ (k + 1) → (natDigits n).length ≤ k + 1 := by
  intro n
  induction n using Nat.strong_induction_on with
  | _ n ih =>
      intro k hk
      by_cases h10 : n < 10
      · rw [natDigits_small h10]; simp
      · have hk1 : 1 ≤ k := by
          by_contra h
          have hz : k = 0 := by omega
          subst hz
          simp at hk
          omega
        rw [natDigits_unfold (by omega), List.length_append]
        have hdiv : n / 10 < 10 ^ k := by
          rw [Nat.div_lt_iff_lt_mul (by omega)]
          calc n < 10 ^ (k + 1) := hk
          _ = 10 ^ k * 10 := by ring
        obtain ⟨k', rfl⟩ : ∃ k', k = k' + 1 := ⟨k - 1, by omega⟩
        have := ih (n / 10) (Nat.div_lt_self (by omega) (by omega)) k' hdiv
        simp only [List.length_singleton]
        omega

theorem natDigits_length_ge : ∀ n k, 10 ^ k ≤ n → k + 1 ≤ (natDigits n).length := by
  intro n
  induction n using Nat.strong_induction_on with
  | _ n ih =>
      intro k hk
      match k with
      | 0 => exact natDigits_len_pos n
      | k' + 1 =>
          have h10 : 10 ≤ n := by
            calc 10 = 10 ^ 1 := by ring
            _ ≤ 10 ^ (k' + 1) := Nat.pow_le_pow_right (by omega) (by omega)
            _ ≤ n := hk
          rw [natDigits_unfold h10, List.length_append]
          have hdiv : 10 ^ k' ≤ n / 10 := by
            rw [Nat.le_div_iff_mul_le (by omega)]
            calc 10 ^ k' * 10 = 10 ^ (k' + 1) := by ring
            _ ≤ n := hk
          have := ih (n / 10) (Nat.div_lt_self (by omega) (by omega)) k' hdiv
          simp only [List.length_singleton]
          omega

theorem natDigits_len_four {n : Nat} (h : (natDigits n).length = 4) :
    1000 ≤ n ∧ n ≤ 9999 := by
  constructor
  · by_contra hc
    have h3 : n < 10 ^ 3 := by omega
    have := natDigits_length_le n 2 h3
    omega
  · by_contra hc
    have h4 : 10 ^ 4 ≤ n := by omega
    have := natDigits_length_ge n 4 h4
    omega

theorem natDigits_len2 {n : Nat} (h1 : 10 ≤ n) (h2 : n ≤ 99) :
    (natDigits n).length = 2 := by
  have ha := natDigits_length_le n 1 (by omega)
  have hb := natDigits_length_ge n 1 (by omega)
  omega


/-! Span lemmas. -/

theorem takeWhile_append_all (p : Char → Bool) (a b : List Char)
    (ha : ∀ c ∈ a, p c = true) (hb : ∀ x ∈ b.head?, p x = false) :
    (a ++ b).takeWhile p = a := by
  induction a with
  | nil =>
      simp only [List.nil_append]
      cases b with
      | nil => rfl
      | cons x t =>
          have hx := hb x (by simp)
          simp [List.takeWhile, hx]
  | cons c t ih =>
      have hc : p c = true := ha c (by simp)
      simp only [List.cons_append, List.takeWhile_cons, hc, if_true]
      rw [ih (fun c hc' => ha c (by simp [hc']))]

theorem dropWhile_append_all (p : Char → Bool) (a b : List Char)
    (ha : ∀ c ∈ a, p c = true) (hb : ∀ x ∈ b.head?, p x = false) :
    (a ++ b).dropWhile p = b := by
  induction a with
  | nil =>
      simp only [List.nil_append]
      exact dropWhile_eq_self_of_head p b hb
  | cons c t ih =>
      have hc : p c = true := ha c (by simp)
      simp only [List.cons_append, List.dropWhile_cons, hc, if_true]
      exact ih (fun c hc' => ha c (by simp [hc']))

theorem span_append_all (p : Char → Bool) (a b : List Char)
    (ha : ∀ c ∈ a, p c = true) (hb : ∀ x ∈ b.head?, p x = false) :
    (a ++ b).span p = (a, b) := by
  rw [List.span_eq_take_drop, takeWhile_append_all p a b ha hb,
    dropWhile_append_all p a b ha hb]

/-! `jsNumToString` facts. -/

theorem fracDigitsAux_mem : ∀ f num den, 0 < den → num < den →
    ∀ c ∈ fracDigitsAux f num den, ∃ k, k < 10 ∧ c = Char.ofNat (48 + k) := by
  intro f
  induction f with
  | zero => intro num den _ _ c hc; simp [fracDigitsAux] at hc
  | succ f ih =>
      intro num den hden hnum c hc
      match num with
      | 0 => simp [fracDigitsAux] at hc
      | num' + 1 =>
          unfold fracDigitsAux at hc
          simp only [List.mem_cons] at hc
          rcases hc with hc | hc
          · refine ⟨(num' + 1) * 10 / den, ?_, hc⟩
            rw [Nat.div_lt_iff_lt_mul hden]
            have h1 : (num' + 1) * 10 < den * 10 := by omega
            omega
          · exact ih ((num' + 1) * 10 % den) den hden (Nat.mod_lt _ hden) c hc

theorem isDigit_toNat {c : Char} (h : c.isDigit = true) : 48 ≤ c.toNat ∧ c.toNat ≤ 57 := by
  simp [Char.isDigit] at h
  obtain ⟨h1, h2⟩ := h
  exact ⟨h1, h2⟩

theorem isDigit_not_ws {c : Char} (h : c.isDigit = true) : jsIsWs c = false := by
  obtain ⟨h1, h2⟩ := isDigit_toNat h
  unfold jsIsWs
  have e1 : (c == ' ') = false := by
    rw [beq_eq_false_iff_ne]; intro hc; subst hc; simp at h1
  have e2 : (c == '\t') = false := by
    rw [beq_eq_false_iff_ne]; intro hc; subst hc; simp at h1
  have e3 : (c == '\n') = false := by
    rw [beq_eq_false_iff_ne]; intro hc; subst hc; simp at h1
  have e4 : (c == '\r') = false := by
    rw [beq_eq_false_iff_ne]; intro hc; subst hc; simp at h1
  have e5 : (c.toNat == 11) = false := by simp; omega
  have e6 : (c.toNat == 12) = false := by simp; omega
  have e7 : (c.toNat == 160) = false := by simp; omega
  rw [e1, e2, e3, e4, e5, e6, e7]
  rfl

theorem jsNumToString_not_ws (q : JsRat) :
    ∀ c ∈ (jsNumToString q).data, jsIsWs c = false := by
  intro c hc
  have hdata : (jsNumToString q).data =
      (if q.num < 0 then ['-'] else []) ++ natDigits (q.num.natAbs / q.den) ++
        (if (fracDigitsAux 20 (q.num.natAbs % q.den) q.den).isEmpty then []
         else '.' :: fracDigitsAux 20 (q.num.natAbs % q.den) q.den) := rfl
  rw [hdata] at hc
  simp only [List.mem_append] at hc
  rcases hc with (hc | hc) | hc
  · by_cases hneg : q.num < 0
    · rw [if_pos hneg] at hc
      simp at hc
      subst hc; decide
    · rw [if_neg hneg] at hc
      simp at hc
  · exact natDigits_not_ws _ c hc
  · by_cases hemp : (fracDigitsAux 20 (q.num.natAbs % q.den) q.den).isEmpty = true
    · rw [if_pos hemp] at hc
      simp at hc
    · rw [if_neg hemp] at hc
      simp only [List.mem_cons] at hc
      rcases hc with hc | hc
      · subst hc; decide
      · obtain ⟨k, hk, rfl⟩ := fracDigitsAux_mem 20 _ _ q.den_pos
          (Nat.mod_lt _ q.den_pos) c hc
        exact digitChar_not_ws hk

theorem jsNumToString_trim (q : JsRat) : jsTrim (jsNumToString q) = jsNumToString q :=
  jsTrim_eq_self_of_all _ (jsNumToString_not_ws q)

/-! `string` parser lemmas. -/

theorem stringParse_default_str (s : String) (c : Ctx) :
    stringParse {} (.str s) c = .ok (.str (jsTrim s)) := rfl

theorem stringParse_default_num (q : JsRat) (c : Ctx) :
    stringParse {} (.num q) c = .ok (.str (jsNumToString q)) := rfl

theorem stringParse_default_ok {x v : JsValue} {c : Ctx}
    (h : stringParse {} x c = .ok v) : ∃ s, v = .str s ∧ jsTrim s = s := by
  cases x with
  | str s =>
      rw [stringParse_default_str] at h
      injection h with h
      exact ⟨jsTrim s, h.symm, jsTrim_idem s⟩
  | num q =>
      rw [stringParse_default_num] at h
      injection h with h
      exact ⟨jsNumToString q, h.symm, jsNumToString_trim q⟩
  | undefined => exact Except.noConfusion h
  | null => exact Except.noConfusion h
  | nan => exact Except.noConfusion h
  | bool b => exact Except.noConfusion h
  | date d => exact Except.noConfusion h
  | arr es => exact Except.noConfusion h
  | obj fs => exact Except.noConfusion h

theorem string_restable {x v : JsValue} {c : Ctx} (h : stringParse {} x c = .ok v) :
    stringParse {} v c = .ok v := by
  obtain ⟨s, rfl, hs⟩ := stringParse_default_ok h
  rw [stringParse_default_str, hs]

/-! `number` parser lemmas. -/

theorem jsRoundHalfAway_thousand (r : Int) : jsRoundHalfAway (r * 1000) 1000 = r := by
  unfold jsRoundHalfAway
  split <;> omega

theorem nearestNumber_of_int {q : JsRat} (h : q.isInt = true) : nearestNumber q = q := by
  unfold nearestNumber
  rw [if_pos h]

theorem nearestNumber_idem (q : JsRat) :
    nearestNumber (nearestNumber q) = nearestNumber q := by
  by_cases hq : q.isInt = true
  · simp only [nearestNumber_of_int hq]
  · have h1 : nearestNumber q =
        ⟨jsRoundHalfAway (q.num * 1000) (q.den : Int), 1000, by decide⟩ := by
      unfold nearestNumber
      rw [if_neg hq]
    rw [h1]
    by_cases h2 : (⟨jsRoundHalfAway (q.num * 1000) (q.den : Int), 1000, by decide⟩ :
        JsRat).isInt = true
    · exact nearestNumber_of_int h2
    · unfold nearestNumber
      rw [if_neg h2]
      simp [JsRat.mk.injEq, jsRoundHalfAway_thousand]

theorem numberParse_default_num (q : JsRat) (c : Ctx) :
    numberParse {} (.num q) c = .ok (.num (if q.isZero then q else nearestNumber q)) := by
  by_cases hz : q.isZero = true <;>
    simp [numberParse, hz, isEmptyStr]

theorem rounded_stable (q : JsRat) :
    (if (if q.isZero then q else nearestNumber q).isZero then
      (if q.isZero then q else nearestNumber q)
     else nearestNumber (if q.isZero then q else nearestNumber q)) =
    (if q.isZero then q else nearestNumber q) := by
  by_cases hz : q.isZero = true
  · simp [hz]
  · simp only [hz, if_false]
    by_cases hz2 : (nearestNumber q).isZero = true
    · simp [hz2]
    · simp [hz2, nearestNumber_idem]

theorem numberParse_default_ok {x v : JsValue} {c : Ctx}
    (h : numberParse {} x c = .ok v) :
    ∃ q, v = .num q ∧ (if q.isZero then q else nearestNumber q) = q := by
  cases x with
  | num q =>
      rw [numberParse_default_num] at h
      injection h with h
      exact ⟨_, h.symm, rounded_stable q⟩
  | str s =>
      by_cases hs : isEmptyStr (.str s) = true
      · simp [numberParse, hs] at h
      · cases hn : jsStringToNum s with
        | num q0 =>
            have heval : numberParse {} (.str s) c =
                .ok (.num (if q0.isZero then q0 else nearestNumber q0)) := by
              by_cases hz : q0.isZero = true <;>
                simp [numberParse, hs, hn, hz]
            rw [heval] at h
            injection h with h
            exact ⟨_, h.symm, rounded_stable q0⟩
        | nan => simp [numberParse, hs, hn] at h
        | undefined => simp [numberParse, hs, hn] at h
        | null => simp [numberParse, hs, hn] at h
        | bool b => simp [numberParse, hs, hn] at h
        | str t => simp [numberParse, hs, hn] at h
        | date d => simp [numberParse, hs, hn] at h
        | arr es => simp [numberParse, hs, hn] at h
        | obj fs => simp [numberParse, hs, hn] at h
  | undefined => simp [numberParse, isEmptyStr] at h
  | null => simp [numberParse, isEmptyStr] at h
  | nan => simp [numberParse, isEmptyStr] at h
  | bool b => simp [numberParse, isEmptyStr] at h
  | date d => simp [numberParse, isEmptyStr] at h
  | arr es => simp [numberParse, isEmptyStr] at h
  | obj fs => simp [numberParse, isEmptyStr] at h

theorem number_restable {x v : JsValue} {c : Ctx} (h : numberParse {} x c = .ok v) :
    numberParse {} v c = .ok v := by
  obtain ⟨q, rfl, hq⟩ := numberParse_default_ok h
  rw [numberParse_default_num, hq]
/-! `int` / `float` parser lemmas. -/

theorem intParse_default_num_int {q : JsRat} (hq : q.isInt = true) (c : Ctx) :
    intParse {} (.num q) c = .ok (.num q) := by
  have hn : numberParse {} (.num q)
      { c with overrideType := some (orDefault c.overrideType ("int")) } =
      .ok (.num q) := by
    rw [numberParse_default_num]
    by_cases hz : q.isZero = true
    · rw [if_pos hz]
    · rw [if_neg hz, nearestNumber_of_int hq]
  simp [intParse, hn, hq]

theorem int_restable {x v : JsValue} {c : Ctx} (h : intParse {} x c = .ok v) :
    intParse {} v c = .ok v := by
  simp only [intParse] at h
  split at h
  · exact Except.noConfusion h
  · rename_i q heq
    split at h
    · rename_i hq
      injection h with h
      subst h
      exact intParse_default_num_int hq c
    · exact Except.noConfusion h
  · rename_i w hdis heq
    obtain ⟨q, hq, _⟩ := numberParse_default_ok heq
    exact (hdis q hq).elim

theorem float_restable {x v : JsValue} {c : Ctx} (h : floatParse {} x c = .ok v) :
    floatParse {} v c = .ok v := by
  unfold floatParse at h
  rcases hn : numberParse {} x
      { c with overrideType := some (orDefault c.overrideType ("float")) } with e | w
  · rw [hn] at h; exact Except.noConfusion h
  · rw [hn] at h
    obtain ⟨q, rfl, hstab⟩ := numberParse_default_ok hn
    simp only at h
    injection h with h
    subst h
    unfold floatParse
    rw [show ({} : FloatOptions).toNumberOptions = {} from rfl]
    rw [numberParse_default_num, hstab]

/-! `boolean` / `color` lemmas. -/

theorem boolean_restable {x v : JsValue} {c : Ctx}
    (h : booleanParse none x c = .ok v) : booleanParse none v c = .ok v := by
  have hx : booleanParse none x c = .ok (.bool (parseBooleanString x)) := rfl
  rw [hx] at h
  injection h with h
  subst h
  rfl

theorem color_restable {x v : JsValue} {c : Ctx}
    (h : colorParse x c = .ok v) : colorParse v c = .ok v := by
  cases x with
  | str s =>
      unfold colorParse at h
      simp only at h
      by_cases h1 : (s == "") = true
      · rw [if_pos h1] at h; exact Except.noConfusion h
      · rw [if_neg h1] at h
        by_cases h2 : (!colorTest s) = true
        · rw [if_pos h2] at h; exact Except.noConfusion h
        · rw [if_neg h2] at h
          injection h with h
          subst h
          unfold colorParse
          simp only
          rw [if_neg h1, if_neg h2]
  | undefined => exact Except.noConfusion h
  | null => exact Except.noConfusion h
  | nan => exact Except.noConfusion h
  | bool b => exact Except.noConfusion h
  | num q => exact Except.noConfusion h
  | date d => exact Except.noConfusion h
  | arr es => exact Except.noConfusion h
  | obj fs => exact Except.noConfusion h

/-! `literal` / `values` lemmas. -/

theorem jsStrictEq_right_refl {x v : JsValue} (h : jsStrictEq x v = true) :
    jsStrictEq v v = true := by
  cases x <;> cases v <;> simp_all [jsStrictEq, JsRat.valEq]

theorem jsStrictEq_trans {x v w : JsValue} (h1 : jsStrictEq x v = true)
    (h2 : jsStrictEq v w = true) : jsStrictEq x w = true := by
  cases x <;> cases v <;> cases w <;> simp_all [jsStrictEq, JsRat.valEq]
  case num.num.num a b c =>
      have hbd : (b.den : Int) ≠ 0 := by
        have := b.den_pos; omega
      apply mul_right_cancel₀ hbd
      calc a.num * (c.den : Int) * (b.den : Int)
          = (a.num * (b.den : Int)) * (c.den : Int) := by ring
      _ = (b.num * (a.den : Int)) * (c.den : Int) := by rw [h1]
      _ = (b.num * (c.den : Int)) * (a.den : Int) := by ring
      _ = (c.num * (b.den : Int)) * (a.den : Int) := by rw [h2]
      _ = c.num * (a.den : Int) * (b.den : Int) := by ring

theorem literal_restable {w x v : JsValue} {c : Ctx}
    (h : literalParse w x c = .ok v) : literalParse w v c = .ok v := by
  unfold literalParse at h ⊢
  by_cases he : jsStrictEq x w = true
  · rw [if_pos he] at h
    injection h with h
    subst h
    rw [if_pos (jsStrictEq_right_refl he)]
  · rw [if_neg he] at h
    exact Except.noConfusion h

theorem find?_strictEq_restable : ∀ (vals : List JsValue) (x v : JsValue),
    vals.find? (fun u => jsStrictEq x u) = some v →
    vals.find? (fun u => jsStrictEq v u) = some v := by
  intro vals
  induction vals with
  | nil => intro x v h; simp at h
  | cons w ws ih =>
      intro x v h
      by_cases hw : jsStrictEq x w = true
      · rw [List.find?_cons_of_pos _ hw] at h
        injection h with h
        subst h
        rw [List.find?_cons_of_pos _ (jsStrictEq_right_refl hw)]
      · rw [List.find?_cons_of_neg _ (by simpa using hw)] at h
        have hxv : jsStrictEq x v = true := by
          have := List.find?_some h
          simpa using this
        have hvw : jsStrictEq v w = false := by
          by_contra hc
          have hvw' : jsStrictEq v w = true := by
            cases hvw'' : jsStrictEq v w
            · exact absurd hvw'' hc
            · rfl
          exact hw (jsStrictEq_trans hxv hvw')
        rw [List.find?_cons_of_neg _ (by simp [hvw])]
        exact ih x v h

theorem values_restable {vals : List JsValue} {x v : JsValue} {c : Ctx}
    (h : valuesParse vals x c = .ok v) : valuesParse vals v c = .ok v := by
  unfold valuesParse at h ⊢
  rcases hf : vals.find? (fun u => jsStrictEq x u) with _ | w
  · rw [hf] at h; exact Except.noConfusion h
  · rw [hf] at h
    injection h with h
    subst h
    rw [find?_strictEq_restable vals x w hf]
/-! String-literal match helpers. -/

theorem str_ne_of_data_ne {s : String} (h : s.data ≠ []) : s ≠ "" := by
  intro hs
  apply h
  rw [hs]

theorem isEmptyStr_str_ne {s : String} (h : ¬ s = "") : isEmptyStr (.str s) = false := by
  unfold isEmptyStr
  split
  · rename_i heq
    injection heq with heq
    exact absurd heq h
  · rfl

theorem looseEqEmptyStr_str_ne {s : String} (h : ¬ s = "") :
    looseEqEmptyStr (.str s) = false := by
  unfold looseEqEmptyStr
  split
  · rename_i heq
    injection heq with heq
    exact absurd heq h
  · rename_i q heq
    exact absurd heq (by intro hc; exact JsValue.noConfusion hc)
  · rename_i heq
    exact absurd heq (by intro hc; exact JsValue.noConfusion hc)
  · rfl

/-! `url` / `email` lemmas. -/

theorem urlMatch_some_ne {s : String} {pd : String × String} (h : urlMatch s = some pd) :
    s.data ≠ [] := by
  intro hnil
  unfold urlMatch at h
  rw [hnil] at h
  exact Option.noConfusion h

theorem emailMatch_some_ne {s : String} {d : String} (h : emailMatch s = some d) :
    s.data ≠ [] := by
  intro hnil
  unfold emailMatch at h
  rw [hnil] at h
  exact Option.noConfusion h

theorem url_restable {x v : JsValue} {c : Ctx} (h : urlParse {} x c = .ok v) :
    urlParse {} v c = .ok v := by
  simp only [urlParse] at h
  by_cases hemp : isEmptyStr x = true
  · rw [if_pos (by simp [hemp])] at h
    injection h with h
    subst h
    rfl
  · rw [if_neg (by simp [hemp])] at h
    split at h
    · exact Except.noConfusion h
    · rename_i u heq
      split at h
      · exact Except.noConfusion h
      · rename_i protocol domain hm
        replace h : Except.ok (JsValue.str u) = Except.ok v := h
        injection h with h
        subst h
        obtain ⟨s, hseq, htrim⟩ := stringParse_default_ok heq
        injection hseq with hseq
        subst hseq
        have hne : u ≠ "" := str_ne_of_data_ne (urlMatch_some_ne hm)
        have h1 : stringParse {} (JsValue.str u)
            { c with overrideType := some (orDefault c.overrideType ("url")) } =
            .ok (.str u) := by
          rw [stringParse_default_str, htrim]
        simp [urlParse, h1, hm, isEmptyStr_str_ne hne,
          urlProtocolDomainChecks, urlDomainCheck]
    · rename_i w hdis heq
      obtain ⟨s, hseq, _⟩ := stringParse_default_ok heq
      exact (hdis s hseq).elim

theorem email_restable {x v : JsValue} {c : Ctx} (h : emailParse {} x c = .ok v) :
    emailParse {} v c = .ok v := by
  simp only [emailParse] at h
  by_cases hemp : isEmptyStr x = true
  · rw [if_pos (by simp [hemp])] at h
    injection h with h
    subst h
    rfl
  · rw [if_neg (by simp [hemp])] at h
    split at h
    · exact Except.noConfusion h
    · rename_i u heq
      split at h
      · exact Except.noConfusion h
      · rename_i domain hm
        replace h : Except.ok (JsValue.str u) = Except.ok v := h
        injection h with h
        subst h
        obtain ⟨s, hseq, htrim⟩ := stringParse_default_ok heq
        injection hseq with hseq
        subst hseq
        have hne : u ≠ "" := str_ne_of_data_ne (emailMatch_some_ne hm)
        have h1 : stringParse {} (JsValue.str u)
            { c with overrideType := some (orDefault c.overrideType ("email")) } =
            .ok (.str u) := by
          rw [stringParse_default_str, htrim]
        simp [emailParse, h1, hm, isEmptyStr_str_ne hne]
    · rename_i w hdis heq
      obtain ⟨s, hseq, _⟩ := stringParse_default_ok heq
      exact (hdis s hseq).elim
/-! Date groundwork. -/

theorem list_len2 {l : List Char} (h : l.length = 2) : ∃ a b, l = [a, b] := by
  match l with
  | [a, b] => exact ⟨a, b, rfl⟩
  | [] => simp at h
  | [a] => simp at h
  | a :: b :: c :: t => simp at h

theorem d2_data_eq_pad {n : Nat} (h : n < 10) :
    (d2 n).data = ['0', Char.ofNat (48 + n)] := by
  unfold d2
  rw [if_pos h]
  show ("0" ++ natDigitsStr n).data = _
  rw [String.data_append]
  show '0' :: natDigits n = _
  rw [natDigits_small h]

theorem d2_data_eq_plain {n : Nat} (h : ¬ n < 10) : (d2 n).data = natDigits n := by
  unfold d2
  rw [if_neg h]
  rfl

theorem d2_props {n : Nat} (h : n ≤ 99) :
    (d2 n).data.length = 2 ∧ (∀ c ∈ (d2 n).data, c.isDigit = true) ∧
      digitsToNat (d2 n).data = n := by
  by_cases h10 : n < 10
  · rw [d2_data_eq_pad h10]
    refine ⟨rfl, ?_, ?_⟩
    · intro c hc
      simp at hc
      rcases hc with rfl | rfl
      · decide
      · exact digitChar_isDigit h10
    · show (0 * 10 + digitVal ('0')) * 10 + digitVal (Char.ofNat (48 + n)) = n
      rw [digitVal_ofNat h10]
      have h0 : digitVal ('0') = 0 := rfl
      rw [h0]
      omega
  · rw [d2_data_eq_plain h10]
    exact ⟨natDigits_len2 (by omega) h, natDigits_all_digit n, digitsToNat_roundtrip n⟩

theorem daysInMonth_le (y : Int) (m : Nat) : daysInMonth y m ≤ 31 := by
  unfold daysInMonth
  split_ifs <;> omega

theorem dateRec_bounds (r : DateRec) :
    1 ≤ r.val.month ∧ r.val.month ≤ 12 ∧ 1 ≤ r.val.day ∧
      r.val.day ≤ daysInMonth r.val.year r.val.month ∧ r.val.hour ≤ 23 ∧
      r.val.minute ≤ 59 ∧ r.val.second ≤ 59 ∧ r.val.millis ≤ 999 := by
  have h := r.property
  simp only [DateRaw.ok, Bool.and_eq_true, decide_eq_true_eq] at h
  obtain ⟨⟨⟨⟨⟨⟨⟨h1, h2⟩, h3⟩, h4⟩, h5⟩, h6⟩, h7⟩, h8⟩ := h
  exact ⟨h1, h2, h3, h4, h5, h6, h7, h8⟩

theorem mkDateRec_ok {y : Int} {mo d h mi s ms : Nat}
    (hok : DateRaw.ok ⟨y, mo, d, h, mi, s, ms⟩ = true) :
    mkDateRec y mo d h mi s ms = some ⟨⟨y, mo, d, h, mi, s, ms⟩, hok⟩ := by
  unfold mkDateRec
  rw [dif_pos hok]

theorem ok_zero_time (r : DateRec) :
    DateRaw.ok ⟨r.val.year, r.val.month, r.val.day, 0, 0, 0, 0⟩ = true := by
  obtain ⟨h1, h2, h3, h4, h5, h6, h7, h8⟩ := dateRec_bounds r
  simp only [DateRaw.ok, Bool.and_eq_true, decide_eq_true_eq]
  refine ⟨⟨⟨⟨⟨⟨⟨h1, h2⟩, h3⟩, h4⟩, ?_⟩, ?_⟩, ?_⟩, ?_⟩ <;> omega

theorem ok_zero_ms (r : DateRec) :
    DateRaw.ok ⟨r.val.year, r.val.month, r.val.day, r.val.hour, r.val.minute,
      r.val.second, 0⟩ = true := by
  obtain ⟨h1, h2, h3, h4, h5, h6, h7, h8⟩ := dateRec_bounds r
  simp only [DateRaw.ok, Bool.and_eq_true, decide_eq_true_eq]
  refine ⟨⟨⟨⟨⟨⟨⟨h1, h2⟩, h3⟩, h4⟩, h5⟩, h6⟩, h7⟩, ?_⟩
  omega

theorem dateParseCheck_default (r : DateRec) (input : JsValue) (c : Ctx) (et : String) :
    dateParseCheck {} (some r) input c et = .ok (.date (some r)) := rfl

theorem dateParse_default_ok {x v : JsValue} {c : Ctx}
    (h : dateParse {} x c = .ok v) : ∃ r, v = .date (some r) := by
  cases x with
  | date dOpt =>
      cases dOpt with
      | none => exact Except.noConfusion h
      | some r =>
          replace h : Except.ok (JsValue.date (some r)) = Except.ok v := h
          injection h with h
          exact ⟨r, h.symm⟩
  | num q => exact Except.noConfusion h
  | nan => exact Except.noConfusion h
  | str s =>
      simp only [dateParse] at h
      split at h
      · exact Except.noConfusion h
      · rename_i r heq
        replace h : Except.ok (JsValue.date (some r)) = Except.ok v := h
        injection h with h
        exact ⟨r, h.symm⟩
  | undefined => exact Except.noConfusion h
  | null => exact Except.noConfusion h
  | bool b => exact Except.noConfusion h
  | arr es => exact Except.noConfusion h
  | obj fs => exact Except.noConfusion h

theorem date_restable {x v : JsValue} {c : Ctx} (h : dateParse {} x c = .ok v) :
    dateParse {} v c = .ok v := by
  obtain ⟨r, rfl⟩ := dateParse_default_ok h
  rfl

/-! Four-digit year extraction. -/

theorem intToString_four_digits {y : Int} (h4 : (intToString y).data.length = 4)
    (hdig : ∀ c ∈ (intToString y).data, c.isDigit = true) :
    1000 ≤ y.natAbs ∧ y.natAbs ≤ 9999 ∧ 0 ≤ y ∧
      (intToString y).data = natDigits y.natAbs := by
  by_cases hneg : y < 0
  · have hdata : (intToString y).data = '-' :: natDigits y.natAbs := by
      unfold intToString
      rw [if_pos hneg]
      rfl
    have hm : '-' ∈ (intToString y).data := by rw [hdata]; simp
    have := hdig _ hm
    exact absurd this (by decide)
  · have hdata : (intToString y).data = natDigits y.natAbs := by
      unfold intToString
      rw [if_neg hneg]
      rfl
    rw [hdata] at h4
    obtain ⟨ha, hb⟩ := natDigits_len_four h4
    exact ⟨ha, hb, by omega, hdata⟩

theorem d2Int_four_digits {y : Int} (h4 : (d2Int y).data.length = 4)
    (hdig : ∀ c ∈ (d2Int y).data, c.isDigit = true) :
    1000 ≤ y.natAbs ∧ y.natAbs ≤ 9999 ∧ 0 ≤ y ∧
      (d2Int y).data = natDigits y.natAbs := by
  by_cases hy10 : y < 10
  · exfalso
    have hdata : (d2Int y).data = '0' :: (intToString y).data := by
      unfold d2Int
      rw [if_pos hy10]
      show ("0" ++ intToString y).data = _
      rw [String.data_append]
      rfl
    by_cases hneg : y < 0
    · have hdata2 : (intToString y).data = '-' :: natDigits y.natAbs := by
        unfold intToString
        rw [if_pos hneg]
        rfl
      have hm : '-' ∈ (d2Int y).data := by rw [hdata, hdata2]; simp
      exact absurd (hdig _ hm) (by decide)
    · have hdata2 : (intToString y).data = natDigits y.natAbs := by
        unfold intToString
        rw [if_neg hneg]
        rfl
      have habs : y.natAbs < 10 := by omega
      have hlen1 : (natDigits y.natAbs).length = 1 := by
        rw [natDigits_small habs]
        rfl
      rw [hdata, hdata2] at h4
      simp [hlen1] at h4
  · have hd2 : d2Int y = intToString y := by
      unfold d2Int
      rw [if_neg hy10]
    rw [hd2] at h4 hdig ⊢
    exact intToString_four_digits h4 hdig
/-! `parseYMD` / `parseHMS` evaluation. -/

theorem takeWhile_all_self (p : Char → Bool) (a : List Char)
    (ha : ∀ c ∈ a, p c = true) : a.takeWhile p = a := by
  have h := takeWhile_append_all p a [] ha (by simp)
  simpa using h

theorem dropWhile_all_nil (p : Char → Bool) (a : List Char)
    (ha : ∀ c ∈ a, p c = true) : a.dropWhile p = [] := by
  have h := dropWhile_append_all p a [] ha (by simp)
  simpa using h

theorem parseYMD_exact (yd md dd rest : List Char)
    (hyd : ∀ c ∈ yd, c.isDigit = true) (hydl : yd.length = 4)
    (hmd : ∀ c ∈ md, c.isDigit = true) (hmdl : md.length = 2)
    (hdd : ∀ c ∈ dd, c.isDigit = true) (hddl : dd.length = 2)
    (hrest : ∀ x ∈ rest.head?, x.isDigit = false) :
    parseYMD (yd ++ '-' :: (md ++ '-' :: (dd ++ rest))) =
      some ((digitsToNat yd : Int), digitsToNat md, digitsToNat dd, rest) := by
  have hdash : ∀ (X : List Char), ∀ x ∈ (('-' : Char) :: X).head?, x.isDigit = false := by
    intro X x hx; simp at hx; subst hx; decide
  have t1 : (yd ++ '-' :: (md ++ '-' :: (dd ++ rest))).takeWhile Char.isDigit = yd :=
    takeWhile_append_all _ _ _ hyd (hdash _)
  have d1 : (yd ++ '-' :: (md ++ '-' :: (dd ++ rest))).dropWhile Char.isDigit =
      '-' :: (md ++ '-' :: (dd ++ rest)) :=
    dropWhile_append_all _ _ _ hyd (hdash _)
  have t2 : (md ++ '-' :: (dd ++ rest)).takeWhile Char.isDigit = md :=
    takeWhile_append_all _ _ _ hmd (hdash _)
  have d2 : (md ++ '-' :: (dd ++ rest)).dropWhile Char.isDigit = '-' :: (dd ++ rest) :=
    dropWhile_append_all _ _ _ hmd (hdash _)
  have t3 : (dd ++ rest).takeWhile Char.isDigit = dd :=
    takeWhile_append_all _ _ _ hdd hrest
  have d3 : (dd ++ rest).dropWhile Char.isDigit = rest :=
    dropWhile_append_all _ _ _ hdd hrest
  simp [parseYMD, t1, d1, t2, d2, t3, d3, hydl, hmdl, hddl]

theorem parseYMD_full (yd md dd : List Char)
    (hyd : ∀ c ∈ yd, c.isDigit = true) (hydl : yd.length = 4)
    (hmd : ∀ c ∈ md, c.isDigit = true) (hmdl : md.length = 2)
    (hdd : ∀ c ∈ dd, c.isDigit = true) (hddl : dd.length = 2) :
    parseYMD (yd ++ '-' :: (md ++ '-' :: dd)) =
      some ((digitsToNat yd : Int), digitsToNat md, digitsToNat dd, ([] : List Char)) := by
  have h := parseYMD_exact yd md dd [] hyd hydl hmd hmdl hdd hddl (by simp)
  simpa using h

theorem parseHMS_exact (hd md sd : List Char)
    (hh : ∀ c ∈ hd, c.isDigit = true) (hhl : hd.length = 2)
    (hm : ∀ c ∈ md, c.isDigit = true) (hml : md.length = 2)
    (hs : ∀ c ∈ sd, c.isDigit = true) (hsl : sd.length = 2) :
    parseHMS (hd ++ ':' :: (md ++ ':' :: sd)) =
      some (digitsToNat hd, digitsToNat md, digitsToNat sd, 0) := by
  have hcol : ∀ (X : List Char), ∀ x ∈ ((':' : Char) :: X).head?, x.isDigit = false := by
    intro X x hx; simp at hx; subst hx; decide
  have t1 : (hd ++ ':' :: (md ++ ':' :: sd)).takeWhile Char.isDigit = hd :=
    takeWhile_append_all _ _ _ hh (hcol _)
  have d1 : (hd ++ ':' :: (md ++ ':' :: sd)).dropWhile Char.isDigit =
      ':' :: (md ++ ':' :: sd) :=
    dropWhile_append_all _ _ _ hh (hcol _)
  have t2 : (md ++ ':' :: sd).takeWhile Char.isDigit = md :=
    takeWhile_append_all _ _ _ hm (hcol _)
  have d2 : (md ++ ':' :: sd).dropWhile Char.isDigit = ':' :: sd :=
    dropWhile_append_all _ _ _ hm (hcol _)
  have t3 : sd.takeWhile Char.isDigit = sd := takeWhile_all_self _ _ hs
  have d3 : sd.dropWhile Char.isDigit = [] := dropWhile_all_nil _ _ hs
  obtain ⟨a, b, rfl⟩ := list_len2 hsl
  simp [parseHMS, t1, d1, t2, d2, t3, d3, hhl, hml]
/-! `toDateString` roundtrip. -/

theorem dash_data : ("-" : String).data = ['-'] := rfl

theorem toDateString_data (r : DateRec) :
    (toDateString r).data = (d2Int r.val.year).data ++ '-' ::
      ((d2 r.val.month).data ++ '-' :: (d2 r.val.day).data) := by
  show (d2Int r.val.year ++ "-" ++ d2 r.val.month ++ "-" ++ d2 r.val.day).data = _
  simp [String.data_append, dash_data]

theorem parseYMD_toDateString (r : DateRec)
    (h4 : (d2Int r.val.year).data.length = 4)
    (hdig : ∀ c ∈ (d2Int r.val.year).data, c.isDigit = true) :
    parseYMD (toDateString r).data =
      some (r.val.year, r.val.month, r.val.day, ([] : List Char)) := by
  obtain ⟨hm1, hm2, hd1, hd2, _⟩ := dateRec_bounds r
  have hdayle : r.val.day ≤ 99 := by
    have := daysInMonth_le r.val.year r.val.month
    omega
  obtain ⟨hml, hmdig, hmval⟩ := d2_props (show r.val.month ≤ 99 by omega)
  obtain ⟨hdl, hddig, hdval⟩ := d2_props hdayle
  obtain ⟨hy1, hy2, hy0, hydata⟩ := d2Int_four_digits h4 hdig
  rw [toDateString_data]
  rw [parseYMD_full _ _ _ hdig h4 hmdig hml hddig hdl]
  have hyv : digitsToNat (d2Int r.val.year).data = r.val.year.natAbs := by
    rw [hydata, digitsToNat_roundtrip]
  rw [hyv, hmval, hdval]
  have hcast : ((r.val.year.natAbs : Nat) : Int) = r.val.year := Int.natAbs_of_nonneg hy0
  rw [hcast]

theorem jsDateParse_toDateString (r : DateRec)
    (h4 : (d2Int r.val.year).data.length = 4)
    (hdig : ∀ c ∈ (d2Int r.val.year).data, c.isDigit = true) :
    jsDateParse (toDateString r) =
      some ⟨⟨r.val.year, r.val.month, r.val.day, 0, 0, 0, 0⟩, ok_zero_time r⟩ := by
  unfold jsDateParse
  rw [parseYMD_toDateString r h4 hdig]
  show mkDateRec r.val.year r.val.month r.val.day 0 0 0 0 = _
  exact mkDateRec_ok (ok_zero_time r)

theorem matchFullDate_toDateString (r : DateRec)
    (h4 : (d2Int r.val.year).data.length = 4)
    (hdig : ∀ c ∈ (d2Int r.val.year).data, c.isDigit = true) :
    matchFullDate (toDateString r).data = true := by
  unfold matchFullDate
  rw [parseYMD_toDateString r h4 hdig]
  rfl

theorem toDateString_trim (r : DateRec)
    (hdig : ∀ c ∈ (d2Int r.val.year).data, c.isDigit = true) :
    jsTrim (toDateString r) = toDateString r := by
  obtain ⟨hm1, hm2, hd1, hd2, _⟩ := dateRec_bounds r
  have hdayle : r.val.day ≤ 99 := by
    have := daysInMonth_le r.val.year r.val.month
    omega
  obtain ⟨_, hmdig, _⟩ := d2_props (show r.val.month ≤ 99 by omega)
  obtain ⟨_, hddig, _⟩ := d2_props hdayle
  apply jsTrim_eq_self_of_all
  intro ch hc
  rw [toDateString_data] at hc
  simp only [List.mem_append, List.mem_cons] at hc
  rcases hc with hc | rfl | hc | rfl | hc
  · exact isDigit_not_ws (hdig ch hc)
  · decide
  · exact isDigit_not_ws (hmdig ch hc)
  · decide
  · exact isDigit_not_ws (hddig ch hc)

/-! `dateString` idempotence. -/

theorem dateString_restable {x : JsValue} {s : String} {c : Ctx}
    (h : dateStringParse {} x c = .ok (.str s)) (hlen : s.data.length = 10)
    (hdig4 : (s.data.take 4).all Char.isDigit = true) :
    dateStringParse {} (.str s) c = .ok (.str s) := by
  simp only [dateStringParse] at h
  by_cases hemp : looseEqEmptyStr x = true
  · rw [if_pos (by simp [hemp])] at h
    injection h with h
    injection h with h
    subst h
    simp at hlen
  · rw [if_neg (by simp [hemp])] at h
    rw [if_neg (by simp)] at h
    split at h
    · exact Except.noConfusion h
    · rename_i d heq
      replace h : Except.ok (JsValue.str (toDateString d)) = Except.ok (JsValue.str s) := h
      injection h with h
      injection h with h
      subst h
      obtain ⟨hm1, hm2, hd1, hd2, _⟩ := dateRec_bounds d
      have hdayle : d.val.day ≤ 99 := by
        have := daysInMonth_le d.val.year d.val.month
        omega
      obtain ⟨hml2, _, _⟩ := d2_props (show d.val.month ≤ 99 by omega)
      obtain ⟨hdl2, _, _⟩ := d2_props hdayle
      have hdata := toDateString_data d
      have hylen : (d2Int d.val.year).data.length = 4 := by
        rw [hdata] at hlen
        simp only [List.length_append, List.length_cons, hml2, hdl2] at hlen
        omega
      have htake : (toDateString d).data.take 4 = (d2Int d.val.year).data := by
        rw [hdata, ← hylen, List.take_left]
      have hydig : ∀ ch ∈ (d2Int d.val.year).data, ch.isDigit = true := by
        rw [htake] at hdig4
        exact fun ch hc => List.all_eq_true.mp hdig4 ch hc
      have hjs := jsDateParse_toDateString d hylen hydig
      have hmfd := matchFullDate_toDateString d hylen hydig
      have htrim := toDateString_trim d hydig
      have hne : toDateString d ≠ "" :=
        str_ne_of_data_ne (by intro hnil; rw [hnil] at hlen; simp at hlen)
      have hpds : ∀ (ctx' : Ctx) (et' : String),
          parseDateInString (jsTrim (toDateString d)) ctx' et' =
            .ok ⟨⟨d.val.year, d.val.month, d.val.day, 0, 0, 0, 0⟩, ok_zero_time d⟩ := by
        intro ctx' et'
        rw [htrim]
        simp [parseDateInString, htrim, hmfd, hjs]
      have hdp : ∀ (ctx' : Ctx), dateParse {} (.str (toDateString d)) ctx' =
          .ok (.date (some ⟨⟨d.val.year, d.val.month, d.val.day, 0, 0, 0, 0⟩,
            ok_zero_time d⟩)) := by
        intro ctx'
        simp [dateParse, hpds, dateParseCheck_default]
      simp [dateStringParse, looseEqEmptyStr_str_ne hne, hdp, dateStringMaxCheck]
      try rfl
    · rename_i w hdis heq
      obtain ⟨r, hr⟩ := dateParse_default_ok heq
      exact (hdis r hr).elim
/-! `timeString` idempotence. -/

theorem colon_data : (":" : String).data = [':'] := rfl

theorem tryHM_eval (a b c1 c2 : Char) (r : List Char)
    (ha : a.isDigit = true) (hb : b.isDigit = true)
    (hc1 : c1.isDigit = true) (hc2 : c2.isDigit = true) :
    tryHM (a :: b :: ':' :: c1 :: c2 :: r) =
      some (digitsToNat [a, b], digitsToNat [c1, c2]) := by
  simp [tryHM, ha, hb, hc1, hc2]

theorem findHM_head (a b c1 c2 : Char) (r : List Char)
    (ha : a.isDigit = true) (hb : b.isDigit = true)
    (hc1 : c1.isDigit = true) (hc2 : c2.isDigit = true) :
    findHM (a :: b :: ':' :: c1 :: c2 :: r) =
      some (digitsToNat [a, b], digitsToNat [c1, c2]) := by
  unfold findHM
  rw [tryHM_eval a b c1 c2 r ha hb hc1 hc2]

theorem toTimeString_eq (dd : DateRec) :
    toTimeString dd = d2 dd.val.hour ++ ":" ++ d2 dd.val.minute := rfl

theorem hm_data (hh mm : Nat) (hh99 : hh ≤ 99) (mm99 : mm ≤ 99) :
    ∃ a b c1 c2, (d2 hh ++ ":" ++ d2 mm).data = a :: b :: ':' :: c1 :: c2 :: [] ∧
      a.isDigit = true ∧ b.isDigit = true ∧ c1.isDigit = true ∧ c2.isDigit = true ∧
      digitsToNat [a, b] = hh ∧ digitsToNat [c1, c2] = mm := by
  obtain ⟨hl1, hdg1, hv1⟩ := d2_props hh99
  obtain ⟨hl2, hdg2, hv2⟩ := d2_props mm99
  obtain ⟨a, b, hab⟩ := list_len2 hl1
  obtain ⟨c1, c2, hcd⟩ := list_len2 hl2
  refine ⟨a, b, c1, c2, ?_, ?_, ?_, ?_, ?_, ?_, ?_⟩
  · simp [String.data_append, hab, hcd, colon_data]
  · exact hdg1 a (by rw [hab]; simp)
  · exact hdg1 b (by rw [hab]; simp)
  · exact hdg2 c1 (by rw [hcd]; simp)
  · exact hdg2 c2 (by rw [hcd]; simp)
  · rw [← hab, hv1]
  · rw [← hcd, hv2]

theorem hm_ne (hh mm : Nat) (hh99 : hh ≤ 99) (mm99 : mm ≤ 99) :
    (d2 hh ++ ":" ++ d2 mm) ≠ "" := by
  obtain ⟨a, b, c1, c2, hdata, _⟩ := hm_data hh mm hh99 mm99
  exact str_ne_of_data_ne (by rw [hdata]; simp)

theorem hm_string_parse (hh mm : Nat) (hh23 : hh ≤ 23) (mm59 : mm ≤ 59)
    (c : Ctx) (et : String) :
    parseTimeString (.str (d2 hh ++ ":" ++ d2 mm)) c et .minute =
      .ok (d2 hh ++ ":" ++ d2 mm) := by
  obtain ⟨a, b, c1, c2, hdata, ha, hb, hc1, hc2, hva, hvb⟩ :=
    hm_data hh mm (by omega) (by omega)
  have hne := hm_ne hh mm (by omega) (by omega)
  have hfind : findHM ((d2 hh).data ++ ':' :: (d2 mm).data) = some (hh, mm) := by
    have e : (d2 hh).data ++ ':' :: (d2 mm).data = a :: b :: ':' :: c1 :: c2 :: [] := by
      simpa [String.data_append, colon_data] using hdata
    rw [e, findHM_head a b c1 c2 [] ha hb hc1 hc2, hva, hvb]
  have hbeq : ((d2 hh ++ ":" ++ d2 mm) == "") = false :=
    beq_eq_false_iff_ne.mpr hne
  simp [parseTimeString, hbeq, hfind, isBetween, hh23, mm59]

theorem parseTimeString_minute_ok {input : JsValue} {c : Ctx} {et ts : String}
    (h : parseTimeString input c et .minute = .ok ts) :
    ∃ hh mm, ts = d2 hh ++ ":" ++ d2 mm ∧ hh ≤ 23 ∧ mm ≤ 59 := by
  cases input with
  | num q => exact Except.noConfusion h
  | nan => exact Except.noConfusion h
  | undefined => exact Except.noConfusion h
  | null => exact Except.noConfusion h
  | bool b => exact Except.noConfusion h
  | arr es => exact Except.noConfusion h
  | obj fs => exact Except.noConfusion h
  | date dOpt =>
      cases dOpt with
      | none => exact Except.noConfusion h
      | some dd =>
          obtain ⟨_, _, _, _, hh23, hm59, _⟩ := dateRec_bounds dd
          have heval : parseTimeString (.date (some dd)) c et .minute =
              parseTimeString (.str (toTimeString dd)) c et .minute := rfl
          rw [heval, toTimeString_eq dd,
            hm_string_parse dd.val.hour dd.val.minute hh23 hm59 c et] at h
          injection h with h
          exact ⟨dd.val.hour, dd.val.minute, h.symm, hh23, hm59⟩
  | str s =>
      simp only [parseTimeString] at h
      split at h
      · exact Except.noConfusion h
      · split at h
        · rename_i hmres hh mm hfind
          split at h
          · rename_i hcond
            injection h with h
            simp only [isBetween, Bool.and_eq_true, decide_eq_true_eq] at hcond
            exact ⟨hh, mm, h.symm, hcond.1.2, hcond.2.2⟩
          · exact Except.noConfusion h
        · exact Except.noConfusion h

theorem timeString_restable {x v : JsValue} {c : Ctx}
    (h : timeStringParse {} x c = .ok v) : timeStringParse {} v c = .ok v := by
  simp only [timeStringParse] at h
  by_cases hemp : looseEqEmptyStr x = true
  · rw [if_pos (by simp [hemp])] at h
    injection h with h
    subst h
    rfl
  · rw [if_neg (by simp [hemp])] at h
    rw [if_neg (by simp)] at h
    split at h
    · exact Except.noConfusion h
    · rename_i ts heq
      replace h : Except.ok (JsValue.str ts) = Except.ok v := h
      injection h with h
      subst h
      obtain ⟨hh, mm, rfl, hh23, hm59⟩ := parseTimeString_minute_ok heq
      have hne := hm_ne hh mm (by omega) (by omega)
      have hp := hm_string_parse hh mm hh23 hm59 c
        (orDefault c.overrideType ("timeString"))
      simp [timeStringParse, looseEqEmptyStr_str_ne hne, hp, timeStringMaxCheck]
/-! `timestamp` idempotence. -/

theorem space_data : (" " : String).data = [' '] := rfl

theorem toTimestampString_second_eq (dd : DateRec) :
    toTimestampString dd .second =
      intToString dd.val.year ++ "-" ++ d2 dd.val.month ++ "-" ++ d2 dd.val.day ++
        " " ++ d2 dd.val.hour ++ ":" ++ d2 dd.val.minute ++ ":" ++ d2 dd.val.second := rfl

theorem toTimestampString_data (dd : DateRec) :
    (toTimestampString dd .second).data =
      (intToString dd.val.year).data ++ '-' :: ((d2 dd.val.month).data ++ '-' ::
        ((d2 dd.val.day).data ++ ' ' :: ((d2 dd.val.hour).data ++ ':' ::
          ((d2 dd.val.minute).data ++ ':' :: (d2 dd.val.second).data)))) := by
  rw [toTimestampString_second_eq]
  simp [String.data_append, dash_data, colon_data, space_data]

theorem list_head_ne_nil {l : List Char} (h : l.length = 4) : ∃ c cs, l = c :: cs := by
  cases l with
  | nil => simp at h
  | cons c cs => exact ⟨c, cs, rfl⟩

theorem jsDateParse_toTimestampString (dd : DateRec)
    (h4 : (intToString dd.val.year).data.length = 4)
    (hdig : ∀ c ∈ (intToString dd.val.year).data, c.isDigit = true) :
    jsDateParse (toTimestampString dd .second) =
      some ⟨⟨dd.val.year, dd.val.month, dd.val.day, dd.val.hour, dd.val.minute,
        dd.val.second, 0⟩, ok_zero_ms dd⟩ := by
  obtain ⟨hm1, hm2, hd1, hd2, hh23, hmi59, hs59, _⟩ := dateRec_bounds dd
  have hdayle : dd.val.day ≤ 99 := by
    have := daysInMonth_le dd.val.year dd.val.month
    omega
  obtain ⟨hmoL, hmoD, hmoV⟩ := d2_props (show dd.val.month ≤ 99 by omega)
  obtain ⟨hdaL, hdaD, hdaV⟩ := d2_props hdayle
  obtain ⟨hhL, hhD, hhV⟩ := d2_props (show dd.val.hour ≤ 99 by omega)
  obtain ⟨hmiL, hmiD, hmiV⟩ := d2_props (show dd.val.minute ≤ 99 by omega)
  obtain ⟨hseL, hseD, hseV⟩ := d2_props (show dd.val.second ≤ 99 by omega)
  obtain ⟨hy1, hy2, hy0, hydata⟩ := intToString_four_digits h4 hdig
  have hymd : parseYMD (toTimestampString dd .second).data =
      some (dd.val.year, dd.val.month, dd.val.day,
        ' ' :: ((d2 dd.val.hour).data ++ ':' ::
          ((d2 dd.val.minute).data ++ ':' :: (d2 dd.val.second).data))) := by
    rw [toTimestampString_data]
    rw [parseYMD_exact _ _ _ _ hdig h4 hmoD hmoL hdaD hdaL
      (by intro x hx; simp at hx; subst hx; decide)]
    have hyv : digitsToNat (intToString dd.val.year).data = dd.val.year.natAbs := by
      rw [hydata, digitsToNat_roundtrip]
    rw [hyv, hmoV, hdaV, Int.natAbs_of_nonneg hy0]
  have hhms : parseHMS ((d2 dd.val.hour).data ++ ':' ::
      ((d2 dd.val.minute).data ++ ':' :: (d2 dd.val.second).data)) =
      some (dd.val.hour, dd.val.minute, dd.val.second, 0) := by
    rw [parseHMS_exact _ _ _ hhD hhL hmiD hmiL hseD hseL]
    rw [hhV, hmiV, hseV]
  have hmk := mkDateRec_ok (ok_zero_ms dd)
  simp [jsDateParse, hymd, hhms, hmk]

theorem toTimestampString_contains_space (dd : DateRec) :
    (toTimestampString dd .second).data.contains ' ' = true := by
  rw [toTimestampString_data]
  simp

theorem toTimestampString_trim (dd : DateRec)
    (h4 : (intToString dd.val.year).data.length = 4)
    (hdig : ∀ c ∈ (intToString dd.val.year).data, c.isDigit = true) :
    jsTrim (toTimestampString dd .second) = toTimestampString dd .second := by
  obtain ⟨hm1, hm2, hd1, hd2, hh23, hmi59, hs59, _⟩ := dateRec_bounds dd
  obtain ⟨hseL, hseD, hseV⟩ := d2_props (show dd.val.second ≤ 99 by omega)
  obtain ⟨se1, se2, hsedata⟩ := list_len2 hseL
  apply jsTrim_eq_self_of_ends
  · intro x hx
    obtain ⟨ch, cs, hcons⟩ := list_head_ne_nil h4
    rw [toTimestampString_data, hcons] at hx
    simp at hx
    subst hx
    exact isDigit_not_ws (hdig ch (by rw [hcons]; simp))
  · intro x hx
    have e : (toTimestampString dd .second).data =
        ((intToString dd.val.year).data ++ '-' :: ((d2 dd.val.month).data ++ '-' ::
          ((d2 dd.val.day).data ++ ' ' :: ((d2 dd.val.hour).data ++ ':' ::
            ((d2 dd.val.minute).data ++ [':']))))) ++ (d2 dd.val.second).data := by
      rw [toTimestampString_data]
      simp
    rw [e, List.getLast?_append_of_ne_nil _ (by rw [hsedata]; simp)] at hx
    rw [hsedata] at hx
    simp at hx
    subst hx
    exact isDigit_not_ws (hseD se2 (by rw [hsedata]; simp))

theorem timestamp_restable {x : JsValue} {s : String} {c : Ctx}
    (h : timestampParse {} x c = .ok (.str s)) (hlen : s.data.length = 19)
    (hdig4 : (s.data.take 4).all Char.isDigit = true) :
    timestampParse {} (.str s) c = .ok (.str s) := by
  simp only [timestampParse] at h
  by_cases hemp : looseEqEmptyStr x = true
  · rw [if_pos (by simp [hemp])] at h
    injection h with h
    injection h with h
    subst h
    simp at hlen
  · rw [if_neg (by simp [hemp])] at h
    rw [if_neg (by simp)] at h
    split at h
    · exact Except.noConfusion h
    · rename_i dd heq
      replace h : Except.ok (JsValue.str (toTimestampString dd .second)) =
          Except.ok (JsValue.str s) := h
      injection h with h
      injection h with h
      subst h
      obtain ⟨hm1, hm2, hd1, hd2, hh23, hmi59, hs59, _⟩ := dateRec_bounds dd
      have hdayle : dd.val.day ≤ 99 := by
        have := daysInMonth_le dd.val.year dd.val.month
        omega
      obtain ⟨hmoL, _, _⟩ := d2_props (show dd.val.month ≤ 99 by omega)
      obtain ⟨hdaL, _, _⟩ := d2_props hdayle
      obtain ⟨hhL, _, _⟩ := d2_props (show dd.val.hour ≤ 99 by omega)
      obtain ⟨hmiL, _, _⟩ := d2_props (show dd.val.minute ≤ 99 by omega)
      obtain ⟨hseL, _, _⟩ := d2_props (show dd.val.second ≤ 99 by omega)
      have hdata := toTimestampString_data dd
      have hylen : (intToString dd.val.year).data.length = 4 := by
        rw [hdata] at hlen
        simp only [List.length_append, List.length_cons, hmoL, hdaL, hhL, hmiL,
          hseL] at hlen
        omega
      have htake : (toTimestampString dd .second).data.take 4 =
          (intToString dd.val.year).data := by
        rw [hdata, ← hylen, List.take_left]
      have hydig : ∀ ch ∈ (intToString dd.val.year).data, ch.isDigit = true := by
        rw [htake] at hdig4
        exact fun ch hc => List.all_eq_true.mp hdig4 ch hc
      have hjs := jsDateParse_toTimestampString dd hylen hydig
      have hsp := toTimestampString_contains_space dd
      have htrim := toTimestampString_trim dd hylen hydig
      have hne : toTimestampString dd .second ≠ "" :=
        str_ne_of_data_ne (by intro hnil; rw [hnil] at hlen; simp at hlen)
      have hpds : ∀ (ctx' : Ctx) (et' : String),
          parseDateInString (jsTrim (toTimestampString dd .second)) ctx' et' =
            .ok ⟨⟨dd.val.year, dd.val.month, dd.val.day, dd.val.hour, dd.val.minute,
              dd.val.second, 0⟩, ok_zero_ms dd⟩ := by
        intro ctx' et'
        rw [htrim]
        simp only [parseDateInString]
        rw [htrim, hsp]
        simp only [Bool.not_true, Bool.and_false, Bool.false_and, Bool.false_eq_true,
          if_false, hjs]
      have hdp : ∀ (ctx' : Ctx), dateParse {} (.str (toTimestampString dd .second)) ctx' =
          .ok (.date (some ⟨⟨dd.val.year, dd.val.month, dd.val.day, dd.val.hour,
            dd.val.minute, dd.val.second, 0⟩, ok_zero_ms dd⟩)) := by
        intro ctx'
        simp [dateParse, hpds, dateParseCheck_default]
      simp [timestampParse, looseEqEmptyStr_str_ne hne, hdp, timestampMaxCheck]
      try rfl
    · rename_i w hdis heq
      obtain ⟨r, hr⟩ := dateParse_default_ok heq
      exact (hdis r hr).elim

/-- C6 counterexample: two primitives on the claim's list are not
idempotent with default options.  `checkbox` maps `'on'` to `true`, but
re-parsing `true` throws (`checkbox` only accepts `'on'`, `undefined`
and `''`); `dateString` normalizes the valid input `"0500-09-17"` to
`"500-09-17"` (the year is not re-padded to four digits), and
re-parsing that output throws because the date pattern requires a
four-digit year. -/
theorem primitive_reparse_counterexample :
    checkboxParse (.str "on") {} = .ok (.bool true) ∧
    (checkboxParse (.bool true) {}).isOk = false ∧
    dateStringParse {} (.str "0500-09-17") {} = .ok (.str "500-09-17") ∧
    (dateStringParse {} (.str "500-09-17") {}).isOk = false :=
  ⟨rfl, rfl, rfl, rfl⟩

/-- C6 (amended): for the primitive parsers `string`, `number`, `int`,
`float`, `boolean`, `color`, `date`, `literal`, `values`, `url`,
`email` and `timeString` with default options, any successful parse
output re-parses to itself; for `dateString` and `timestamp` the same
holds for every output whose year renders as four digits (the
canonical-output lengths 10 and 19 with a leading four-digit year).
`checkbox` is excluded: its output `true` does not re-parse (see the
counterexample). -/
theorem primitive_parsers_idempotent :
    (∀ (x v : JsValue) (c : Ctx), stringParse {} x c = .ok v →
      stringParse {} v c = .ok v) ∧
    (∀ (x v : JsValue) (c : Ctx), numberParse {} x c = .ok v →
      numberParse {} v c = .ok v) ∧
    (∀ (x v : JsValue) (c : Ctx), intParse {} x c = .ok v →
      intParse {} v c = .ok v) ∧
    (∀ (x v : JsValue) (c : Ctx), floatParse {} x c = .ok v →
      floatParse {} v c = .ok v) ∧
    (∀ (x v : JsValue) (c : Ctx), booleanParse none x c = .ok v →
      booleanParse none v c = .ok v) ∧
    (∀ (x v : JsValue) (c : Ctx), colorParse x c = .ok v →
      colorParse v c = .ok v) ∧
    (∀ (x v : JsValue) (c : Ctx), dateParse {} x c = .ok v →
      dateParse {} v c = .ok v) ∧
    (∀ (w x v : JsValue) (c : Ctx), literalParse w x c = .ok v →
      literalParse w v c = .ok v) ∧
    (∀ (vals : List JsValue) (x v : JsValue) (c : Ctx),
      valuesParse vals x c = .ok v → valuesParse vals v c = .ok v) ∧
    (∀ (x v : JsValue) (c : Ctx), urlParse {} x c = .ok v →
      urlParse {} v c = .ok v) ∧
    (∀ (x v : JsValue) (c : Ctx), emailParse {} x c = .ok v →
      emailParse {} v c = .ok v) ∧
    (∀ (x v : JsValue) (c : Ctx), timeStringParse {} x c = .ok v →
      timeStringParse {} v c = .ok v) ∧
    (∀ (x : JsValue) (s : String) (c : Ctx),
      dateStringParse {} x c = .ok (.str s) → s.data.length = 10 →
      (s.data.take 4).all Char.isDigit = true →
      dateStringParse {} (.str s) c = .ok (.str s)) ∧
    (∀ (x : JsValue) (s : String) (c : Ctx),
      timestampParse {} x c = .ok (.str s) → s.data.length = 19 →
      (s.data.take 4).all Char.isDigit = true →
      timestampParse {} (.str s) c = .ok (.str s)) :=
  ⟨fun _ _ _ h => string_restable h, fun _ _ _ h => number_restable h,
   fun _ _ _ h => int_restable h, fun _ _ _ h => float_restable h,
   fun _ _ _ h => boolean_restable h, fun _ _ _ h => color_restable h,
   fun _ _ _ h => date_restable h, fun _ _ _ _ h => literal_restable h,
   fun _ _ _ _ h => values_restable h, fun _ _ _ h => url_restable h,
   fun _ _ _ h => email_restable h, fun _ _ _ h => timeString_restable h,
   fun _ _ _ h h1 h2 => dateString_restable h h1 h2,
   fun _ _ _ h h1 h2 => timestamp_restable h h1 h2⟩

/-- Witness for `primitive_parsers_idempotent` at concrete inputs, one
per conjunct, with every hypothesis discharged by evaluation. -/
theorem primitive_parsers_idempotent_witness :
    stringParse {} (.str "a") {} = .ok (.str "a") ∧
    numberParse {} (.num (jsInt 5)) {} = .ok (.num (jsInt 5)) ∧
    intParse {} (.num (jsInt 42)) {} = .ok (.num (jsInt 42)) ∧
    floatParse {} (.num (jsDec 2500 3)) {} = .ok (.num (jsDec 2500 3)) ∧
    booleanParse none (.bool true) {} = .ok (.bool true) ∧
    colorParse (.str "#00ff00") {} = .ok (.str "#00ff00") ∧
    dateParse {} (.date (some ⟨⟨2022, 9, 17, 0, 0, 0, 0⟩, by decide⟩)) {} =
      .ok (.date (some ⟨⟨2022, 9, 17, 0, 0, 0, 0⟩, by decide⟩)) ∧
    literalParse (.str "a") (.str "a") {} = .ok (.str "a") ∧
    valuesParse [.str "x", .str "y"] (.str "x") {} = .ok (.str "x") ∧
    urlParse {} (.str "https://example.net/x") {} =
      .ok (.str "https://example.net/x") ∧
    emailParse {} (.str "a@b.c") {} = .ok (.str "a@b.c") ∧
    timeStringParse {} (.str "09:05") {} = .ok (.str "09:05") ∧
    dateStringParse {} (.str "2022-09-17") {} = .ok (.str "2022-09-17") ∧
    timestampParse {} (.str "2022-09-17 13:45:00") {} =
      .ok (.str "2022-09-17 13:45:00") := by
  obtain ⟨hstr, hnum, hint, hflt, hbool, hcol, hdate, hlit, hval, hurl, hem,
    hts, hds, htst⟩ := primitive_parsers_idempotent
  exact ⟨hstr (.str " a ") (.str "a") {} rfl,
    hnum (.num (jsInt 5)) (.num (jsInt 5)) {} rfl,
    hint (.num (jsInt 42)) (.num (jsInt 42)) {} rfl,
    hflt (.num (jsDec 2500 3)) (.num (jsDec 2500 3)) {} rfl,
    hbool (.bool true) (.bool true) {} rfl,
    hcol (.str "#00ff00") (.str "#00ff00") {} rfl,
    hdate (.date (some ⟨⟨2022, 9, 17, 0, 0, 0, 0⟩, by decide⟩))
      (.date (some ⟨⟨2022, 9, 17, 0, 0, 0, 0⟩, by decide⟩)) {} rfl,
    hlit (.str "a") (.str "a") (.str "a") {} rfl,
    hval [.str "x", .str "y"] (.str "x") (.str "x") {} rfl,
    hurl (.str "https://example.net/x") (.str "https://example.net/x") {} rfl,
    hem (.str "a@b.c") (.str "a@b.c") {} rfl,
    hts (.str "09:05") (.str "09:05") {} rfl,
    hds (.str "2022-09-17") ("2022-09-17") {} rfl rfl rfl,
    htst (.str "2022-09-17 13:45:00") ("2022-09-17 13:45:00") {} rfl rfl rfl⟩

end Cast
